import Mathlib

/-!
# ngxsbs `parser.c`: a shallow embedding and its verified properties

The development follows `src/parser.c`.  C strings are modelled by the list of
their characters before the terminating NUL, a possibly-NULL `char*` by an
`Option`, a NULL-terminated linked list by a `List`.
-/

namespace Ngxsbs

/-- A C string: the characters before the terminating NUL. -/
abbrev CStr := List Char

/-- The character `text[i]` of a C string; the terminating NUL sits at index
`strlen(text)`. -/
def charAt (text : CStr) (i : Nat) : Char := text.getD i '\x00'

/-- The test `strcmp(a, b) == 0`. -/
def streq (a b : CStr) : Bool := decide (a = b)

/-! ## Validators (`parser.c` lines 29-77) -/

/-- `valid_suffix(domain, text)`, lines 29-44. `&text[tlen - dlen]` is the
string left after dropping the first `tlen - dlen` characters. -/
def valid_suffix (domain : CStr) (text : Option CStr) : Bool :=
  match text with
  | none => false
  | some text =>
    let dlen := domain.length
    let tlen := text.length
    if dlen = tlen then
      streq domain text
    else if dlen < tlen ∧ charAt text (tlen - dlen - 1) = '.' then
      streq domain (text.drop (tlen - dlen))
    else
      false

/-- The loop of lines 56-59 of `valid_prefix`, started at index `c`, with
`n` iterations left (`n = slen - c`): the first differing character returns 0,
running off the end returns 1. -/
def valid_prefix_loop (sub text : CStr) : Nat → Nat → Bool
  | 0, _ => true
  | n + 1, c => if charAt sub c ≠ charAt text c then false else valid_prefix_loop sub text n (c + 1)

/-- `valid_prefix(sub, text)`, lines 46-64. -/
def valid_prefix (sub : CStr) (text : Option CStr) : Bool :=
  match text with
  | none => false
  | some text =>
    let slen := sub.length
    let tlen := text.length
    if slen = tlen then
      streq sub text
    else if slen < tlen then
      valid_prefix_loop sub text slen 0
    else
      false

/-- A `BindingT` cell without its `next` link; a binding list is a `List`. -/
structure BindingT where
  name : CStr
  value : Option CStr
  deriving DecidableEq, Repr

/-- The three tests lines 70-72 make on one constraint whose name matched.
Line 70 compares the two pointers: they are equal when both are NULL; two
equal non-NULL pointers hold the same string, which line 72 accepts too. -/
def constraint_grants (value : Option CStr) (c : BindingT) : Bool :=
  (value.isNone && c.value.isNone)
  || (value.isNone && c.value.isSome && decide (c.value = some []))
  || (value.isSome && c.value.isSome && valid_prefix (c.value.getD []) value)

/-- The `while (constraints)` loop of `valid_directive`, lines 68-76. -/
def valid_directive_scan (dir : CStr) (value : Option CStr) : List BindingT → Bool
  | [] => false
  | c :: rest =>
    if streq dir c.name && constraint_grants value c then true
    else valid_directive_scan dir value rest

/-- `valid_directive(dir, value, constraints)`, lines 66-77. -/
def valid_directive (dir : CStr) (value : Option CStr) (constraints : List BindingT) : Bool :=
  match constraints with
  | [] => true
  | _ => valid_directive_scan dir value constraints

/-- The reference definition of §4.3 (`isDirectiveAllowed`), written from the
specification's words: everything is allowed under an empty list; otherwise some
entry has the same name and either both values are absent, or the call's value
is absent and the entry's is the empty string, or both are present and the
entry's value is a prefix of the call's. -/
def isDirectiveAllowed (name : CStr) (value : Option CStr) (constraints : List BindingT) : Prop :=
  constraints = [] ∨
  ∃ e ∈ constraints, e.name = name ∧
    ((value = none ∧ e.value = none)
      ∨ (value = none ∧ e.value = some [])
      ∨ (∃ v ev, value = some v ∧ e.value = some ev ∧ valid_prefix ev (some v) = true))

/-! ## Tokens, nodes and outcomes

`parser.h`, `scanner.c`, `node.c`, `binding.c` and `error.c` are not among the
sources; what `parser.c` uses of them is modelled here. -/

/-- Modelled from the spec: the `NK_` kind constants of `parser.h`, "a fixed set
of mutually-exclusive bit flags" (§3). The sentinel `NK_CHAIN` of container
nodes is the constructor `NodeT.chain`. -/
inductive NodeKind
  | NK_WORD | NK_CONTENT | NK_STRING | NK_LB | NK_RB | NK_SEMI | NK_BREAK | NK_SKIP | NK_EOF
  deriving DecidableEq, Repr

open NodeKind

/-- A set of kinds, the model of an OR of `NK_` flags: `a|b` is a list holding
both, `0` the empty list. -/
abbrev KindMask := List NodeKind

/-- The test `kind & kinds` of a one-bit kind against a mask. -/
def hasKind (kinds : KindMask) (kind : NodeKind) : Bool := kinds.contains kind

/-- Modelled from the spec: a token as the scanner returns it, the leaf shape of
`NodeT` (§3: kind, optional text, line, ends_line). -/
structure Token where
  kind : NodeKind
  text : Option CStr
  line : Nat
  ends_line : Bool
  deriving DecidableEq, Repr

/-- Modelled from the spec: `NodeT` of `parser.h`, a leaf token or a `NK_CHAIN`
container whose `children` pointer heads a `next`-linked sibling list. -/
inductive NodeT
  | leaf (token : Token)
  | chain (children : List NodeT)

/-- The messages of the `error(...)` calls of `parser.c`. -/
inductive ErrorT
  | template_format_error
  | server_directive_expected
  | domain_not_valid
  | domain_name_expected
  | lbrace_expected
  | rbrace_expected
  | directive_expected
  | directive_and_parameter_invalid
  | directive_invalid
  | lbrace_or_semi_expected
  | host_template_expected
  deriving DecidableEq, Repr

/-- How a call ends: it returns a value; it calls `error`, which reports a line
and ends the process; it dereferences a NULL pointer; or the fuel given to the
model ran out before the call returned. -/
inductive Outcome (α : Type)
  | ok (a : α)
  | error (e : ErrorT) (line : Nat)
  | crash
  | timeout

namespace Outcome

/-- Sequencing: the continuation runs on a returned value only. -/
def bind {α β : Type} (x : Outcome α) (f : α → Outcome β) : Outcome β :=
  match x with
  | ok a => f a
  | error e l => error e l
  | crash => crash
  | timeout => timeout

instance : Monad Outcome where
  pure := Outcome.ok
  bind := Outcome.bind

/-- Whether the call returned. -/
def isOk {α : Type} : Outcome α → Bool
  | ok _ => true
  | _ => false

/-- Whether the call ended in `error(...)`. -/
def isError {α : Type} : Outcome α → Bool
  | error _ _ => true
  | _ => false

/-- The returned value, when there is one. -/
def value? {α : Type} : Outcome α → Option α
  | ok a => some a
  | _ => none

end Outcome

open Outcome

/-- Reading through a pointer: NULL crashes. -/
def deref {α : Type} : Option α → Outcome α
  | some a => ok a
  | none => crash

/-- The leaf tokens of a node, depth first, left to right. -/
def NodeT.leaves : NodeT → List Token
  | NodeT.leaf t => [t]
  | NodeT.chain cs => leavesList cs
where
  /-- The leaf tokens of a sibling list. -/
  leavesList : List NodeT → List Token
  | [] => []
  | n :: ns => NodeT.leaves n ++ leavesList ns

/-! ## Scanner and lookahead (`parser.c` lines 109-138) -/

/-- Modelled from the spec: the tokenizer of §6, a finite token stream after
which `scanner_scan` returns an `EOF` token "repeatable on further calls". The
stream is already classified, so the two mode flags do not change it. -/
structure ScannerT where
  input : List Token
  eof_line : Nat

/-- The `EOF` token the scanner returns once its input is exhausted. -/
def eof_token (line : Nat) : Token := ⟨NK_EOF, none, line, true⟩

/-- Modelled from the spec: `scanner_scan(scanner, allowWord, allowBreak)`. -/
def scanner_scan (s : ScannerT) (_allowWord _allowBreak : Bool) : Token × ScannerT :=
  match s.input with
  | [] => (eof_token s.eof_line, s)
  | t :: rest => (t, { s with input := rest })

/-- `ParserT`, lines 8-17, without `filename` (it only appears in messages) and
`allowVar` (never read). `consumed` and `released` are history variables that no
control flow reads: the tokens `consume_token` handed out and the tokens given
to `release_node`, in order. -/
structure ParserT where
  domain : CStr
  scanner : ScannerT
  pending_token : Option Token
  constraints : List BindingT
  primed : Bool
  allowBreak : Bool
  consumed : List Token
  released : List Token

/-- `init_parser`, lines 109-121; `scanner` is what `init_scanner` returns. -/
def parser_init (domain : CStr) (allowBreak : Bool) (constraints : List BindingT)
    (scanner : ScannerT) : ParserT :=
  { domain := domain, scanner := scanner, pending_token := none, constraints := constraints,
    primed := false, allowBreak := allowBreak, consumed := [], released := [] }

/-- `next_token`, lines 123-131. -/
def next_token (p : ParserT) (allowWord : Bool) : Option Token × ParserT :=
  let p1 :=
    if !p.primed then
      let r := scanner_scan p.scanner allowWord p.allowBreak
      { p with pending_token := some r.1, scanner := r.2, primed := true }
    else p
  (p1.pending_token, p1)

/-- `consume_token`, lines 133-138. -/
def consume_token (p : ParserT) : Option Token × ParserT :=
  (p.pending_token,
    { p with primed := false, pending_token := none,
             consumed := p.consumed ++ p.pending_token.toList })

/-- `release_node(token)` on a token: it is freed. -/
def release_node (p : ParserT) (token : Token) : ParserT :=
  { p with released := p.released ++ [token] }

/-- `next_token` followed by the first read through the returned pointer. -/
def peek (p : ParserT) (allowWord : Bool) : Outcome (Token × ParserT) :=
  match next_token p allowWord with
  | (some t, p1) => ok (t, p1)
  | (none, _) => crash

/-! ## Chain builder (`parser.c` lines 154-234) -/

/-- A chain under construction with its `last` cursor: `upto` holds the children
up to and including `*last` (it is empty while `last` is NULL), `rest` the
siblings still linked after `*last`. -/
structure ChainT where
  upto : List NodeT
  rest : List NodeT

/-- `init_chain`, lines 154-164, with `last = NULL`. -/
def init_chain : ChainT := ⟨[], []⟩

/-- The `children` list of the chain. -/
def ChainT.children (c : ChainT) : List NodeT := c.upto ++ c.rest

/-- `chain_add(chain, last, item)`, lines 166-176, for a non-NULL `item` whose
`next` link heads `siblings`: `item` is linked after `*last` (or becomes the
first child), what hung after `*last` is unlinked, and `last` moves to `item`. -/
def chain_add (c : ChainT) (item : NodeT) (siblings : List NodeT) : ChainT :=
  ⟨c.upto ++ [item], siblings⟩

/-- `chain_take`, lines 178-188: the flag returned, `*token`, the chain and the
parser. -/
def chain_take (p : ParserT) (c : ChainT) (kinds : KindMask) (allowWord : Bool) :
    Outcome (Bool × Token × ChainT × ParserT) := do
  let (token, p) ← peek p allowWord
  if hasKind kinds token.kind then
    let c := chain_add c (NodeT.leaf token) []
    let p := (consume_token p).2
    ok (true, token, c, p)
  else
    ok (false, token, c, p)

/-- The `while` loop of `chain_gobble_skip`, lines 194-201, entered with
`*token = token`. -/
def chain_gobble_skip_loop (alsoSkip : KindMask) (allowWord allowEOL continueAfterEOL : Bool) :
    Nat → ParserT → ChainT → Token → Outcome (Token × ChainT × ParserT)
  | 0, _, _, _ => timeout
  | fuel + 1, p, c, token =>
    if hasKind (NK_SKIP :: alsoSkip) token.kind then
      let p := (consume_token p).2
      let c := chain_add c (NodeT.leaf token) []
      if token.ends_line && !allowEOL then ok (token, c, p)
      else
        let stop := token.ends_line && !continueAfterEOL
        match peek p allowWord with
        | ok (token, p) =>
          if stop then ok (token, c, p)
          else chain_gobble_skip_loop alsoSkip allowWord allowEOL continueAfterEOL fuel p c token
        | error e l => error e l
        | crash => crash
        | timeout => timeout
    else ok (token, c, p)

/-- `chain_gobble_skip`, lines 190-203: `*token`, the chain and the parser (the
returned flag is always 0). -/
def chain_gobble_skip (fuel : Nat) (p : ParserT) (c : ChainT) (alsoSkip : KindMask)
    (allowWord allowEOL continueAfterEOL : Bool) : Outcome (Token × ChainT × ParserT) := do
  let (token, p) ← peek p allowWord
  chain_gobble_skip_loop alsoSkip allowWord allowEOL continueAfterEOL fuel p c token

/-- The `while` loop of `skip_tokens`, lines 207-211 (and of `take_token`, lines
217-221), entered with `token`. -/
def skip_tokens_loop (allowWord : Bool) (kinds : KindMask) (allowEOL : Bool) :
    Nat → ParserT → Token → Outcome (Token × ParserT)
  | 0, _, _ => timeout
  | fuel + 1, p, token =>
    if hasKind kinds token.kind && (allowEOL || !token.ends_line) then
      let p := (consume_token p).2
      let p := release_node p token
      match peek p allowWord with
      | ok (token, p) => skip_tokens_loop allowWord kinds allowEOL fuel p token
      | error e l => error e l
      | crash => crash
      | timeout => timeout
    else ok (token, p)

/-- `skip_tokens`, lines 205-213. -/
def skip_tokens (fuel : Nat) (p : ParserT) (allowWord : Bool) (kinds : KindMask)
    (allowEOL : Bool) : Outcome (Token × ParserT) := do
  let (token, p) ← peek p allowWord
  skip_tokens_loop allowWord kinds allowEOL fuel p token

/-- `take_token`, lines 215-234; NULL is `none`. -/
def take_token (fuel : Nat) (p : ParserT) (allowWord : Bool) (kinds skips : KindMask)
    (allowEOL failOnError : Bool) : Outcome (Option Token × ParserT) := do
  let (token, p) ← skip_tokens fuel p allowWord skips allowEOL
  if !hasKind kinds token.kind then
    if failOnError then error ErrorT.template_format_error token.line
    else ok (none, p)
  else ok (consume_token p)

/-! ## User-configuration grammar (`parser.c` lines 236-353) -/

/-- The call `valid_directive(dir->text, value, constraints)`: `strcmp` reads
`dir->text` as soon as there is a constraint to compare with. -/
def valid_directive_call (dir value : Option CStr) (constraints : List BindingT) :
    Outcome Bool :=
  match constraints, dir with
  | [], _ => ok true
  | _ :: _, none => crash
  | _ :: _, some d => ok (valid_directive d value constraints)

/-- The loop of line 330: `chain_take` of parameter tokens until it fails. -/
def parse_section_params (kinds : KindMask) :
    Nat → ParserT → ChainT → Outcome (Token × ChainT × ParserT)
  | 0, _, _ => timeout
  | fuel + 1, p, c => do
    let (took, token, c, p) ← chain_take p c kinds false
    if took then parse_section_params kinds fuel p c
    else ok (token, c, p)

/-- The call of line 276, 281, 336 and 350: gobble unless `token` ends its line. -/
def gobble_unless_eol (fuel : Nat) (p : ParserT) (c : ChainT) (token : Token)
    (alsoSkip : KindMask) (allowWord : Bool) : Outcome (Token × ChainT × ParserT) :=
  if !token.ends_line then chain_gobble_skip fuel p c alsoSkip allowWord true false
  else ok (token, c, p)

/-- The `while (item)` loop of `parser_parse_section_list`, lines 290-294, over
the call `parser_parse_section(parser, alsoSkip)` given as `parse_section`. -/
def parser_parse_section_list_loop (parse_section : ParserT → Outcome (List NodeT × ParserT)) :
    Nat → ParserT → ChainT → Outcome (ChainT × ParserT)
  | 0, _, _ => timeout
  | fuel + 1, p, c => do
    let (item, p) ← parse_section p
    match item with
    | [] => ok (c, p)
    | first :: siblings =>
      parser_parse_section_list_loop parse_section fuel p (chain_add c first siblings)

/-- The body of `parser_parse_section_list`, lines 286-296, over the call
`parser_parse_section(parser, alsoSkip)` given as `parse_section`. -/
def parse_section_list_with (parse_section : ParserT → Outcome (List NodeT × ParserT))
    (fuel : Nat) (p : ParserT) : Outcome (NodeT × ParserT) := do
  let (c, p) ← parser_parse_section_list_loop parse_section fuel p init_chain
  ok (NodeT.chain c.children, p)

/-- `parser_parse_section`, lines 298-353. The result is the returned `NodeT*`
with its `next` siblings: `[]` for NULL, the consumed token for line 305, the
gobbled tokens for line 317, the section's chain for line 352. The fuel bounds
the nesting depth of sections and the number of iterations of each loop. -/
def parser_parse_section : Nat → ParserT → KindMask → Outcome (List NodeT × ParserT)
  | 0, _, _ => timeout
  | fuel + 1, p, alsoSkip => do
    let (token, p) ← peek p true
    if hasKind (NK_SKIP :: alsoSkip) token.kind && token.ends_line then
      let r := consume_token p
      ok ((r.1.map NodeT.leaf).toList, r.2)
    else if token.kind = NK_BREAK && !hasKind alsoSkip NK_BREAK then ok ([], p)
    else if token.kind = NK_EOF then ok ([], p)
    else
      let c := init_chain
      let (token, c, p) ← chain_gobble_skip fuel p c alsoSkip true false false
      if token.kind = NK_RB then ok (c.children, p)
      else
        let (took, token, c, p) ← chain_take p c [NK_WORD] true
        if !took then error ErrorT.directive_expected token.line
        else
          let dir := token
          let ok0 ← valid_directive_call dir.text none p.constraints
          let (_, c, p) ← chain_gobble_skip fuel p c alsoSkip false true true
          let (took, token, c, p) ←
            chain_take p c (NK_CONTENT :: NK_STRING :: NK_SKIP :: alsoSkip) false
          let (ok1, token, c, p) ←
            (if took then do
              let ok1 ← if ok0 then ok true
                        else valid_directive_call dir.text token.text p.constraints
              if !ok1 then error ErrorT.directive_and_parameter_invalid dir.line
              else
                let (token, c, p) ←
                  parse_section_params (NK_CONTENT :: NK_STRING :: NK_SKIP :: alsoSkip) fuel p c
                ok (ok1, token, c, p)
            else ok (ok0, token, c, p) : Outcome (Bool × Token × ChainT × ParserT))
          if !ok1 then error ErrorT.directive_invalid dir.line
          else
            let (token, c, p) ←
              (if token.kind = NK_LB then do
                let (_, token, c, p) ← chain_take p c [NK_LB] false
                let (_, c, p) ← gobble_unless_eol fuel p c token alsoSkip false
                let (list, p) ←
                  parse_section_list_with (fun q => parser_parse_section fuel q alsoSkip) fuel p
                let c := chain_add c list []
                let (took, token, c, p) ← chain_take p c [NK_RB] true
                if !took then error ErrorT.rbrace_expected token.line
                else ok (token, c, p)
              else if token.kind = NK_SEMI then do
                let (_, token, c, p) ← chain_take p c [NK_SEMI] true
                ok (token, c, p)
              else if token.kind ≠ NK_BREAK then
                error ErrorT.lbrace_or_semi_expected token.line
              else ok (token, c, p) : Outcome (Token × ChainT × ParserT))
            let (_, c, p) ← gobble_unless_eol fuel p c token alsoSkip true
            ok ([NodeT.chain c.children], p)

/-- `parser_parse_section_list`, lines 286-296. -/
def parser_parse_section_list (fuel : Nat) (p : ParserT) (alsoSkip : KindMask) :
    Outcome (NodeT × ParserT) :=
  parse_section_list_with (fun q => parser_parse_section fuel q alsoSkip) fuel p

/-- The loop of lines 266-272 of `parser_parse_server_block`: `*token`, the
chain, `num_domains` and the parser when `chain_take` fails. -/
def parse_server_domains : Nat → ParserT → ChainT → Nat →
    Outcome (Token × ChainT × Nat × ParserT)
  | 0, _, _, _ => timeout
  | fuel + 1, p, c, num_domains => do
    let (took, token, c, p) ← chain_take p c [NK_CONTENT] false
    if took then
      let num_domains ←
        (if hasKind [NK_CONTENT] token.kind then
          if !valid_suffix p.domain token.text then error ErrorT.domain_not_valid token.line
          else ok (num_domains + 1)
        else ok num_domains : Outcome Nat)
      let (_, p) ← skip_tokens fuel p false [NK_SKIP] true
      parse_server_domains fuel p c num_domains
    else ok (token, c, num_domains, p)

/-- `parser_parse_server_block`, lines 248-284; NULL is `none`. Line 255 reads
`token->kind` through the pointer fetched at line 252, also when `skip_tokens`
has released that token in between: the kind read is the one the token had. -/
def parser_parse_server_block (fuel : Nat) (p : ParserT) : Outcome (Option NodeT × ParserT) := do
  let (token, p) ← peek p true
  let (_, p) ← skip_tokens fuel p true [NK_SKIP] true
  if token.kind ≠ NK_WORD then ok (none, p)
  else
    let c := init_chain
    let (took, token, c, p) ← chain_take p c [NK_WORD] false
    if !took then error ErrorT.server_directive_expected token.line
    else
      let text ← deref token.text
      if !streq "server".toList text then error ErrorT.server_directive_expected token.line
      else
        let server_line := token.line
        let (_, p) ← skip_tokens fuel p false [NK_SKIP] true
        let (_, c, num_domains, p) ← parse_server_domains fuel p c 0
        if num_domains = 0 then error ErrorT.domain_name_expected server_line
        else
          let (took, token, c, p) ← chain_take p c [NK_LB] false
          if !took then error ErrorT.lbrace_expected token.line
          else
            let (_, c, p) ← gobble_unless_eol fuel p c token [NK_BREAK] true
            let (list, p) ← parser_parse_section_list fuel p [NK_BREAK]
            let c := chain_add c list []
            let (took, token, c, p) ← chain_take p c [NK_RB] true
            if !took then error ErrorT.rbrace_expected token.line
            else
              let (_, c, p) ← gobble_unless_eol fuel p c token [NK_BREAK] true
              ok (some (NodeT.chain c.children), p)

/-- The `while (item)` loop of `parser_parse_conf`, lines 240-244. -/
def parser_parse_conf_loop : Nat → ParserT → ChainT → Outcome (ChainT × ParserT)
  | 0, _, _ => timeout
  | fuel + 1, p, conf => do
    let (item, p) ← parser_parse_server_block fuel p
    match item with
    | none => ok (conf, p)
    | some item => parser_parse_conf_loop fuel p (chain_add conf item [])

/-- `parser_parse_conf`, lines 236-246. -/
def parser_parse_conf (fuel : Nat) (p : ParserT) : Outcome (NodeT × ParserT) := do
  let (conf, p) ← parser_parse_conf_loop fuel p init_chain
  ok (NodeT.chain conf.children, p)

/-- `parse_user_conf`, lines 140-145, on the token stream of the file. -/
def parse_user_conf (fuel : Nat) (domain : CStr) (constraints : List BindingT)
    (scanner : ScannerT) : Outcome NodeT := do
  let (node, _) ← parser_parse_conf fuel (parser_init domain false constraints scanner)
  ok node

/-! ## Template grammar (`parser.c` lines 355-435) -/

/-- Modelled from the spec: `init_binding(name, value)` of `binding.c`, a new
binding cell holding the two strings (§3). -/
def init_binding (name : CStr) (value : Option CStr) : BindingT := ⟨name, value⟩

/-- Modelled from the spec: `add_known_binding(list, item)` of `binding.c`; §4.5
only says that the pairs are accumulated into the list, here in file order. -/
def add_known_binding (list : List BindingT) (item : BindingT) : List BindingT :=
  list ++ [item]

/-- `release_node` on a possibly-NULL token. -/
def release_node_opt (p : ParserT) : Option Token → ParserT
  | some t => release_node p t
  | none => p

/-- `parser_parse_pair`, lines 355-368; NULL is `none`. `init_binding` is taken to
read its `name` argument, so a name token without text crashes. -/
def parser_parse_pair (fuel : Nat) (p : ParserT) : Outcome (Option BindingT × ParserT) := do
  let (name, p) ← take_token fuel p true [NK_WORD] [NK_SKIP] true false
  match name with
  | none => ok (none, p)
  | some name =>
    let (value, p) ← take_token fuel p false [NK_CONTENT] [NK_SKIP] false false
    let p ←
      (match value with
      | some v =>
        if !v.ends_line then do
          let (_, p) ← skip_tokens fuel p true [NK_SKIP] false
          ok p
        else ok p
      | none => ok p : Outcome ParserT)
    let name_text ← deref name.text
    let binding := init_binding name_text (value.bind Token.text)
    let p := release_node p name
    let p := release_node_opt p value
    ok (some binding, p)

/-- How far a loop `for (; text[i] != 0 && cond(text[i]); i++)` advances over the
characters `text` that start at its index. -/
def scan_while (cond : Char → Bool) : CStr → Nat
  | [] => 0
  | ch :: rest => if ch ≠ '\x00' ∧ cond ch then scan_while cond rest + 1 else 0

/-- `extract_prefix`, lines 370-389; NULL is `none`. The result is the
`rest - start` characters copied from `&text[start]`. -/
def extract_prefix (text : CStr) : Option CStr :=
  if charAt text 0 ≠ '=' then none
  else
    let start := scan_while (fun ch => ch = '=' || ch = ' ' || ch = '\t') text
    if charAt text start ≠ 'h' then none
    else if charAt text (start + 1) ≠ 'o' then none
    else if charAt text (start + 2) ≠ 's' then none
    else if charAt text (start + 3) ≠ 't' then none
    else if charAt text (start + 4) ≠ ' ' ∧ charAt text (start + 4) ≠ '\t' then none
    else
      let start := start + 5
      let start := start + scan_while (fun ch => ch = ' ' || ch = '\t') (text.drop start)
      let rest := start +
        scan_while (fun ch => ch = ' ' && ch ≠ '\t' && ch ≠ '=') (text.drop start)
      some ((text.drop start).take (rest - start))

/-- `TemplateT` of `parser.h` without its `next` link (the field `prefix` is
`pfx` here); a template list is a `List` whose head is the pointer returned. -/
structure TemplateT where
  pfx : CStr
  headPattern : NodeT
  tailPattern : Option NodeT

/-- The loop of lines 403-407 of `parser_parse_template`. -/
def parse_template_pairs : Nat → ParserT → List BindingT → Outcome (List BindingT × ParserT)
  | 0, _, _ => timeout
  | fuel + 1, p, list => do
    let (item, p) ← parser_parse_pair fuel p
    match item with
    | none => ok (list, p)
    | some item => parse_template_pairs fuel p (add_known_binding list item)

/-- The `while (token)` loop of `parser_parse_template`, lines 411-433, entered
with `token`, the current value of the local `tailPattern` and the list `t` built
so far. -/
def parse_template_groups : Nat → ParserT → Option Token → Option NodeT → List TemplateT →
    Outcome (List TemplateT × ParserT)
  | 0, _, _, _, _ => timeout
  | _ + 1, p, none, _, t => ok (t, p)
  | fuel + 1, p, some token, tailPattern, t => do
    let text ← deref token.text
    match extract_prefix text with
    | none => error ErrorT.host_template_expected token.line
    | some pfx =>
      let p := release_node p token
      let (headPattern, p) ← parser_parse_section_list fuel p []
      let (token, p) ← take_token fuel p false [NK_BREAK] [NK_SKIP] true false
      let (token, tailPattern, p) ←
        (match token with
        | none => ok (none, tailPattern, p)
        | some tk => do
          let text ← deref tk.text
          if charAt text 0 ≠ '=' then
            let p := release_node p tk
            let (tail, p) ← parser_parse_section_list fuel p []
            let (token, p) ← take_token fuel p false [NK_BREAK] [NK_SKIP] true false
            ok (token, some tail, p)
          else ok (some tk, tailPattern, p)
          : Outcome (Option Token × Option NodeT × ParserT))
      parse_template_groups fuel p token tailPattern (⟨pfx, headPattern, tailPattern⟩ :: t)

/-- `parser_parse_template`, lines 391-435: the template list returned, the
list stored in `*constraints`, and the parser. -/
def parser_parse_template (fuel : Nat) (p : ParserT) :
    Outcome (List TemplateT × List BindingT × ParserT) := do
  let (first, p) ← take_token fuel p false [NK_BREAK] [NK_SKIP] true false
  let p := release_node_opt p first
  let (list, p) ← parse_template_pairs fuel p []
  let (token, p) ← take_token fuel p false [NK_BREAK] [NK_SKIP] true false
  let (t, p) ← parse_template_groups fuel p token none []
  ok (t, list, p)

/-- `parse_template`, lines 147-152, on the token stream of the file (`domain`
is stored and never read). -/
def parse_template (fuel : Nat) (domain : CStr) (scanner : ScannerT) :
    Outcome (List TemplateT × List BindingT) := do
  let (t, list, _) ← parser_parse_template fuel (parser_init domain true [] scanner)
  ok (t, list)

/-- The shape of a well-formed marker line (§4.5): the line begins with `=`, and
after its leading run of `=`, spaces and tabs come the literal `host` and then a
space or a tab. -/
def marker_line (text : CStr) : Prop :=
  text.head? = some '=' ∧
  ∃ sep rest, (sep = ' ' ∨ sep = '\t') ∧
    text.dropWhile (fun ch => ch = '=' || ch = ' ' || ch = '\t')
      = 'h' :: 'o' :: 's' :: 't' :: sep :: rest

/-! ## Vocabulary of the properties -/

/-- The tokens not yet consumed: the buffered lookahead, if any, then what the
scanner has not returned yet. -/
def ahead (p : ParserT) : List Token :=
  (if p.primed then p.pending_token.toList else []) ++ p.scanner.input

/-- The lookahead buffer holds the token `t`. -/
def Holds (p : ParserT) (t : Token) : Prop :=
  p.primed = true ∧ p.pending_token = some t

/-- The lookahead buffer holds a `}`. -/
def AtRB (p : ParserT) : Prop := ∃ t, Holds p t ∧ t.kind = NK_RB

/-- `Adv p q cs rs`: between the parser states `p` and `q` exactly the tokens
`cs` were consumed, in this order, none of them an `EOF`, the tokens `rs` were
released, the unread stream lost `cs` at its front (and may have gained `EOF`
tokens at its end), and the other fields did not change. -/
structure Adv (p q : ParserT) (cs rs : List Token) : Prop where
  consumed : q.consumed = p.consumed ++ cs
  released : q.released = p.released ++ rs
  domain : q.domain = p.domain
  constraints : q.constraints = p.constraints
  allowBreak : q.allowBreak = p.allowBreak
  eof_line : q.scanner.eof_line = p.scanner.eof_line
  stream : ∃ k, cs ++ ahead q = ahead p ++ List.replicate k (eof_token p.scanner.eof_line)
  no_eof : ∀ t ∈ cs, t.kind ≠ NK_EOF

/-- `Ext c c' ns`: the chain `c'` is the chain `c` after the nodes `ns` were
added one by one with `chain_add`, each without siblings. -/
def Ext (c c' : ChainT) (ns : List NodeT) : Prop :=
  c'.upto = c.upto ++ ns ∧ (ns = [] → c' = c) ∧ (ns ≠ [] → c'.rest = [])

/-- `Grown c p c' q`: between the states `(c, p)` and `(c', q)` nodes were added to
the chain whose leaf tokens are exactly the tokens consumed meanwhile, in the
same order, and nothing was released. -/
def Grown (c : ChainT) (p : ParserT) (c' : ChainT) (q : ParserT) : Prop :=
  ∃ ns, Ext c c' ns ∧ Adv p q (NodeT.leaves.leavesList ns) []

/-- `Interleave xs ys zs`: the list `zs` is a merge of `xs` and `ys`, each of
them keeping its order. -/
inductive Interleave {α : Type} : List α → List α → List α → Prop
  | nil : Interleave [] [] []
  | left (a : α) {xs ys zs : List α} : Interleave xs ys zs → Interleave (a :: xs) ys (a :: zs)
  | right (b : α) {xs ys zs : List α} : Interleave xs ys zs → Interleave xs (b :: ys) (b :: zs)

/-- `Kept p q ls`: between the parser states `p` and `q` the consumed tokens are
a merge, in stream order, of the tokens `ls` and of released tokens, and every
released token is a `SKIP`. -/
def Kept (p q : ParserT) (ls : List Token) : Prop :=
  ∃ cs rs, Adv p q cs rs ∧ Interleave ls rs cs ∧ ∀ r ∈ rs, r.kind = NK_SKIP

/-- The next token of a stream whose unread tokens are `L`: its head, or the
`EOF` token once it is exhausted. -/
def next_of (L : List Token) (eof_line : Nat) : Token := L.headD (eof_token eof_line)

/-- `Fresh p L`: the lookahead buffer is empty and the scanner has the tokens `L`
left. -/
def Fresh (p : ParserT) (L : List Token) : Prop :=
  p.primed = false ∧ p.scanner.input = L

/-- `Reads p L`: the unread tokens are `L`, and the first of them (or `EOF`) is
already in the lookahead buffer. -/
def Reads (p : ParserT) (L : List Token) : Prop :=
  Holds p (next_of L p.scanner.eof_line) ∧ p.scanner.input = L.tail

/-- The parser states reached from `parser_init` by calls of `next_token` and
`consume_token` in any order. -/
inductive Reachable (domain : CStr) (allowBreak : Bool) (constraints : List BindingT)
    (scanner : ScannerT) : ParserT → Prop
  | init : Reachable domain allowBreak constraints scanner
      (parser_init domain allowBreak constraints scanner)
  | next (p : ParserT) (allowWord : Bool) : Reachable domain allowBreak constraints scanner p →
      Reachable domain allowBreak constraints scanner (next_token p allowWord).2
  | consume (p : ParserT) : Reachable domain allowBreak constraints scanner p →
      Reachable domain allowBreak constraints scanner (consume_token p).2

/-- Consecutive calls of `next_token`, one per `allowWord` argument of the list,
with no `consume_token` in between: the tokens returned and the final state. -/
def next_token_calls : List Bool → ParserT → List (Option Token) × ParserT
  | [], p => ([], p)
  | allowWord :: more, p =>
    let r := next_token p allowWord
    let rs := next_token_calls more r.2
    (r.1 :: rs.1, rs.2)

/-- Spec reference for `gobbleSkippable` (section 4.2), on the tokens that start
at the lookahead: take tokens while the token's kind is in `{SKIP} ∪ alsoSkip`
and (`allowEOL` is true or the token does not end a line); after taking a token
that ends a line, stop if `continueAfterEOL` is false. -/
def gobbleSkippable_rule (alsoSkip : KindMask) (allowEOL continueAfterEOL : Bool) :
    List Token → List Token
  | [] => []
  | t :: rest =>
    if hasKind (NK_SKIP :: alsoSkip) t.kind && (allowEOL || !t.ends_line) then
      t :: (if t.ends_line && !continueAfterEOL then []
            else gobbleSkippable_rule alsoSkip allowEOL continueAfterEOL rest)
    else []

/-- The tokens that the loop of `chain_gobble_skip` (lines 193-201) takes from
the tokens that start at the lookahead: a token is taken when its kind is in
`{SKIP} ∪ alsoSkip`; after a taken token that ends a line the loop stops when
`allowEOL` is false (line 197) or `continueAfterEOL` is false (lines 198-200). -/
def gobble_taken (alsoSkip : KindMask) (allowEOL continueAfterEOL : Bool) :
    List Token → List Token
  | [] => []
  | t :: rest =>
    if hasKind (NK_SKIP :: alsoSkip) t.kind then
      t :: (if t.ends_line && (!allowEOL || !continueAfterEOL) then []
            else gobble_taken alsoSkip allowEOL continueAfterEOL rest)
    else []

/-- Lines 334-352 of `parser_parse_section`, entered with the chain `c` and the
lookahead `token` left by the parameter loop: the dispatch on the terminator,
the trailing gobble and the chain returned. -/
def section_terminator (fuel : Nat) (p : ParserT) (c : ChainT) (token : Token)
    (alsoSkip : KindMask) : Outcome (List NodeT × ParserT) := do
  let (token, c, p) ←
    (if token.kind = NK_LB then do
      let (_, token, c, p) ← chain_take p c [NK_LB] false
      let (_, c, p) ← gobble_unless_eol fuel p c token alsoSkip false
      let (list, p) ← parser_parse_section_list fuel p alsoSkip
      let c := chain_add c list []
      let (took, token, c, p) ← chain_take p c [NK_RB] true
      if !took then error ErrorT.rbrace_expected token.line
      else ok (token, c, p)
    else if token.kind = NK_SEMI then do
      let (_, token, c, p) ← chain_take p c [NK_SEMI] true
      ok (token, c, p)
    else if token.kind ≠ NK_BREAK then
      error ErrorT.lbrace_or_semi_expected token.line
    else ok (token, c, p) : Outcome (Token × ChainT × ParserT))
  let (_, c, p) ← gobble_unless_eol fuel p c token alsoSkip true
  ok ([NodeT.chain c.children], p)

/-- The chain after `chain_add` of each token of `ts`, in order. -/
def chain_add_tokens (c : ChainT) (ts : List Token) : ChainT :=
  ts.foldl (fun c t => chain_add c (NodeT.leaf t) []) c

/-- No leaf token of the chain `c` has kind `k`. -/
def ChainAvoids (k : NodeKind) (c : ChainT) : Prop :=
  ∀ x ∈ NodeT.leaves.leavesList c.children, x.kind ≠ k

/-- A marker token of a template file: a `BREAK` token whose text begins with
`=` (line 419 tells a marker from a tail separator by this first character). -/
def is_marker (t : Token) : Bool :=
  decide (t.kind = NK_BREAK) && decide (charAt (t.text.getD []) 0 = '=')

/-- The prefix `extract_prefix` reads from the text of a marker token. -/
def marker_pfx (t : Token) : CStr :=
  ((t.text.bind extract_prefix).getD [])

/-- The marker tokens among the tokens a template parse consumed, in stream
order, other than the `BREAK` token that line 401 discards: a `BREAK` token that
is the first token after the leading `SKIP` tokens. -/
def template_markers (consumed : List Token) : List Token :=
  match consumed.dropWhile (fun t => decide (t.kind = NK_SKIP)) with
  | [] => []
  | t :: rest => (if t.kind = NK_BREAK then rest else t :: rest).filter is_marker

/-- Lines 320-352 of `parser_parse_section`, entered after `chain_take` has
taken the directive word `dir` into the chain `c`. -/
def section_directive (fuel : Nat) (p : ParserT) (c : ChainT) (dir : Token)
    (alsoSkip : KindMask) : Outcome (List NodeT × ParserT) := do
  let ok0 ← valid_directive_call dir.text none p.constraints
  let (_, c, p) ← chain_gobble_skip fuel p c alsoSkip false true true
  let (took, token, c, p) ←
    chain_take p c (NK_CONTENT :: NK_STRING :: NK_SKIP :: alsoSkip) false
  let (ok1, token, c, p) ←
    (if took then do
      let ok1 ← if ok0 then ok true
                else valid_directive_call dir.text token.text p.constraints
      if !ok1 then error ErrorT.directive_and_parameter_invalid dir.line
      else
        let (token, c, p) ←
          parse_section_params (NK_CONTENT :: NK_STRING :: NK_SKIP :: alsoSkip) fuel p c
        ok (ok1, token, c, p)
    else ok (ok0, token, c, p) : Outcome (Bool × Token × ChainT × ParserT))
  if !ok1 then error ErrorT.directive_invalid dir.line
  else section_terminator fuel p c token alsoSkip

/-- The parser `p` stands at the stream `L`: the end of input is at line `el`,
and either the buffer is empty and the scanner holds `L`, or the first token of
`L` (the end of input when `L` is empty) is buffered and the scanner holds the
rest. -/
def At (el : Nat) (p : ParserT) (L : List Token) : Prop :=
  p.scanner.eof_line = el ∧ (Fresh p L ∨ Reads p L)

/-- The scanner's invariant on `WORD` tokens (§3): they carry their text. -/
def WordsHaveText (L : List Token) : Prop :=
  ∀ t ∈ L, t.kind = NK_WORD → t.text ≠ none

/-- The call that gave `r` from the state `p` at the stream `L` has ended in a
fatal error, or has returned: then it has consumed a prefix `cs` of `L`, the
state returned (`st a`) stands at the rest of `L`, and `cs` is not empty when the
value returned is one that `progress` marks. -/
def Settles {α : Type} (el : Nat) (p : ParserT) (L : List Token) (r : Outcome α)
    (st : α → ParserT) (progress : α → Bool) : Prop :=
  (∃ e l, r = error e l) ∨
  ∃ a cs L', r = ok a ∧ L = cs ++ L' ∧ (st a).consumed = p.consumed ++ cs
    ∧ At el (st a) L' ∧ (progress a = true → cs ≠ [])

/-- `GroupsOf ts cs`: the tokens `cs` are the marker groups of the templates `ts`,
one after the other in the order of `ts`. A group is a marker token `m` (a
`BREAK` token whose text `extract_prefix` maps to the prefix of the template),
then the leaves of the template's head pattern, then tokens `rest` up to the
next marker token; no token after `m` in the group is a marker token. -/
inductive GroupsOf : List TemplateT → List Token → Prop
  | nil : GroupsOf [] []
  | group (t : TemplateT) (m : Token) (text : CStr) (rest : List Token)
      (ts : List TemplateT) (cs : List Token) :
      m.kind = NK_BREAK → m.text = some text → extract_prefix text = some t.pfx →
      (t.headPattern.leaves ++ rest).filter is_marker = [] →
      GroupsOf ts cs → GroupsOf (t :: ts) (m :: (t.headPattern.leaves ++ rest) ++ cs)

/-- Whether the block opened by a `{` is closed in the tokens `ts` that follow
it: the scan keeps the number `depth` of blocks opened since and is true at the
first `}` met with none of them open, the `}` of the block itself. -/
def block_closes : Nat → List Token → Bool
  | _, [] => false
  | depth, t :: ts =>
    if t.kind = NK_LB then block_closes (depth + 1) ts
    else if t.kind = NK_RB then
      (match depth with
      | 0 => true
      | d + 1 => block_closes d ts)
    else block_closes depth ts

/-- The tokens `ts` open and close their blocks among themselves: wherever they
stand in front of other tokens, the scan of `block_closes` leaves them at the
depth at which it entered them. -/
def Neutral (ts : List Token) : Prop :=
  ∀ (depth : Nat) (rest : List Token), block_closes depth (ts ++ rest) = block_closes depth rest

/-- Between the states `p` and `q` tokens were consumed that open and close
their blocks among themselves, and none was released. -/
def NeutralRun (p q : ParserT) : Prop :=
  ∃ cs, Adv p q cs [] ∧ Neutral cs

/-! ## Lemmas on the validators -/

theorem charAt_cons_succ (a : Char) (l : CStr) (i : Nat) : charAt (a :: l) (i + 1) = charAt l i := by
  simp [charAt]

theorem charAt_eq_getElem (text : CStr) (i : Nat) (h : i < text.length) :
    charAt text i = text[i] := by
  simp [charAt, List.getD_eq_getElem?_getD, List.getElem?_eq_getElem h]

theorem valid_prefix_loop_spec (sub text : CStr) (n c : Nat)
    (hs : c + n = sub.length) (ht : sub.length ≤ text.length) :
    valid_prefix_loop sub text n c = true ↔ sub.drop c = (text.drop c).take n := by
  induction n generalizing c with
  | zero =>
    have : sub.drop c = [] := List.drop_eq_nil_of_le (by omega)
    simp [valid_prefix_loop, this]
  | succ n ih =>
    have hc : c < sub.length := by omega
    have hc2 : c < text.length := by omega
    have e1 : sub.drop c = sub[c] :: sub.drop (c + 1) := List.drop_eq_getElem_cons hc
    have e2 : text.drop c = text[c] :: text.drop (c + 1) := List.drop_eq_getElem_cons hc2
    rw [valid_prefix_loop, e1, e2, charAt_eq_getElem sub c hc, charAt_eq_getElem text c hc2,
      List.take_succ_cons]
    by_cases h : sub[c] = text[c]
    · rw [if_neg (not_not.mpr h), ih (c + 1) (by omega), List.cons.injEq]
      exact ⟨fun h2 => ⟨h, h2⟩, fun h2 => h2.2⟩
    · rw [if_pos h, List.cons.injEq]
      exact ⟨fun h2 => Bool.noConfusion h2, fun h2 => absurd h2.1 h⟩

theorem valid_prefix_iff (sub text : CStr) :
    valid_prefix sub (some text) = true ↔ sub <+: text := by
  unfold valid_prefix
  simp only []
  by_cases h1 : sub.length = text.length
  · simp only [h1, if_true, streq, decide_eq_true_eq]
    constructor
    · rintro rfl; exact List.prefix_refl _
    · intro h; exact h.eq_of_length h1
  · by_cases h2 : sub.length < text.length
    · simp only [h1, if_false, h2, if_true]
      rw [valid_prefix_loop_spec sub text sub.length 0 (by omega) (by omega)]
      simp only [List.drop_zero]
      rw [List.prefix_iff_eq_take]
    · simp only [h1, h2, if_false]
      constructor
      · intro h; cases h
      · intro h; have := h.length_le; omega

theorem valid_suffix_some_iff (r t : CStr) :
    valid_suffix r (some t) = true ↔ (t = r ∨ (r.length < t.length ∧ ('.' :: r) <:+ t)) := by
  unfold valid_suffix
  simp only []
  by_cases h1 : r.length = t.length
  · simp only [h1, if_true, streq, decide_eq_true_eq]
    constructor
    · intro h; exact Or.inl h.symm
    · rintro (h | ⟨h, -⟩)
      · exact h.symm
      · omega
  · simp only [h1, if_false]
    have hne : t ≠ r := fun h => h1 (by rw [h])
    by_cases h2 : r.length < t.length
    · have hi : t.length - r.length - 1 < t.length := by omega
      have e1 : t.drop (t.length - r.length - 1)
          = t[t.length - r.length - 1] :: t.drop (t.length - r.length - 1 + 1) :=
        List.drop_eq_getElem_cons hi
      have e2 : t.length - r.length - 1 + 1 = t.length - r.length := by omega
      rw [e2] at e1
      have hsuf : ('.' :: r) <:+ t ↔ t.drop (t.length - r.length - 1) = '.' :: r := by
        rw [List.suffix_iff_eq_drop]
        have : t.length - ('.' :: r).length = t.length - r.length - 1 := by
          simp only [List.length_cons]; omega
        rw [this]
        exact eq_comm
      rw [charAt_eq_getElem t _ hi]
      by_cases h3 : t[t.length - r.length - 1] = '.'
      · simp only [h2, h3, and_self, if_true, streq, decide_eq_true_eq]
        rw [hsuf, e1, h3]
        constructor
        · intro h; right; exact ⟨trivial, by rw [← h]⟩
        · rintro (h | ⟨-, h⟩)
          · exact absurd h hne
          · exact (List.cons.inj h).2.symm
      · simp only [h2, h3, and_false, if_false]
        constructor
        · intro h; exact Bool.noConfusion h
        · rintro (h | ⟨-, h⟩)
          · exact absurd h hne
          · rw [hsuf, e1] at h
            exact absurd (List.cons.inj h).1 h3
    · rw [if_neg (fun h => h2 h.1)]
      constructor
      · intro h; exact Bool.noConfusion h
      · rintro (h | ⟨h, -⟩)
        · exact absurd h hne
        · exact absurd h h2

/-- C1: `valid_suffix(r, d)` is true exactly when `d` is present and either equals
`r` or is strictly longer than `r` and ends with a dot followed by `r`; it is
false for an absent candidate and for every candidate shorter than `r`. -/
theorem valid_suffix_spec (r : CStr) (d : Option CStr) :
    (valid_suffix r d = true ↔
        ∃ t, d = some t ∧ (t = r ∨ (r.length < t.length ∧ ('.' :: r) <:+ t)))
    ∧ valid_suffix r none = false
    ∧ (∀ t : CStr, t.length < r.length → valid_suffix r (some t) = false) := by
  refine ⟨?_, rfl, ?_⟩
  · cases d with
    | none => simp [valid_suffix]
    | some t =>
      rw [valid_suffix_some_iff]
      constructor
      · intro h; exact ⟨t, rfl, h⟩
      · rintro ⟨t2, h, h2⟩
        cases h
        exact h2
  · intro t ht
    cases hv : valid_suffix r (some t) with
    | false => rfl
    | true =>
      rcases (valid_suffix_some_iff r t).1 hv with h | ⟨h, -⟩
      · rw [h] at ht; omega
      · omega

/-- C2: `valid_prefix(allowed, candidate)` is true exactly when `candidate` is
present and starts with the characters of `allowed`; so it is true when the two
are equal and false when `allowed` is the longer one. -/
theorem valid_prefix_spec (allowed : CStr) (candidate : Option CStr) :
    ( valid_prefix allowed candidate = true ↔ ∃ t, candidate = some t ∧ allowed <+: t)
    ∧ valid_prefix allowed (some allowed) = true
    ∧ (∀ t : CStr, t.length < allowed.length → valid_prefix allowed (some t) = false) := by
  refine ⟨?_, ?_, ?_⟩
  · cases candidate with
    | none => simp [ valid_prefix]
    | some t =>
      rw [valid_prefix_iff]
      constructor
      · intro h; exact ⟨t, rfl, h⟩
      · rintro ⟨t2, h, h2⟩
        cases h
        exact h2
  · exact (valid_prefix_iff allowed allowed).2 (List.prefix_refl _)
  · intro t ht
    cases hv : valid_prefix allowed (some t) with
    | false => rfl
    | true =>
      have := ((valid_prefix_iff allowed t).1 hv).length_le
      omega

theorem constraint_grants_iff (value : Option CStr) (c : BindingT) :
    constraint_grants value c = true ↔
      ((value = none ∧ c.value = none)
        ∨ (value = none ∧ c.value = some [])
        ∨ (∃ v ev, value = some v ∧ c.value = some ev ∧ valid_prefix ev (some v) = true)) := by
  rcases c with ⟨n, cv⟩
  cases value <;> cases cv <;> simp [constraint_grants]

theorem valid_directive_scan_iff (dir : CStr) (value : Option CStr) (cs : List BindingT) :
    valid_directive_scan dir value cs = true ↔
      ∃ e ∈ cs, e.name = dir ∧ constraint_grants value e = true := by
  induction cs with
  | nil => simp [valid_directive_scan]
  | cons c rest ih =>
    rw [valid_directive_scan]
    by_cases h : (streq dir c.name && constraint_grants value c) = true
    · rw [if_pos h]
      simp only [streq, Bool.and_eq_true, decide_eq_true_eq] at h
      simp only [true_iff]
      exact ⟨c, List.mem_cons_self _ _, h.1.symm, h.2⟩
    · rw [if_neg h, ih]
      simp only [streq, Bool.and_eq_true, decide_eq_true_eq, not_and] at h
      constructor
      · rintro ⟨e, he, h1, h2⟩
        exact ⟨e, List.mem_cons_of_mem _ he, h1, h2⟩
      · rintro ⟨e, he, h1, h2⟩
        rcases List.mem_cons.1 he with rfl | he
        · exact absurd h2 (h h1.symm)
        · exact ⟨e, he, h1, h2⟩

/-- C3: `valid_directive` agrees with the reference definition `isDirectiveAllowed`
for every name, optional value and constraint list: entries of the same name are
alternatives, no matching entry means disallowed, and an empty list allows all. -/
theorem valid_directive_refines (name : CStr) (value : Option CStr) (cs : List BindingT) :
    valid_directive name value cs = true ↔ isDirectiveAllowed name value cs := by
  unfold isDirectiveAllowed
  cases cs with
  | nil => simp [valid_directive]
  | cons c rest =>
    have : valid_directive name value (c :: rest) = valid_directive_scan name value (c :: rest) := rfl
    rw [this, valid_directive_scan_iff]
    simp only [constraint_grants_iff, reduceCtorEq, false_or]

/-! ## The outcome monad -/

@[simp] theorem bind_ok {α β : Type} (a : α) (f : α → Outcome β) : (ok a >>= f) = f a := rfl
@[simp] theorem bind_error {α β : Type} (e : ErrorT) (l : Nat) (f : α → Outcome β) :
    ((error e l : Outcome α) >>= f) = error e l := rfl
@[simp] theorem bind_crash {α β : Type} (f : α → Outcome β) :
    ((crash : Outcome α) >>= f) = crash := rfl
@[simp] theorem bind_timeout {α β : Type} (f : α → Outcome β) :
    ((timeout : Outcome α) >>= f) = timeout := rfl
@[simp] theorem pure_eq_ok {α : Type} (a : α) : (pure a : Outcome α) = ok a := rfl

/-! ## Directive allow-list at work in `parser_parse_section` -/

theorem valid_directive_call_some (n : CStr) (value : Option CStr) (cs : List BindingT) :
    valid_directive_call (some n) value cs = ok (valid_directive n value cs) := by
  cases cs <;> rfl

/-- The bare section `n;` is parsed exactly when `valid_directive(n, NULL, cs)`. -/
theorem section_bare_eval (n dom : CStr) (cs : List BindingT) (fuel l1 l4 eofl : Nat)
    (e1 : Bool) :
    parser_parse_section (fuel + 3)
        (parser_init dom false cs
          ⟨[⟨NK_WORD, some n, l1, e1⟩, ⟨NK_SEMI, none, l4, true⟩], eofl⟩) [NK_BREAK]
      = if valid_directive n none cs = true then
          ok ([NodeT.chain [NodeT.leaf ⟨NK_WORD, some n, l1, e1⟩,
              NodeT.leaf ⟨NK_SEMI, none, l4, true⟩]],
            { domain := dom, scanner := ⟨[], eofl⟩, pending_token := none, constraints := cs,
              primed := false, allowBreak := false,
              consumed := [⟨NK_WORD, some n, l1, e1⟩, ⟨NK_SEMI, none, l4, true⟩],
              released := [] })
        else error ErrorT.directive_invalid l1 := by
  cases h : valid_directive n none cs <;>
  simp [parser_parse_section, peek, next_token, scanner_scan, parser_init, hasKind,
    chain_gobble_skip, chain_gobble_skip_loop, chain_take, consume_token, chain_add, init_chain,
    valid_directive_call_some, gobble_unless_eol, parse_section_params, ChainT.children, h]

set_option maxHeartbeats 1600000 in
/-- The section `n v;` is parsed exactly when `valid_directive(n, NULL, cs)` or
`valid_directive(n, v, cs)`. -/
theorem section_valued_eval (n v dom : CStr) (cs : List BindingT) (fuel l1 l2 l3 l4 eofl : Nat)
    (e1 e2 e3 : Bool) :
    parser_parse_section (fuel + 3)
        (parser_init dom false cs
          ⟨[⟨NK_WORD, some n, l1, e1⟩, ⟨NK_SKIP, none, l2, e2⟩, ⟨NK_CONTENT, some v, l3, e3⟩,
            ⟨NK_SEMI, none, l4, true⟩], eofl⟩) [NK_BREAK]
      = if (valid_directive n none cs || valid_directive n (some v) cs) = true then
          ok ([NodeT.chain [NodeT.leaf ⟨NK_WORD, some n, l1, e1⟩,
              NodeT.leaf ⟨NK_SKIP, none, l2, e2⟩, NodeT.leaf ⟨NK_CONTENT, some v, l3, e3⟩,
              NodeT.leaf ⟨NK_SEMI, none, l4, true⟩]],
            { domain := dom, scanner := ⟨[], eofl⟩, pending_token := none, constraints := cs,
              primed := false, allowBreak := false,
              consumed := [⟨NK_WORD, some n, l1, e1⟩, ⟨NK_SKIP, none, l2, e2⟩,
                ⟨NK_CONTENT, some v, l3, e3⟩, ⟨NK_SEMI, none, l4, true⟩],
              released := [] })
        else error ErrorT.directive_and_parameter_invalid l1 := by
  cases h : valid_directive n none cs <;> cases h2 : valid_directive n (some v) cs <;>
  simp [parser_parse_section, peek, next_token, scanner_scan, parser_init, hasKind,
    chain_gobble_skip, chain_gobble_skip_loop, chain_take, consume_token, chain_add, init_chain,
    valid_directive_call_some, gobble_unless_eol, parse_section_params, ChainT.children, h, h2]

theorem valid_directive_single (n : CStr) (value : Option CStr) (c : Option CStr) :
    valid_directive n value [⟨n, c⟩] = constraint_grants value ⟨n, c⟩ := by
  simp [valid_directive, valid_directive_scan, streq]

/-- C4, the claim as stated fails: under the constraint list `[("root", "")]` the
section `root /tmp;` (tokens WORD, SKIP, CONTENT, SEMI) is parsed without error. -/
theorem bare_grant_value_counterexample :
    (parser_parse_section 3
      (parser_init [] false [⟨"root".toList, some []⟩]
        ⟨[⟨NK_WORD, some "root".toList, 1, false⟩, ⟨NK_SKIP, none, 1, false⟩,
          ⟨NK_CONTENT, some "/tmp".toList, 1, false⟩, ⟨NK_SEMI, none, 1, true⟩], 2⟩)
      [NK_BREAK]).isOk = true
    ∧ (parser_parse_section 3
      (parser_init [] false [⟨"root".toList, some []⟩]
        ⟨[⟨NK_WORD, some "root".toList, 1, false⟩, ⟨NK_SKIP, none, 1, false⟩,
          ⟨NK_CONTENT, some "/tmp".toList, 1, false⟩, ⟨NK_SEMI, none, 1, true⟩], 2⟩)
      [NK_BREAK]).isError = false := by
  constructor <;> decide

/-- C4 as amended: under the constraint list `[(n, "")]` the bare section `n;` is
parsed into a chain of its two tokens, and so is the section `n v;` for every
parameter value `v`, into a chain of its four tokens: the grant found for the
bare name is kept when a parameter follows. -/
theorem bare_grant_accepts (n v dom : CStr) (fuel l1 l2 l3 l4 eofl : Nat) (e1 e2 e3 : Bool) :
    (∃ p, parser_parse_section (fuel + 3)
        (parser_init dom false [⟨n, some []⟩]
          ⟨[⟨NK_WORD, some n, l1, e1⟩, ⟨NK_SEMI, none, l4, true⟩], eofl⟩) [NK_BREAK]
      = ok ([NodeT.chain [NodeT.leaf ⟨NK_WORD, some n, l1, e1⟩,
              NodeT.leaf ⟨NK_SEMI, none, l4, true⟩]], p))
    ∧ (∃ p, parser_parse_section (fuel + 3)
        (parser_init dom false [⟨n, some []⟩]
          ⟨[⟨NK_WORD, some n, l1, e1⟩, ⟨NK_SKIP, none, l2, e2⟩, ⟨NK_CONTENT, some v, l3, e3⟩,
            ⟨NK_SEMI, none, l4, true⟩], eofl⟩) [NK_BREAK]
      = ok ([NodeT.chain [NodeT.leaf ⟨NK_WORD, some n, l1, e1⟩,
              NodeT.leaf ⟨NK_SKIP, none, l2, e2⟩, NodeT.leaf ⟨NK_CONTENT, some v, l3, e3⟩,
              NodeT.leaf ⟨NK_SEMI, none, l4, true⟩]], p)) := by
  have hb : valid_directive n none [⟨n, some []⟩] = true := by
    rw [valid_directive_single]; rfl
  have hv : (valid_directive n none [⟨n, some []⟩]
      || valid_directive n (some v) [⟨n, some []⟩]) = true := by rw [hb]; rfl
  exact ⟨⟨_, (section_bare_eval n dom _ fuel l1 l4 eofl e1).trans (if_pos hb)⟩,
    ⟨_, (section_valued_eval n v dom _ fuel l1 l2 l3 l4 eofl e1 e2 e3).trans (if_pos hv)⟩⟩

/-- C5: under the constraint list `[(n, p)]` with `p` non-empty, the bare section
`n;` ends in the fatal error "directive invalid", and the section `n v;` is
parsed if and only if `p` is a prefix of (or equal to) `v`; when it is not, the
parse ends in the fatal error "directive and parameter invalid". -/
theorem prefix_grant_section (n p v dom : CStr) (hp : p ≠ [])
    (fuel l1 l2 l3 l4 eofl : Nat) (e1 e2 e3 : Bool) :
    parser_parse_section (fuel + 3)
        (parser_init dom false [⟨n, some p⟩]
          ⟨[⟨NK_WORD, some n, l1, e1⟩, ⟨NK_SEMI, none, l4, true⟩], eofl⟩) [NK_BREAK]
      = error ErrorT.directive_invalid l1
    ∧ ((parser_parse_section (fuel + 3)
        (parser_init dom false [⟨n, some p⟩]
          ⟨[⟨NK_WORD, some n, l1, e1⟩, ⟨NK_SKIP, none, l2, e2⟩, ⟨NK_CONTENT, some v, l3, e3⟩,
            ⟨NK_SEMI, none, l4, true⟩], eofl⟩) [NK_BREAK]).isOk = true ↔ p <+: v)
    ∧ (¬ p <+: v →
      parser_parse_section (fuel + 3)
        (parser_init dom false [⟨n, some p⟩]
          ⟨[⟨NK_WORD, some n, l1, e1⟩, ⟨NK_SKIP, none, l2, e2⟩, ⟨NK_CONTENT, some v, l3, e3⟩,
            ⟨NK_SEMI, none, l4, true⟩], eofl⟩) [NK_BREAK]
      = error ErrorT.directive_and_parameter_invalid l1) := by
  have hb : valid_directive n none [⟨n, some p⟩] = false := by
    rw [valid_directive_single]
    simp [constraint_grants, hp]
  have hv : valid_directive n (some v) [⟨n, some p⟩] = valid_prefix p (some v) := by
    rw [valid_directive_single]
    simp [constraint_grants]
  have hpre : valid_prefix p (some v) = true ↔ p <+: v := valid_prefix_iff p v
  refine ⟨?_, ?_, ?_⟩
  · rw [section_bare_eval, if_neg (by rw [hb]; exact Bool.false_ne_true)]
  · rw [section_valued_eval, hb, hv, Bool.false_or, ← hpre]
    cases valid_prefix p (some v) <;> simp [Outcome.isOk]
  · intro h
    rw [section_valued_eval, hb, hv, Bool.false_or, if_neg (fun hq => h (hpre.1 hq))]

/-- C5 at the specification's example: with `[("root", "/home/u/")]`, `root;` is
rejected, `root /home/u/site;` is accepted and `root /etc;` is rejected. -/
theorem prefix_grant_section_witness :
    parser_parse_section 3
        (parser_init [] false [⟨"root".toList, some "/home/u/".toList⟩]
          ⟨[⟨NK_WORD, some "root".toList, 1, false⟩, ⟨NK_SEMI, none, 1, true⟩], 2⟩) [NK_BREAK]
      = error ErrorT.directive_invalid 1
    ∧ (parser_parse_section 3
        (parser_init [] false [⟨"root".toList, some "/home/u/".toList⟩]
          ⟨[⟨NK_WORD, some "root".toList, 1, false⟩, ⟨NK_SKIP, none, 1, false⟩,
            ⟨NK_CONTENT, some "/home/u/site".toList, 1, false⟩,
            ⟨NK_SEMI, none, 1, true⟩], 2⟩) [NK_BREAK]).isOk = true
    ∧ parser_parse_section 3
        (parser_init [] false [⟨"root".toList, some "/home/u/".toList⟩]
          ⟨[⟨NK_WORD, some "root".toList, 1, false⟩, ⟨NK_SKIP, none, 1, false⟩,
            ⟨NK_CONTENT, some "/etc".toList, 1, false⟩,
            ⟨NK_SEMI, none, 1, true⟩], 2⟩) [NK_BREAK]
      = error ErrorT.directive_and_parameter_invalid 1 :=
  ⟨(prefix_grant_section "root".toList "/home/u/".toList [] [] (by decide)
      0 1 1 1 1 2 false false false).1,
   (prefix_grant_section "root".toList "/home/u/".toList "/home/u/site".toList [] (by decide)
      0 1 1 1 1 2 false false false).2.1.2 (by decide),
   (prefix_grant_section "root".toList "/home/u/".toList "/etc".toList [] (by decide)
      0 1 1 1 1 2 false false false).2.2 (by decide)⟩

/-! ## Marker lines: `extract_prefix` -/

theorem charAt_drop (text : CStr) (k i : Nat) : charAt (text.drop k) i = charAt text (k + i) := by
  simp [charAt, List.getD_eq_getElem?_getD, List.getElem?_drop]

theorem scan_while_drop (cond : Char → Bool) (hc : cond '\x00' = false) (l : CStr) :
    l.drop (scan_while cond l) = l.dropWhile cond := by
  induction l with
  | nil => rfl
  | cons ch rest ih =>
    by_cases h : cond ch = true
    · have hne : ch ≠ '\x00' := fun h0 => by rw [h0, hc] at h; exact Bool.false_ne_true h
      rw [scan_while, if_pos ⟨hne, h⟩, List.drop_succ_cons, ih, List.dropWhile_cons_of_pos h]
    · rw [scan_while, if_neg (fun h2 => h h2.2), List.drop_zero, List.dropWhile_cons_of_neg h]

/-- After a loop that stops at the first character failing `cond`, a loop whose
condition implies `cond` does not advance. -/
theorem scan_while_after (cond cond2 : Char → Bool) (h : ∀ ch, cond2 ch = true → cond ch = true)
    (l : CStr) : scan_while cond2 (l.drop (scan_while cond l)) = 0 := by
  induction l with
  | nil => rfl
  | cons ch rest ih =>
    by_cases h1 : ch ≠ '\x00' ∧ cond ch = true
    · rw [scan_while, if_pos h1, List.drop_succ_cons]
      exact ih
    · have h2 : ¬ (ch ≠ '\x00' ∧ cond2 ch = true) := fun h2 => h1 ⟨h2.1, h _ h2.2⟩
      rw [scan_while, if_neg h1, List.drop_zero, scan_while, if_neg h2]

theorem extract_prefix_empty (text s : CStr) (h : extract_prefix text = some s) : s = [] := by
  unfold extract_prefix at h
  simp only [] at h
  split_ifs at h
  simp only [Option.some.injEq] at h
  rw [← h]
  generalize scan_while (fun ch => ch = '=' || ch = ' ' || ch = '\t') text + 5 = A
  have e : text.drop (A + scan_while (fun ch => decide (ch = ' ') || decide (ch = '\t'))
      (text.drop A)) = (text.drop A).drop (scan_while (fun ch => decide (ch = ' ') ||
        decide (ch = '\t')) (text.drop A)) := by
    rw [List.drop_drop, Nat.add_comm]
  have := scan_while_after (fun ch => decide (ch = ' ') || decide (ch = '\t'))
    (fun ch => decide (ch = ' ') && decide (ch ≠ '\t') && decide (ch ≠ '='))
    (by intro ch; simp; intro h1 _ _; exact Or.inl h1) (text.drop A)
  rw [e, this, Nat.add_zero, Nat.sub_self, List.take_zero]

theorem charAt_eq_iff (r : CStr) (i : Nat) (c : Char) (hc : c ≠ '\x00') :
    charAt r i = c ↔ r[i]? = some c := by
  unfold charAt
  rw [List.getD_eq_getElem?_getD]
  cases h : r[i]? with
  | none => simp [hc.symm]
  | some x => simp

theorem extract_prefix_none_iff (text : CStr) :
    extract_prefix text = none ↔ ¬ marker_line text := by
  have hd := scan_while_drop (fun ch => ch = '=' || ch = ' ' || ch = '\t') (by decide) text
  have hc : ∀ i, charAt text
      (scan_while (fun ch => ch = '=' || ch = ' ' || ch = '\t') text + i)
      = charAt (text.dropWhile (fun ch => ch = '=' || ch = ' ' || ch = '\t')) i := by
    intro i; rw [← hd, charAt_drop]
  have hc0 := hc 0
  rw [Nat.add_zero] at hc0
  unfold extract_prefix marker_line
  simp only [hc, hc0]
  generalize text.dropWhile (fun ch => ch = '=' || ch = ' ' || ch = '\t') = r
  have h0 : charAt text 0 = '=' ↔ text.head? = some '=' := by
    rw [charAt_eq_iff _ _ _ (by decide)]; cases text <;> simp
  rw [← h0]
  by_cases g0 : charAt text 0 = '='
  swap
  · simp [g0]
  simp only [g0, ne_eq, not_true_eq_false, if_false, true_and]
  rcases r with _ | ⟨a, _ | ⟨b, _ | ⟨c, _ | ⟨d, _ | ⟨e, rest⟩⟩⟩⟩⟩ <;>
    (simp [charAt]; try tauto)

/-- C8 (code defect): on the marker line `=== host default` `extract_prefix` returns
the empty string, not `default`; and whenever it returns a string, for any text,
that string is empty, because the loop of line 383 never advances. -/
theorem extract_prefix_default :
    extract_prefix "=== host default".toList = some []
    ∧ ∀ text s : CStr, extract_prefix text = some s → s = [] :=
  ⟨by decide, extract_prefix_empty⟩

theorem section_list_zero (p : ParserT) (alsoSkip : KindMask) (r : NodeT × ParserT) :
    parser_parse_section_list 0 p alsoSkip ≠ ok r := by
  simp [parser_parse_section_list, parse_section_list_with, parser_parse_section_list_loop]

/-- C10 (code defect): the local `tailPattern` of `parser_parse_template` is not
reset between groups. A group whose head is followed by end of input records the
`tailPattern` value left by the groups before it, whatever it is; on the stream
`user me`, `=== host a`, `x;`, `---`, `y;`, `=== host b`, `z;` the template of the
second group, which has no tail, carries the tail `y;` of the first. -/
theorem template_tail_stale :
    (∀ (fuel : Nat) (p p1 p2 : ParserT) (token : Token) (text pfx : CStr) (head : NodeT)
        (tail : Option NodeT) (t : List TemplateT),
        token.text = some text → extract_prefix text = some pfx →
        parser_parse_section_list fuel (release_node p token) [] = ok (head, p1) →
        take_token fuel p1 false [NK_BREAK] [NK_SKIP] true false = ok (none, p2) →
        parse_template_groups (fuel + 1) p (some token) tail t
          = ok (⟨pfx, head, tail⟩ :: t, p2))
    ∧ parse_template 5 []
        ⟨[⟨NK_WORD, some "user".toList, 1, false⟩, ⟨NK_CONTENT, some "me".toList, 1, true⟩,
          ⟨NK_BREAK, some "=== host a".toList, 2, true⟩,
          ⟨NK_WORD, some "x".toList, 3, false⟩, ⟨NK_SEMI, none, 3, true⟩,
          ⟨NK_BREAK, some "---".toList, 4, true⟩,
          ⟨NK_WORD, some "y".toList, 5, false⟩, ⟨NK_SEMI, none, 5, true⟩,
          ⟨NK_BREAK, some "=== host b".toList, 6, true⟩,
          ⟨NK_WORD, some "z".toList, 7, false⟩, ⟨NK_SEMI, none, 7, true⟩], 8⟩
      = ok ([⟨[], NodeT.chain [NodeT.chain [NodeT.leaf ⟨NK_WORD, some "z".toList, 7, false⟩,
                  NodeT.leaf ⟨NK_SEMI, none, 7, true⟩]],
              some (NodeT.chain [NodeT.chain [NodeT.leaf ⟨NK_WORD, some "y".toList, 5, false⟩,
                  NodeT.leaf ⟨NK_SEMI, none, 5, true⟩]])⟩,
             ⟨[], NodeT.chain [NodeT.chain [NodeT.leaf ⟨NK_WORD, some "x".toList, 3, false⟩,
                  NodeT.leaf ⟨NK_SEMI, none, 3, true⟩]],
              some (NodeT.chain [NodeT.chain [NodeT.leaf ⟨NK_WORD, some "y".toList, 5, false⟩,
                  NodeT.leaf ⟨NK_SEMI, none, 5, true⟩]])⟩],
            [⟨"user".toList, some "me".toList⟩]) := by
  refine ⟨?_, by rfl⟩
  intro fuel p p1 p2 token text pfx head tail t ht hx hh hk
  cases fuel with
  | zero => exact absurd hh (section_list_zero _ _ _)
  | succ f =>
    rw [parse_template_groups]
    simp only [ht, deref, bind_ok, hx, hh, hk]
    rfl

/-! ## Effects of the lookahead and chain primitives -/

theorem Adv.adv_refl (p : ParserT) : Adv p p [] [] :=
  ⟨by simp, by simp, rfl, rfl, rfl, rfl, ⟨0, by simp⟩, by simp⟩

theorem Adv.adv_trans {p q r : ParserT} {c1 r1 c2 r2 : List Token}
    (h1 : Adv p q c1 r1) (h2 : Adv q r c2 r2) : Adv p r (c1 ++ c2) (r1 ++ r2) := by
  obtain ⟨k1, e1⟩ := h1.stream
  obtain ⟨k2, e2⟩ := h2.stream
  refine ⟨?_, ?_, ?_, ?_, ?_, ?_, ⟨k1 + k2, ?_⟩, ?_⟩
  · rw [h2.consumed, h1.consumed, List.append_assoc]
  · rw [h2.released, h1.released, List.append_assoc]
  · rw [h2.domain, h1.domain]
  · rw [h2.constraints, h1.constraints]
  · rw [h2.allowBreak, h1.allowBreak]
  · rw [h2.eof_line, h1.eof_line]
  · rw [List.append_assoc, e2, h1.eof_line, ← List.append_assoc, e1, List.append_assoc,
      List.replicate_add]
  · intro t ht
    rcases List.mem_append.1 ht with h | h
    · exact h1.no_eof t h
    · exact h2.no_eof t h

theorem Ext.ext_refl (c : ChainT) : Ext c c [] :=
  ⟨by simp, fun _ => rfl, fun h => absurd rfl h⟩

theorem Ext.ext_trans {c c' c'' : ChainT} {n1 n2 : List NodeT}
    (h1 : Ext c c' n1) (h2 : Ext c' c'' n2) : Ext c c'' (n1 ++ n2) := by
  obtain ⟨a1, b1, d1⟩ := h1
  obtain ⟨a2, b2, d2⟩ := h2
  refine ⟨by rw [a2, a1, List.append_assoc], ?_, ?_⟩
  · intro h
    obtain ⟨e1, e2⟩ := List.append_eq_nil.1 h
    rw [b2 e2, b1 e1]
  · intro h
    by_cases e2 : n2 = []
    · rw [b2 e2]
      apply d1
      intro e1
      exact h (by rw [e1, e2]; rfl)
    · exact d2 e2

theorem Ext.add (c : ChainT) (item : NodeT) : Ext c (chain_add c item []) [item] :=
  ⟨rfl, fun h => List.noConfusion h, fun _ => rfl⟩

theorem Ext.children {c c' : ChainT} {ns : List NodeT} (h : Ext c c' ns) (hc : c.rest = []) :
    c'.children = c.children ++ ns ∧ c'.rest = [] := by
  obtain ⟨a, b, d⟩ := h
  by_cases e : ns = []
  · rw [b e, e]; simp [hc]
  · refine ⟨?_, d e⟩
    simp [ChainT.children, a, d e, hc]

theorem peek_spec {p q : ParserT} {allowWord : Bool} {t : Token}
    (h : peek p allowWord = ok (t, q)) : Adv p q [] [] ∧ Holds q t := by
  rcases p with ⟨dom, ⟨inp, el⟩, pend, cs, pr, ab, con, rel⟩
  cases pr
  · cases inp with
    | nil =>
      simp [peek, next_token, scanner_scan] at h
      obtain ⟨h1, h2⟩ := h
      subst h1 h2
      exact ⟨⟨by simp, by simp, rfl, rfl, rfl, rfl, ⟨1, by simp [ahead]⟩, by simp⟩, rfl, rfl⟩
    | cons a rest =>
      simp [peek, next_token, scanner_scan] at h
      obtain ⟨h1, h2⟩ := h
      subst h1 h2
      exact ⟨⟨by simp, by simp, rfl, rfl, rfl, rfl, ⟨0, by simp [ahead]⟩, by simp⟩, rfl, rfl⟩
  · cases pend with
    | none => simp [peek, next_token] at h
    | some a =>
      simp [peek, next_token] at h
      obtain ⟨h1, h2⟩ := h
      subst h1 h2
      exact ⟨Adv.adv_refl _, rfl, rfl⟩

theorem peek_of_holds {p : ParserT} {t : Token} (h : Holds p t) (allowWord : Bool) :
    peek p allowWord = ok (t, p) := by
  rcases p with ⟨dom, ⟨inp, el⟩, pend, cs, pr, ab, con, rel⟩
  obtain ⟨h1, h2⟩ := h
  simp only at h1 h2
  subst h1 h2
  rfl

theorem consume_spec {p : ParserT} {t : Token} (h : Holds p t) (hk : t.kind ≠ NK_EOF) :
    Adv p (consume_token p).2 [t] [] ∧ (consume_token p).1 = some t
      ∧ (consume_token p).2.primed = false := by
  rcases p with ⟨dom, ⟨inp, el⟩, pend, cs, pr, ab, con, rel⟩
  obtain ⟨h1, h2⟩ := h
  simp only at h1 h2
  subst h1 h2
  refine ⟨⟨by simp [consume_token], by simp [consume_token], rfl, rfl, rfl, rfl,
    ⟨0, by simp [ahead, consume_token]⟩, ?_⟩, rfl, rfl⟩
  intro x hx
  rw [List.mem_singleton.1 hx]
  exact hk

theorem release_spec (p : ParserT) (t : Token) : Adv p (release_node p t) [] [t] :=
  ⟨by simp [release_node], rfl, rfl, rfl, rfl, rfl, ⟨0, by simp [ahead, release_node]⟩, by simp⟩

theorem hasKind_ne {kinds : KindMask} {k k' : NodeKind} (h1 : hasKind kinds k = true)
    (h2 : hasKind kinds k' = false) : k ≠ k' := by
  intro h; rw [h, h2] at h1; exact Bool.false_ne_true h1

theorem chain_take_spec {p q : ParserT} {c c' : ChainT} {kinds : KindMask} {allowWord took : Bool}
    {t : Token} (h : chain_take p c kinds allowWord = ok (took, t, c', q))
    (hk : hasKind kinds NK_EOF = false) :
    (took = true ∧ hasKind kinds t.kind = true ∧ c' = chain_add c (NodeT.leaf t) []
        ∧ Adv p q [t] [] ∧ q.primed = false)
    ∨ (took = false ∧ hasKind kinds t.kind = false ∧ c' = c ∧ Adv p q [] [] ∧ Holds q t) := by
  unfold chain_take at h
  cases hp : peek p allowWord with
  | ok a =>
    rcases a with ⟨t0, p1⟩
    obtain ⟨ha, hh⟩ := peek_spec hp
    rw [hp] at h
    simp only [bind_ok] at h
    by_cases hm : hasKind kinds t0.kind = true
    · rw [if_pos hm] at h
      simp only [ok.injEq, Prod.mk.injEq] at h
      obtain ⟨h1, h2, h3, h4⟩ := h
      subst h1 h2 h3 h4
      obtain ⟨hc, _, hp⟩ := consume_spec hh (hasKind_ne hm hk)
      exact Or.inl ⟨rfl, hm, rfl, by simpa using ha.adv_trans hc, hp⟩
    · rw [if_neg hm] at h
      simp only [ok.injEq, Prod.mk.injEq] at h
      obtain ⟨h1, h2, h3, h4⟩ := h
      subst h1 h2 h3 h4
      exact Or.inr ⟨rfl, by simpa using hm, rfl, ha, hh⟩
  | error e l => rw [hp] at h; simp at h
  | crash => rw [hp] at h; simp at h
  | timeout => rw [hp] at h; simp at h

theorem hasKind_cons (k : NodeKind) (kinds : KindMask) (x : NodeKind) :
    hasKind (k :: kinds) x = (decide (x = k) || hasKind kinds x) := by
  simp [hasKind, List.contains_cons]

theorem skip_tokens_loop_spec (allowWord : Bool) (kinds : KindMask) (allowEOL : Bool)
    (hk : hasKind kinds NK_EOF = false) :
    ∀ (fuel : Nat) (p q : ParserT) (t t' : Token), Holds p t →
      skip_tokens_loop allowWord kinds allowEOL fuel p t = ok (t', q) →
      ∃ rs, Adv p q rs rs ∧ (∀ r ∈ rs, hasKind kinds r.kind = true) ∧ Holds q t' := by
  intro fuel
  induction fuel with
  | zero => intro p q t t' _ h; simp [skip_tokens_loop] at h
  | succ n ih =>
    intro p q t t' hh h
    rw [skip_tokens_loop] at h
    by_cases hc : (hasKind kinds t.kind && (allowEOL || !t.ends_line)) = true
    · rw [if_pos hc] at h
      simp only at h
      have hkt : hasKind kinds t.kind = true := by
        simp only [Bool.and_eq_true] at hc; exact hc.1
      obtain ⟨a1, _, _⟩ := consume_spec hh (hasKind_ne hkt hk)
      have a2 := a1.adv_trans (release_spec (consume_token p).2 t)
      cases hp : peek (release_node (consume_token p).2 t) allowWord with
      | ok a =>
        rcases a with ⟨t2, p2⟩
        rw [hp] at h
        simp only at h
        obtain ⟨a3, hh2⟩ := peek_spec hp
        obtain ⟨rs, a4, hr, hq⟩ := ih p2 q t2 t' hh2 h
        refine ⟨t :: rs, ?_, ?_, hq⟩
        · simpa using (a2.adv_trans a3).adv_trans a4
        · intro r hr2
          rcases List.mem_cons.1 hr2 with rfl | hr2
          · exact hkt
          · exact hr r hr2
      | error e l => rw [hp] at h; simp at h
      | crash => rw [hp] at h; simp at h
      | timeout => rw [hp] at h; simp at h
    · rw [if_neg hc] at h
      simp only [ok.injEq, Prod.mk.injEq] at h
      obtain ⟨h1, h2⟩ := h
      subst h1 h2
      exact ⟨[], Adv.adv_refl _, by simp, hh⟩

theorem skip_tokens_spec {fuel : Nat} {p q : ParserT} {allowWord : Bool} {kinds : KindMask}
    {allowEOL : Bool} {t : Token} (h : skip_tokens fuel p allowWord kinds allowEOL = ok (t, q))
    (hk : hasKind kinds NK_EOF = false) :
    ∃ rs, Adv p q rs rs ∧ (∀ r ∈ rs, hasKind kinds r.kind = true) ∧ Holds q t := by
  unfold skip_tokens at h
  cases hp : peek p allowWord with
  | ok a =>
    rcases a with ⟨t0, p1⟩
    rw [hp] at h
    simp only [bind_ok] at h
    obtain ⟨a1, hh⟩ := peek_spec hp
    obtain ⟨rs, a2, hr, hq⟩ := skip_tokens_loop_spec allowWord kinds allowEOL hk fuel p1 q t0 t hh h
    exact ⟨rs, by simpa using a1.adv_trans a2, hr, hq⟩
  | error e l => rw [hp] at h; simp at h
  | crash => rw [hp] at h; simp at h
  | timeout => rw [hp] at h; simp at h

theorem gobble_loop_spec (alsoSkip : KindMask) (allowWord allowEOL cont : Bool)
    (hk : hasKind alsoSkip NK_EOF = false) :
    ∀ (fuel : Nat) (p q : ParserT) (c c' : ChainT) (t t' : Token), Holds p t →
      chain_gobble_skip_loop alsoSkip allowWord allowEOL cont fuel p c t = ok (t', c', q) →
      ∃ xs, Adv p q xs [] ∧ Ext c c' (xs.map NodeT.leaf)
        ∧ (∀ x ∈ xs, hasKind (NK_SKIP :: alsoSkip) x.kind = true)
        ∧ (Holds q t' ∨ (hasKind (NK_SKIP :: alsoSkip) t'.kind = true ∧ q.primed = false)) := by
  have hk2 : hasKind (NK_SKIP :: alsoSkip) NK_EOF = false := by
    rw [hasKind_cons, hk]; rfl
  intro fuel
  induction fuel with
  | zero => intro p q c c' t t' _ h; simp [chain_gobble_skip_loop] at h
  | succ n ih =>
    intro p q c c' t t' hh h
    rw [chain_gobble_skip_loop] at h
    by_cases hc : hasKind (NK_SKIP :: alsoSkip) t.kind = true
    · rw [if_pos hc] at h
      simp only at h
      obtain ⟨a1, _, hpr⟩ := consume_spec hh (hasKind_ne hc hk2)
      by_cases hb : (t.ends_line && !allowEOL) = true
      · rw [if_pos hb] at h
        simp only [ok.injEq, Prod.mk.injEq] at h
        obtain ⟨h1, h2, h3⟩ := h
        subst h1 h2 h3
        refine ⟨[t], a1, Ext.add c _, ?_, Or.inr ⟨hc, hpr⟩⟩
        intro x hx
        rw [List.mem_singleton.1 hx]; exact hc
      · rw [if_neg hb] at h
        cases hp : peek (consume_token p).2 allowWord with
        | ok a =>
          rcases a with ⟨t2, p2⟩
          rw [hp] at h
          simp only at h
          obtain ⟨a3, hh2⟩ := peek_spec hp
          by_cases hs : (t.ends_line && !cont) = true
          · rw [if_pos hs] at h
            simp only [ok.injEq, Prod.mk.injEq] at h
            obtain ⟨h1, h2, h3⟩ := h
            subst h1 h2 h3
            refine ⟨[t], by simpa using a1.adv_trans a3, Ext.add c _, ?_, Or.inl hh2⟩
            intro x hx
            rw [List.mem_singleton.1 hx]; exact hc
          · rw [if_neg hs] at h
            obtain ⟨xs, a4, e4, hx, hq⟩ := ih p2 q _ c' t2 t' hh2 h
            refine ⟨t :: xs, by simpa using (a1.adv_trans a3).adv_trans a4, ?_, ?_, hq⟩
            · exact (Ext.add c (NodeT.leaf t)).ext_trans e4
            · intro x hx2
              rcases List.mem_cons.1 hx2 with rfl | hx2
              · exact hc
              · exact hx x hx2
        | error e l => rw [hp] at h; simp at h
        | crash => rw [hp] at h; simp at h
        | timeout => rw [hp] at h; simp at h
    · rw [if_neg hc] at h
      simp only [ok.injEq, Prod.mk.injEq] at h
      obtain ⟨h1, h2, h3⟩ := h
      subst h1 h2 h3
      exact ⟨[], Adv.adv_refl _, Ext.ext_refl _, by simp, Or.inl hh⟩

theorem gobble_spec {fuel : Nat} {p q : ParserT} {c c' : ChainT} {alsoSkip : KindMask}
    {allowWord allowEOL cont : Bool} {t : Token}
    (h : chain_gobble_skip fuel p c alsoSkip allowWord allowEOL cont = ok (t, c', q))
    (hk : hasKind alsoSkip NK_EOF = false) :
    ∃ xs, Adv p q xs [] ∧ Ext c c' (xs.map NodeT.leaf)
      ∧ (∀ x ∈ xs, hasKind (NK_SKIP :: alsoSkip) x.kind = true)
      ∧ (Holds q t ∨ (hasKind (NK_SKIP :: alsoSkip) t.kind = true ∧ q.primed = false)) := by
  unfold chain_gobble_skip at h
  cases hp : peek p allowWord with
  | ok a =>
    rcases a with ⟨t0, p1⟩
    rw [hp] at h
    simp only [bind_ok] at h
    obtain ⟨a1, hh⟩ := peek_spec hp
    obtain ⟨xs, a2, e, hx, hq⟩ :=
      gobble_loop_spec alsoSkip allowWord allowEOL cont hk fuel p1 q c c' t0 t hh h
    exact ⟨xs, by simpa using a1.adv_trans a2, e, hx, hq⟩
  | error e l => rw [hp] at h; simp at h
  | crash => rw [hp] at h; simp at h
  | timeout => rw [hp] at h; simp at h

theorem gobble_unless_eol_spec {fuel : Nat} {p q : ParserT} {c c' : ChainT} {token t : Token}
    {alsoSkip : KindMask} {allowWord : Bool}
    (h : gobble_unless_eol fuel p c token alsoSkip allowWord = ok (t, c', q))
    (hk : hasKind alsoSkip NK_EOF = false) :
    ∃ xs, Adv p q xs [] ∧ Ext c c' (xs.map NodeT.leaf)
      ∧ (∀ x ∈ xs, hasKind (NK_SKIP :: alsoSkip) x.kind = true) := by
  unfold gobble_unless_eol at h
  by_cases he : (!token.ends_line) = true
  · rw [if_pos he] at h
    obtain ⟨xs, a, e, hx, _⟩ := gobble_spec h hk
    exact ⟨xs, a, e, hx⟩
  · rw [if_neg he] at h
    simp only [ok.injEq, Prod.mk.injEq] at h
    obtain ⟨h1, h2, h3⟩ := h
    subst h1 h2 h3
    exact ⟨[], Adv.adv_refl _, Ext.ext_refl _, by simp⟩

theorem params_spec (kinds : KindMask) (hk : hasKind kinds NK_EOF = false) :
    ∀ (fuel : Nat) (p q : ParserT) (c c' : ChainT) (t : Token),
      parse_section_params kinds fuel p c = ok (t, c', q) →
      ∃ xs, Adv p q xs [] ∧ Ext c c' (xs.map NodeT.leaf) ∧ Holds q t
        ∧ hasKind kinds t.kind = false := by
  intro fuel
  induction fuel with
  | zero => intro p q c c' t h; simp [parse_section_params] at h
  | succ n ih =>
    intro p q c c' t h
    rw [parse_section_params] at h
    cases hp : chain_take p c kinds false with
    | ok a =>
      rcases a with ⟨took, t1, c1, p1⟩
      rw [hp] at h
      simp only [bind_ok] at h
      rcases chain_take_spec hp hk with ⟨h1, _, h3, h4, _⟩ | ⟨h1, h2, h3, h4, h5⟩
      · subst h1 h3
        simp only [if_true] at h
        obtain ⟨xs, a, e, hq, hn⟩ := ih p1 q _ c' t h
        exact ⟨t1 :: xs, by simpa using h4.adv_trans a, (Ext.add c (NodeT.leaf t1)).ext_trans e, hq, hn⟩
      · subst h1 h3
        simp only [Bool.false_eq_true, if_false, ok.injEq, Prod.mk.injEq] at h
        obtain ⟨e1, e2, e3⟩ := h
        subst e1 e2 e3
        exact ⟨[], h4, Ext.ext_refl _, h5, h2⟩
    | error e l => rw [hp] at h; simp at h
    | crash => rw [hp] at h; simp at h
    | timeout => rw [hp] at h; simp at h

theorem bind_eq_ok {α β : Type} {x : Outcome α} {f : α → Outcome β} {b : β}
    (h : (x >>= f) = ok b) : ∃ a, x = ok a ∧ f a = ok b := by
  cases x with
  | ok a => exact ⟨a, rfl, h⟩
  | error e l => simp at h
  | crash => simp at h
  | timeout => simp at h

theorem leavesList_append (xs ys : List NodeT) :
    NodeT.leaves.leavesList (xs ++ ys)
      = NodeT.leaves.leavesList xs ++ NodeT.leaves.leavesList ys := by
  induction xs with
  | nil => rfl
  | cons x xs ih => simp [NodeT.leaves.leavesList, ih]

theorem leavesList_leaf (xs : List Token) :
    NodeT.leaves.leavesList (xs.map NodeT.leaf) = xs := by
  induction xs with
  | nil => rfl
  | cons x xs ih => simp [NodeT.leaves.leavesList, NodeT.leaves, ih]

theorem leaves_chain (ns : List NodeT) :
    (NodeT.chain ns).leaves = NodeT.leaves.leavesList ns := by
  simp [NodeT.leaves]

theorem Grown.grown_refl (c : ChainT) (p : ParserT) : Grown c p c p :=
  ⟨[], Ext.ext_refl c, Adv.adv_refl p⟩

theorem Grown.grown_trans {c c' c'' : ChainT} {p q r : ParserT}
    (h1 : Grown c p c' q) (h2 : Grown c' q c'' r) : Grown c p c'' r := by
  obtain ⟨n1, e1, a1⟩ := h1
  obtain ⟨n2, e2, a2⟩ := h2
  exact ⟨n1 ++ n2, e1.ext_trans e2, by rw [leavesList_append]; simpa using a1.adv_trans a2⟩

theorem Grown.of_leaves {c c' : ChainT} {p q : ParserT} {xs : List Token}
    (e : Ext c c' (xs.map NodeT.leaf)) (a : Adv p q xs []) : Grown c p c' q :=
  ⟨_, e, by rw [leavesList_leaf]; exact a⟩

theorem Grown.only_adv {c : ChainT} {p q : ParserT} (a : Adv p q [] []) : Grown c p c q :=
  ⟨[], Ext.ext_refl c, a⟩

theorem Grown.take {p q : ParserT} {c c' : ChainT} {kinds : KindMask} {allowWord took : Bool}
    {t : Token} (h : chain_take p c kinds allowWord = ok (took, t, c', q))
    (hk : hasKind kinds NK_EOF = false) : Grown c p c' q := by
  rcases chain_take_spec h hk with ⟨_, _, h3, h4, _⟩ | ⟨_, _, h3, h4, _⟩
  · subst h3
    exact ⟨[NodeT.leaf t], Ext.add c _, by simpa [NodeT.leaves.leavesList, NodeT.leaves] using h4⟩
  · subst h3
    exact Grown.only_adv h4

theorem Grown.result {c' : ChainT} {p q : ParserT} (h : Grown init_chain p c' q) :
    Adv p q (NodeT.leaves.leavesList c'.children) [] := by
  obtain ⟨ns, e, a⟩ := h
  obtain ⟨h1, _⟩ := e.children rfl
  rw [h1]
  simpa [init_chain, ChainT.children] using a

theorem section_list_loop_spec (ps : ParserT → Outcome (List NodeT × ParserT))
    (hps : ∀ p items q, ps p = ok (items, q) →
      Adv p q (NodeT.leaves.leavesList items) [] ∧ (2 ≤ items.length → AtRB q)
        ∧ (AtRB p → items = [] ∧ q = p)) :
    ∀ (fuel : Nat) (p q : ParserT) (c c' : ChainT),
      parser_parse_section_list_loop ps fuel p c = ok (c', q) → (c.rest = [] ∨ AtRB p) →
      ∃ ns, c'.children = c.children ++ ns ∧ Adv p q (NodeT.leaves.leavesList ns) [] := by
  intro fuel
  induction fuel with
  | zero => intro p q c c' h; simp [parser_parse_section_list_loop] at h
  | succ n ih =>
    intro p q c c' h hc
    rw [parser_parse_section_list_loop] at h
    obtain ⟨⟨items, p1⟩, h1, h⟩ := bind_eq_ok h
    obtain ⟨a1, hlen, hrb⟩ := hps p items p1 h1
    cases items with
    | nil =>
      simp only [ok.injEq, Prod.mk.injEq] at h
      obtain ⟨e1, e2⟩ := h
      subst e1 e2
      exact ⟨[], by simp, a1⟩
    | cons first siblings =>
      simp only at h
      rcases hc with hc | hc
      · have hc1 : (chain_add c first siblings).rest = [] ∨ AtRB p1 := by
          cases siblings with
          | nil => exact Or.inl rfl
          | cons s ss => exact Or.inr (hlen (by simp))
        obtain ⟨ns, e, a2⟩ := ih p1 q _ c' h hc1
        refine ⟨first :: siblings ++ ns, ?_, ?_⟩
        · rw [e]; simp [ChainT.children, chain_add, hc]
        · rw [leavesList_append]; simpa using a1.adv_trans a2
      · exact absurd (hrb hc).1 (by simp)

theorem gobble_of_not_kind {fuel : Nat} {p : ParserT} {c : ChainT} {alsoSkip : KindMask}
    {allowWord allowEOL cont : Bool} {t : Token} {r : Token × ChainT × ParserT}
    (hh : Holds p t) (hk : hasKind (NK_SKIP :: alsoSkip) t.kind = false)
    (h : chain_gobble_skip fuel p c alsoSkip allowWord allowEOL cont = ok r) :
    r = (t, c, p) := by
  unfold chain_gobble_skip at h
  rw [peek_of_holds hh] at h
  simp only [bind_ok] at h
  cases fuel with
  | zero => simp [chain_gobble_skip_loop] at h
  | succ n =>
    rw [chain_gobble_skip_loop, if_neg (by rw [hk]; exact Bool.false_ne_true)] at h
    simp only [ok.injEq] at h
    exact h.symm

theorem section_list_with_spec (ps : ParserT → Outcome (List NodeT × ParserT))
    (hps : ∀ p items q, ps p = ok (items, q) →
      Adv p q (NodeT.leaves.leavesList items) [] ∧ (2 ≤ items.length → AtRB q)
        ∧ (AtRB p → items = [] ∧ q = p))
    {fuel : Nat} {p q : ParserT} {node : NodeT}
    (h : parse_section_list_with ps fuel p = ok (node, q)) :
    Adv p q node.leaves [] ∧ ∃ ns, node = NodeT.chain ns := by
  unfold parse_section_list_with at h
  obtain ⟨⟨c, p1⟩, h1, h⟩ := bind_eq_ok h
  simp only [ok.injEq, Prod.mk.injEq] at h
  obtain ⟨e1, e2⟩ := h
  subst e1 e2
  obtain ⟨ns, e, a⟩ := section_list_loop_spec ps hps fuel p p1 init_chain c h1 (Or.inl rfl)
  refine ⟨?_, _, rfl⟩
  rw [leaves_chain, e]
  simpa [init_chain, ChainT.children] using a

theorem Grown.gobble {fuel : Nat} {p q : ParserT} {c c' : ChainT} {alsoSkip : KindMask}
    {allowWord allowEOL cont : Bool} {t : Token}
    (h : chain_gobble_skip fuel p c alsoSkip allowWord allowEOL cont = ok (t, c', q))
    (hk : hasKind alsoSkip NK_EOF = false) : Grown c p c' q := by
  obtain ⟨xs, a, e, _, _⟩ := gobble_spec h hk
  exact Grown.of_leaves e a

theorem Grown.gobble_unless_eol {fuel : Nat} {p q : ParserT} {c c' : ChainT} {token t : Token}
    {alsoSkip : KindMask} {allowWord : Bool}
    (h : gobble_unless_eol fuel p c token alsoSkip allowWord = ok (t, c', q))
    (hk : hasKind alsoSkip NK_EOF = false) : Grown c p c' q := by
  obtain ⟨xs, a, e, _⟩ := gobble_unless_eol_spec h hk
  exact Grown.of_leaves e a

theorem Grown.params {kinds : KindMask} {fuel : Nat} {p q : ParserT} {c c' : ChainT} {t : Token}
    (h : parse_section_params kinds fuel p c = ok (t, c', q))
    (hk : hasKind kinds NK_EOF = false) : Grown c p c' q := by
  obtain ⟨xs, a, e, _, _⟩ := params_spec kinds hk fuel p q c c' t h
  exact Grown.of_leaves e a

theorem Grown.add_node {c : ChainT} {p q : ParserT} {node : NodeT} (a : Adv p q node.leaves []) :
    Grown c p (chain_add c node []) q :=
  ⟨[node], Ext.add c node, by simpa [NodeT.leaves.leavesList] using a⟩

theorem section_spec (alsoSkip : KindMask) (hE : hasKind alsoSkip NK_EOF = false)
    (hR : hasKind alsoSkip NK_RB = false) :
    ∀ (fuel : Nat) (p : ParserT) (items : List NodeT) (q : ParserT),
      parser_parse_section fuel p alsoSkip = ok (items, q) →
      Adv p q (NodeT.leaves.leavesList items) [] ∧ (2 ≤ items.length → AtRB q)
        ∧ (AtRB p → items = [] ∧ q = p) := by
  have hE2 : hasKind (NK_SKIP :: alsoSkip) NK_EOF = false := by rw [hasKind_cons, hE]; rfl
  have hR2 : hasKind (NK_SKIP :: alsoSkip) NK_RB = false := by rw [hasKind_cons, hR]; rfl
  have hE3 : hasKind (NK_CONTENT :: NK_STRING :: NK_SKIP :: alsoSkip) NK_EOF = false := by
    rw [hasKind_cons, hasKind_cons, hE2]; rfl
  intro fuel
  induction fuel with
  | zero => intro p items q h; simp [parser_parse_section] at h
  | succ n ih =>
    intro p items q h
    rw [parser_parse_section] at h
    obtain ⟨⟨token, p1⟩, h1, h⟩ := bind_eq_ok h
    obtain ⟨a1, hh1⟩ := peek_spec h1
    simp only at h
    have hatrb : AtRB p → token.kind = NK_RB ∧ p1 = p := by
      rintro ⟨t, ht, hk⟩
      have := peek_of_holds ht true
      rw [h1] at this
      simp only [ok.injEq, Prod.mk.injEq] at this
      rw [this.1, this.2]
      exact ⟨hk, rfl⟩
    by_cases c1 : (hasKind (NK_SKIP :: alsoSkip) token.kind && token.ends_line) = true
    · rw [if_pos c1] at h
      simp only [ok.injEq, Prod.mk.injEq] at h
      obtain ⟨e1, e2⟩ := h
      have hk : hasKind (NK_SKIP :: alsoSkip) token.kind = true := by
        simp only [Bool.and_eq_true] at c1; exact c1.1
      obtain ⟨a2, hv, _⟩ := consume_spec hh1 (hasKind_ne hk hE2)
      rw [hv] at e1
      subst e1 e2
      refine ⟨by simpa [NodeT.leaves.leavesList, NodeT.leaves] using a1.adv_trans a2, ?_, ?_⟩
      · intro h2; simp at h2
      · intro hrb
        exact absurd (hatrb hrb).1 (hasKind_ne hk hR2)
    rw [if_neg c1] at h
    by_cases c2 : (decide (token.kind = NK_BREAK) && !hasKind alsoSkip NK_BREAK) = true
    · rw [if_pos c2] at h
      simp only [ok.injEq, Prod.mk.injEq] at h
      obtain ⟨e1, e2⟩ := h
      subst e1 e2
      exact ⟨a1, by simp, fun hrb => ⟨rfl, (hatrb hrb).2⟩⟩
    rw [if_neg c2] at h
    by_cases c3 : token.kind = NK_EOF
    · rw [if_pos c3] at h
      simp only [ok.injEq, Prod.mk.injEq] at h
      obtain ⟨e1, e2⟩ := h
      subst e1 e2
      exact ⟨a1, by simp, fun hrb => ⟨rfl, (hatrb hrb).2⟩⟩
    rw [if_neg c3] at h
    obtain ⟨⟨tok2, c2', p2⟩, h2, h⟩ := bind_eq_ok h
    simp only at h
    have g2 := Grown.gobble h2 hE
    obtain ⟨xs2, _, _, _, hq2⟩ := gobble_spec h2 hE
    have hatrb2 : AtRB p → tok2.kind = NK_RB ∧ c2' = init_chain ∧ p2 = p := by
      intro hrb
      obtain ⟨k1, k2⟩ := hatrb hrb
      have hnk : hasKind (NK_SKIP :: alsoSkip) token.kind = false := by rw [k1]; exact hR2
      have := gobble_of_not_kind hh1 hnk h2
      simp only [Prod.mk.injEq] at this
      rw [this.1, this.2.1, this.2.2]
      exact ⟨k1, rfl, k2⟩
    by_cases c4 : tok2.kind = NK_RB
    · rw [if_pos c4] at h
      simp only [ok.injEq, Prod.mk.injEq] at h
      obtain ⟨e1, e2⟩ := h
      subst e1 e2
      refine ⟨by simpa using a1.adv_trans g2.result, ?_, ?_⟩
      · intro _
        rcases hq2 with hq | ⟨hq, _⟩
        · exact ⟨tok2, hq, c4⟩
        · rw [c4, hR2] at hq; exact absurd hq Bool.false_ne_true
      · intro hrb
        obtain ⟨_, k2, k3⟩ := hatrb2 hrb
        rw [k2, k3]
        exact ⟨rfl, rfl⟩
    rw [if_neg c4] at h
    obtain ⟨⟨took3, tok3, c3', p3⟩, h3, h⟩ := bind_eq_ok h
    simp only at h
    have g3 := g2.grown_trans (Grown.take h3 (by decide))
    by_cases c5 : (!took3) = true
    · rw [if_pos c5] at h; simp at h
    rw [if_neg c5] at h
    obtain ⟨ok0, h4, h⟩ := bind_eq_ok h
    obtain ⟨⟨tok5, c5', p5⟩, h5, h⟩ := bind_eq_ok h
    simp only at h
    have g5 := g3.grown_trans (Grown.gobble h5 hE)
    obtain ⟨⟨took6, tok6, c6', p6⟩, h6, h⟩ := bind_eq_ok h
    simp only at h
    have g6 := g5.grown_trans (Grown.take h6 hE3)
    obtain ⟨⟨ok7, tok7, c7', p7⟩, h7, h⟩ := bind_eq_ok h
    simp only at h
    have g7 : Grown init_chain p1 c7' p7 := by
      by_cases c6 : took6 = true
      · rw [if_pos c6] at h7
        have h7' : ∃ y, (if (!y) = true then
              (error ErrorT.directive_and_parameter_invalid tok3.line
                : Outcome (Bool × Token × ChainT × ParserT))
            else do
              let r ← parse_section_params
                (NK_CONTENT :: NK_STRING :: NK_SKIP :: alsoSkip) n p6 c6'
              ok (y, r.1, r.2.1, r.2.2)) = ok (ok7, tok7, c7', p7) := by
          by_cases c7 : ok0 = true
          · rw [if_pos c7] at h7
            exact ⟨true, h7⟩
          · rw [if_neg c7] at h7
            obtain ⟨y, _, hy⟩ := bind_eq_ok h7
            exact ⟨y, hy⟩
        obtain ⟨y, hy⟩ := h7'
        by_cases c8 : (!y) = true
        · rw [if_pos c8] at hy; simp at hy
        · rw [if_neg c8] at hy
          obtain ⟨⟨tok8, c8', p8⟩, h8, hy⟩ := bind_eq_ok hy
          simp only [ok.injEq, Prod.mk.injEq] at hy
          obtain ⟨_, _, e3, e4⟩ := hy
          subst e3 e4
          exact g6.grown_trans (Grown.params h8 hE3)
      · rw [if_neg c6] at h7
        simp only [ok.injEq, Prod.mk.injEq] at h7
        obtain ⟨_, _, e3, e4⟩ := h7
        subst e3 e4
        exact g6
    by_cases c9 : (!ok7) = true
    · rw [if_pos c9] at h; simp at h
    rw [if_neg c9] at h
    obtain ⟨⟨tok10, c10, p10⟩, h10, h⟩ := bind_eq_ok h
    simp only at h
    have g10 : Grown init_chain p1 c10 p10 := by
      by_cases d1 : tok7.kind = NK_LB
      · rw [if_pos d1] at h10
        obtain ⟨⟨took11, tok11, c11, p11⟩, h11, h10⟩ := bind_eq_ok h10
        simp only at h10
        obtain ⟨⟨tok12, c12, p12⟩, h12, h10⟩ := bind_eq_ok h10
        simp only at h10
        obtain ⟨⟨list, p13⟩, h13, h10⟩ := bind_eq_ok h10
        simp only at h10
        obtain ⟨⟨took14, tok14, c14, p14⟩, h14, h10⟩ := bind_eq_ok h10
        simp only at h10
        by_cases d2 : (!took14) = true
        · rw [if_pos d2] at h10; simp at h10
        rw [if_neg d2] at h10
        simp only [ok.injEq, Prod.mk.injEq] at h10
        obtain ⟨_, e2, e3⟩ := h10
        subst e2 e3
        obtain ⟨a13, _⟩ := section_list_with_spec _ (fun p items q => ih p items q) h13
        exact (((g7.grown_trans (Grown.take h11 (by decide))).grown_trans
          (Grown.gobble_unless_eol h12 hE)).grown_trans (Grown.add_node a13)).grown_trans
          (Grown.take h14 (by decide))
      · rw [if_neg d1] at h10
        by_cases d3 : tok7.kind = NK_SEMI
        · rw [if_pos d3] at h10
          obtain ⟨⟨took11, tok11, c11, p11⟩, h11, h10⟩ := bind_eq_ok h10
          simp only [ok.injEq, Prod.mk.injEq] at h10
          obtain ⟨_, e2, e3⟩ := h10
          subst e2 e3
          exact g7.grown_trans (Grown.take h11 (by decide))
        · rw [if_neg d3] at h10
          by_cases d4 : tok7.kind ≠ NK_BREAK
          · rw [if_pos d4] at h10; simp at h10
          · rw [if_neg d4] at h10
            simp only [ok.injEq, Prod.mk.injEq] at h10
            obtain ⟨_, e2, e3⟩ := h10
            subst e2 e3
            exact g7
    obtain ⟨⟨tok15, c15, p15⟩, h15, h⟩ := bind_eq_ok h
    simp only [ok.injEq, Prod.mk.injEq] at h
    obtain ⟨e1, e2⟩ := h
    subst e1 e2
    have g15 := g10.grown_trans (Grown.gobble_unless_eol h15 hE)
    refine ⟨?_, by simp, ?_⟩
    · simpa [NodeT.leaves.leavesList, leaves_chain] using a1.adv_trans g15.result
    · intro hrb
      exact absurd (hatrb2 hrb).1 c4

/-! ## Merges -/

theorem Interleave.lefts {α : Type} (l : List α) : Interleave l [] l := by
  induction l with
  | nil => exact Interleave.nil
  | cons a l ih => exact Interleave.left a ih

theorem Interleave.rights {α : Type} (l : List α) : Interleave [] l l := by
  induction l with
  | nil => exact Interleave.nil
  | cons a l ih => exact Interleave.right a ih

theorem Interleave.append {α : Type} {a b c a' b' c' : List α} (h : Interleave a b c)
    (h' : Interleave a' b' c') : Interleave (a ++ a') (b ++ b') (c ++ c') := by
  induction h with
  | nil => exact h'
  | left x _ ih => exact Interleave.left x ih
  | right x _ ih => exact Interleave.right x ih

theorem Interleave.eq_of_nil {α : Type} {a b c : List α} (h : Interleave a b c) (hb : b = []) :
    a = c := by
  induction h with
  | nil => rfl
  | left x _ ih => rw [ih hb]
  | right x _ _ => cases hb

theorem Interleave.sublist_left {α : Type} {a b c : List α} (h : Interleave a b c) :
    List.Sublist a c := by
  induction h with
  | nil => exact List.Sublist.slnil
  | left x _ ih => exact List.Sublist.cons₂ x ih
  | right x _ ih => exact List.Sublist.cons x ih

theorem Interleave.sublist_right {α : Type} {a b c : List α} (h : Interleave a b c) :
    List.Sublist b c := by
  induction h with
  | nil => exact List.Sublist.slnil
  | left x _ ih => exact List.Sublist.cons x ih
  | right x _ ih => exact List.Sublist.cons₂ x ih

theorem Interleave.length {α : Type} {a b c : List α} (h : Interleave a b c) :
    c.length = a.length + b.length := by
  induction h with
  | nil => rfl
  | left x _ ih => simp [ih]; omega
  | right x _ ih => simp [ih]; omega

theorem Kept.kept_refl (p : ParserT) : Kept p p [] :=
  ⟨[], [], Adv.adv_refl p, Interleave.nil, by simp⟩

theorem Kept.kept_trans {p q r : ParserT} {l1 l2 : List Token} (h1 : Kept p q l1)
    (h2 : Kept q r l2) : Kept p r (l1 ++ l2) := by
  obtain ⟨c1, r1, a1, i1, s1⟩ := h1
  obtain ⟨c2, r2, a2, i2, s2⟩ := h2
  refine ⟨c1 ++ c2, r1 ++ r2, a1.adv_trans a2, i1.append i2, ?_⟩
  intro x hx
  rcases List.mem_append.1 hx with h | h
  · exact s1 x h
  · exact s2 x h

theorem Kept.of_adv {p q : ParserT} {ls : List Token} (a : Adv p q ls []) : Kept p q ls :=
  ⟨ls, [], a, Interleave.lefts ls, by simp⟩

theorem Kept.of_grown {c c' : ChainT} {p q : ParserT} {ns : List NodeT}
    (e : Ext c c' ns) (a : Adv p q (NodeT.leaves.leavesList ns) []) :
    Kept p q (NodeT.leaves.leavesList ns) ∧ Ext c c' ns := ⟨Kept.of_adv a, e⟩

theorem hasKind_single {k x : NodeKind} (h : hasKind [k] x = true) : x = k := by
  simpa [hasKind] using h

theorem Kept.of_skip {fuel : Nat} {p q : ParserT} {allowWord allowEOL : Bool} {t : Token}
    (h : skip_tokens fuel p allowWord [NK_SKIP] allowEOL = ok (t, q)) :
    Kept p q [] ∧ Holds q t := by
  obtain ⟨rs, a, hr, hq⟩ := skip_tokens_spec h (by decide)
  exact ⟨⟨rs, rs, a, Interleave.rights rs, fun r hr2 => hasKind_single (hr r hr2)⟩, hq⟩

theorem domains_spec :
    ∀ (fuel : Nat) (p q : ParserT) (c c' : ChainT) (n n' : Nat) (t : Token),
      parse_server_domains fuel p c n = ok (t, c', n', q) →
      ∃ ds, Kept p q ds ∧ Ext c c' (ds.map NodeT.leaf) ∧ n' = n + ds.length
        ∧ (∀ d ∈ ds, d.kind = NK_CONTENT ∧ valid_suffix p.domain d.text = true)
        ∧ Holds q t ∧ t.kind ≠ NK_CONTENT := by
  intro fuel
  induction fuel with
  | zero => intro p q c c' n n' t h; simp [parse_server_domains] at h
  | succ m ih =>
    intro p q c c' n n' t h
    rw [parse_server_domains] at h
    obtain ⟨⟨took, t1, c1, p1⟩, h1, g⟩ := bind_eq_ok h
    clear h
    simp only at g
    rcases chain_take_spec h1 (by decide) with ⟨e1, k1, e3, a1, _⟩ | ⟨e1, k1, e3, a1, hh⟩
    · subst e1 e3
      simp only [if_true] at g
      obtain ⟨n2, h2, g2⟩ := bind_eq_ok g
      obtain ⟨⟨t3, p3⟩, h3, h⟩ := bind_eq_ok g2
      clear g g2
      simp only at h
      rw [if_pos k1] at h2
      by_cases v : (!valid_suffix p1.domain t1.text) = true
      · rw [if_pos v] at h2; simp at h2
      rw [if_neg v] at h2
      simp only [ok.injEq] at h2
      subst h2
      obtain ⟨k3, _⟩ := Kept.of_skip h3
      obtain ⟨ds, k4, e4, en, hd, hq, hk⟩ := ih p3 q _ c' _ n' t h
      have hdom : p3.domain = p.domain := by
        obtain ⟨_, _, a3, _, _⟩ := k3
        rw [a3.domain, a1.domain]
      refine ⟨t1 :: ds, ?_, (Ext.add c (NodeT.leaf t1)).ext_trans e4, ?_, ?_, hq, hk⟩
      · simpa using ((Kept.of_adv a1).kept_trans k3).kept_trans k4
      · rw [en]; simp; omega
      · intro d hd2
        rcases List.mem_cons.1 hd2 with rfl | hd2
        · refine ⟨hasKind_single k1, ?_⟩
          rw [← a1.domain]
          simpa using v
        · rw [← hdom]; exact hd d hd2
    · subst e1 e3
      simp only [Bool.false_eq_true, if_false, ok.injEq, Prod.mk.injEq] at g
      obtain ⟨e1, e2, e3, e4⟩ := g
      subst e1 e2 e3 e4
      refine ⟨[], Kept.of_adv a1, Ext.ext_refl _, rfl, by simp, hh, ?_⟩
      intro hk
      rw [hk] at k1
      exact absurd k1 (by decide)

theorem Kept.domain {p q : ParserT} {ls : List Token} (h : Kept p q ls) :
    q.domain = p.domain := by
  obtain ⟨_, _, a, _, _⟩ := h
  exact a.domain

theorem Grown.kept {c c' : ChainT} {p q : ParserT} (h : Grown c p c' q) :
    ∃ ns, Ext c c' ns ∧ Kept p q (NodeT.leaves.leavesList ns) := by
  obtain ⟨ns, e, a⟩ := h
  exact ⟨ns, e, Kept.of_adv a⟩

theorem deref_ok {α : Type} {x : Option α} {a : α} (h : deref x = ok a) : x = some a := by
  cases x with
  | none => simp [deref] at h
  | some b => simp only [deref, ok.injEq] at h; rw [h]

theorem server_block_spec {fuel : Nat} {p q : ParserT} {r : Option NodeT}
    (h : parser_parse_server_block fuel p = ok (r, q)) :
    (r = none ∧ Kept p q [])
    ∨ (∃ server ds lb rest,
        r = some (NodeT.chain (NodeT.leaf server :: ds.map NodeT.leaf ++ NodeT.leaf lb :: rest))
        ∧ server.kind = NK_WORD ∧ server.text = some "server".toList ∧ ds ≠ []
        ∧ (∀ d ∈ ds, d.kind = NK_CONTENT ∧ valid_suffix p.domain d.text = true)
        ∧ lb.kind = NK_LB
        ∧ Kept p q (server :: ds ++ lb :: NodeT.leaves.leavesList rest)) := by
  unfold parser_parse_server_block at h
  obtain ⟨⟨token, p1⟩, h1, g1⟩ := bind_eq_ok h
  clear h
  obtain ⟨a1, _⟩ := peek_spec h1
  obtain ⟨⟨t2, p2⟩, h2, g2⟩ := bind_eq_ok g1
  clear g1
  simp only at g2
  obtain ⟨k2, _⟩ := Kept.of_skip h2
  have k12 : Kept p p2 [] := by simpa using (Kept.of_adv a1).kept_trans k2
  by_cases c1 : token.kind ≠ NK_WORD
  · rw [if_pos c1] at g2
    simp only [ok.injEq, Prod.mk.injEq] at g2
    obtain ⟨e1, e2⟩ := g2
    subst e1 e2
    exact Or.inl ⟨rfl, k12⟩
  rw [if_neg c1] at g2
  right
  obtain ⟨⟨took3, server, c3, p3⟩, h3, g3⟩ := bind_eq_ok g2
  clear g2
  simp only at g3
  by_cases c2 : (!took3) = true
  · rw [if_pos c2] at g3; simp at g3
  rw [if_neg c2] at g3
  rcases chain_take_spec h3 (by decide) with ⟨_, ks, e3, a3, _⟩ | ⟨e1, _, _, _, _⟩
  swap
  · rw [e1] at c2; exact absurd rfl c2
  obtain ⟨text, h4, g4⟩ := bind_eq_ok g3
  clear g3
  have htext := deref_ok h4
  by_cases c3' : (!streq "server".toList text) = true
  · rw [if_pos c3'] at g4; simp at g4
  rw [if_neg c3'] at g4
  have hserver : text = "server".toList := by
    simp only [streq, Bool.not_eq_true', decide_eq_false_iff_not, not_not] at c3'
    exact c3'.symm
  obtain ⟨⟨t5, p5⟩, h5, g5⟩ := bind_eq_ok g4
  clear g4
  simp only at g5
  obtain ⟨k5, _⟩ := Kept.of_skip h5
  obtain ⟨⟨t6, c6, n6, p6⟩, h6, g6⟩ := bind_eq_ok g5
  clear g5
  simp only at g6
  obtain ⟨ds, k6, e6, en, hd, _, _⟩ := domains_spec fuel p5 p6 c3 c6 0 n6 t6 h6
  by_cases c4 : n6 = 0
  · rw [if_pos c4] at g6; simp at g6
  rw [if_neg c4] at g6
  obtain ⟨⟨took7, lb, c7, p7⟩, h7, g7⟩ := bind_eq_ok g6
  clear g6
  simp only at g7
  by_cases c5 : (!took7) = true
  · rw [if_pos c5] at g7; simp at g7
  rw [if_neg c5] at g7
  rcases chain_take_spec h7 (by decide) with ⟨_, kl, e7, a7, _⟩ | ⟨e1, _, _, _, _⟩
  swap
  · rw [e1] at c5; exact absurd rfl c5
  obtain ⟨⟨t8, c8, p8⟩, h8, g8⟩ := bind_eq_ok g7
  clear g7
  simp only at g8
  obtain ⟨⟨list, p9⟩, h9, g9⟩ := bind_eq_ok g8
  clear g8
  simp only at g9
  obtain ⟨⟨took10, t10, c10, p10⟩, h10, g10⟩ := bind_eq_ok g9
  clear g9
  simp only at g10
  by_cases c6' : (!took10) = true
  · rw [if_pos c6'] at g10; simp at g10
  rw [if_neg c6'] at g10
  obtain ⟨⟨t11, c11, p11⟩, h11, g11⟩ := bind_eq_ok g10
  clear g10
  simp only [ok.injEq, Prod.mk.injEq] at g11
  obtain ⟨e1, e2⟩ := g11
  subst e1 e2
  obtain ⟨a9, _⟩ := section_list_with_spec _
    (section_spec [NK_BREAK] (by decide) (by decide) fuel) h9
  have gtail : Grown c7 p7 c11 p11 :=
    (((Grown.gobble_unless_eol h8 (by decide)).grown_trans (Grown.add_node a9)).grown_trans
      (Grown.take h10 (by decide))).grown_trans (Grown.gobble_unless_eol h11 (by decide))
  obtain ⟨rest, er, kr⟩ := gtail.kept
  subst e3 e7
  have eall : Ext init_chain c11
      ([NodeT.leaf server] ++ ds.map NodeT.leaf ++ [NodeT.leaf lb] ++ rest) :=
    (((Ext.add init_chain (NodeT.leaf server)).ext_trans e6).ext_trans (Ext.add _ (NodeT.leaf lb))).ext_trans er
  obtain ⟨hch, _⟩ := eall.children rfl
  have hdom5 : p5.domain = p.domain := by
    rw [k5.domain, a3.domain, k12.domain]
  refine ⟨server, ds, lb, rest, ?_, hasKind_single ks, ?_, ?_, ?_, hasKind_single kl, ?_⟩
  · rw [hch]; simp [init_chain, ChainT.children]
  · rw [htext, hserver]
  · intro hnil
    apply c4
    rw [en, hnil]; rfl
  · intro d hd2
    rw [← hdom5]; exact hd d hd2
  · have := ((((k12.kept_trans (Kept.of_adv a3)).kept_trans k5).kept_trans k6).kept_trans (Kept.of_adv a7)).kept_trans kr
    simpa using this

/-! ## Running the primitives on a known stream -/

theorem peek_fresh {p : ParserT} {L : List Token} (h : Fresh p L) (allowWord : Bool) :
    ∃ q, peek p allowWord = ok (next_of L p.scanner.eof_line, q) ∧ Reads q L
      ∧ q.scanner.eof_line = p.scanner.eof_line := by
  rcases p with ⟨dom, ⟨inp, el⟩, pend, cs, pr, ab, con, rel⟩
  obtain ⟨h1, h2⟩ := h
  simp only at h1 h2
  subst h1 h2
  cases inp with
  | nil => exact ⟨_, rfl, And.intro (And.intro rfl rfl) rfl, rfl⟩
  | cons a rest => exact ⟨_, rfl, And.intro (And.intro rfl rfl) rfl, rfl⟩

theorem peek_reads {p : ParserT} {L : List Token} (h : Reads p L) (allowWord : Bool) :
    peek p allowWord = ok (next_of L p.scanner.eof_line, p) :=
  peek_of_holds h.1 allowWord

theorem consume_reads {p : ParserT} {t : Token} {L : List Token} (h : Reads p (t :: L)) :
    Fresh (consume_token p).2 L ∧ (consume_token p).2.scanner.eof_line = p.scanner.eof_line :=
  ⟨And.intro rfl h.2, rfl⟩

theorem release_fresh {p : ParserT} {L : List Token} (h : Fresh p L) (t : Token) :
    Fresh (release_node p t) L ∧ (release_node p t).scanner.eof_line = p.scanner.eof_line :=
  ⟨h, rfl⟩

theorem skip_loop_eval (allowWord : Bool) (L : List Token) (el : Nat)
    (hL : (next_of L el).kind ≠ NK_SKIP) :
    ∀ (skips : List Token) (fuel : Nat) (p : ParserT), Reads p (skips ++ L) →
      p.scanner.eof_line = el → (∀ s ∈ skips, s.kind = NK_SKIP) → skips.length < fuel →
      ∃ q, skip_tokens_loop allowWord [NK_SKIP] true fuel p (next_of (skips ++ L) el)
          = ok (next_of L el, q) ∧ Reads q L ∧ q.scanner.eof_line = el := by
  intro skips
  induction skips with
  | nil =>
    intro fuel p hr he _ hf
    cases fuel with
    | zero => simp at hf
    | succ n =>
      refine ⟨p, ?_, hr, he⟩
      rw [skip_tokens_loop, List.nil_append, if_neg]
      simp [hasKind, hL]
  | cons s skips ih =>
    intro fuel p hr he hs hf
    cases fuel with
    | zero => simp at hf
    | succ n =>
      have hsk : s.kind = NK_SKIP := hs s (List.mem_cons_self _ _)
      obtain ⟨f1, e1⟩ := consume_reads hr
      obtain ⟨f2, e2⟩ := release_fresh f1 s
      obtain ⟨q1, hp, r1, e3⟩ := peek_fresh f2 allowWord
      have e4 : q1.scanner.eof_line = el := by rw [e3, e2, e1, he]
      obtain ⟨q, hq, r2, e5⟩ := ih n q1 r1 e4
        (fun x hx => hs x (List.mem_cons_of_mem _ hx)) (by simp at hf; omega)
      refine ⟨q, ?_, r2, e5⟩
      rw [skip_tokens_loop]
      have hn : next_of (s :: (skips ++ L)) el = s := rfl
      rw [List.cons_append, hn, if_pos (by simp [hasKind, hsk])]
      simp only
      rw [hp, e2, e1, he]
      exact hq

theorem skip_eval_fresh (allowWord : Bool) (L : List Token) (skips : List Token) (fuel : Nat)
    (p : ParserT) (hp : Fresh p (skips ++ L))
    (hL : (next_of L p.scanner.eof_line).kind ≠ NK_SKIP)
    (hs : ∀ s ∈ skips, s.kind = NK_SKIP) (hf : skips.length < fuel) :
    ∃ q, skip_tokens fuel p allowWord [NK_SKIP] true = ok (next_of L p.scanner.eof_line, q)
      ∧ Reads q L ∧ q.scanner.eof_line = p.scanner.eof_line := by
  obtain ⟨q1, h1, r1, e1⟩ := peek_fresh hp allowWord
  obtain ⟨q, hq, r2, e2⟩ := skip_loop_eval allowWord L _ hL skips fuel q1 r1 e1 hs hf
  refine ⟨q, ?_, r2, e2⟩
  unfold skip_tokens
  rw [h1]
  exact hq

theorem skip_eval_reads (allowWord : Bool) (L : List Token) (fuel : Nat)
    (p : ParserT) (hp : Reads p L)
    (hL : (next_of L p.scanner.eof_line).kind ≠ NK_SKIP) (hf : 0 < fuel) :
    skip_tokens fuel p allowWord [NK_SKIP] true = ok (next_of L p.scanner.eof_line, p) := by
  unfold skip_tokens
  rw [peek_reads hp]
  cases fuel with
  | zero => simp at hf
  | succ n =>
    simp only [bind_ok]
    rw [skip_tokens_loop, if_neg]
    simp [hasKind, hL]

theorem chain_take_hit {p : ParserT} {t : Token} {L : List Token} (h : Reads p (t :: L))
    (c : ChainT) (kinds : KindMask) (hk : hasKind kinds t.kind = true) (allowWord : Bool) :
    chain_take p c kinds allowWord
      = ok (true, t, chain_add c (NodeT.leaf t) [], (consume_token p).2) := by
  unfold chain_take
  rw [peek_reads h]
  have hn : next_of (t :: L) p.scanner.eof_line = t := rfl
  rw [hn]
  simp only [bind_ok]
  rw [if_pos hk]

theorem chain_take_miss {p : ParserT} {L : List Token} (h : Reads p L)
    (c : ChainT) (kinds : KindMask)
    (hk : hasKind kinds (next_of L p.scanner.eof_line).kind = false) (allowWord : Bool) :
    chain_take p c kinds allowWord = ok (false, next_of L p.scanner.eof_line, c, p) := by
  unfold chain_take
  rw [peek_reads h]
  simp only [bind_ok]
  rw [if_neg (by rw [hk]; exact Bool.false_ne_true)]

theorem head_dropWhile {α : Type} (f : α → Bool) (l : List α) (x : α)
    (h : (l.dropWhile f).head? = some x) : f x = false := by
  induction l with
  | nil => simp at h
  | cons a l ih =>
    by_cases ha : f a = true
    · rw [List.dropWhile_cons_of_pos ha] at h; exact ih h
    · rw [List.dropWhile_cons_of_neg ha] at h
      simp only [List.head?_cons, Option.some.injEq] at h
      rw [← h]; simpa using ha

theorem next_of_append_kind (xs : List Token) (bad : Token) (rest : List Token) (el : Nat)
    (k : NodeKind) (hx : ∀ x, xs.head? = some x → x.kind ≠ k) (hb : bad.kind ≠ k) :
    (next_of (xs ++ bad :: rest) el).kind ≠ k := by
  cases xs with
  | nil => exact hb
  | cons x xs => exact hx x rfl

theorem domains_reject_nil (dom : CStr) (bad : Token) (rest : List Token)
    (hb : bad.kind = NK_CONTENT) (hv : valid_suffix dom bad.text = false)
    (fuel : Nat) (p : ParserT) (c : ChainT) (num : Nat)
    (hr : Reads p (bad :: rest)) (hd : p.domain = dom) (hf : 0 < fuel) :
    parse_server_domains fuel p c num = error ErrorT.domain_not_valid bad.line := by
  cases fuel with
  | zero => simp at hf
  | succ f =>
    rw [parse_server_domains, chain_take_hit hr c _ (by rw [hb]; rfl)]
    simp only [bind_ok, if_true]
    rw [if_pos (by rw [hb]; rfl)]
    have : (consume_token p).2.domain = dom := hd
    rw [this, hv]
    rfl

theorem domains_reject (dom : CStr) (bad : Token) (rest : List Token)
    (hb : bad.kind = NK_CONTENT) (hv : valid_suffix dom bad.text = false) :
    ∀ (n : Nat) (xs : List Token) (fuel : Nat) (p : ParserT) (c : ChainT) (num : Nat),
      xs.length ≤ n → Reads p (xs ++ bad :: rest) → p.domain = dom →
      (∀ x ∈ xs, x.kind = NK_SKIP ∨ (x.kind = NK_CONTENT ∧ valid_suffix dom x.text = true)) →
      (∀ x, xs.head? = some x → x.kind ≠ NK_SKIP) → xs.length < fuel →
      parse_server_domains fuel p c num = error ErrorT.domain_not_valid bad.line := by
  intro n
  induction n with
  | zero =>
    intro xs fuel p c num hlen hr hd _ _ hf
    have hxs : xs = [] := List.length_eq_zero.1 (Nat.le_zero.1 hlen)
    subst hxs
    exact domains_reject_nil dom bad rest hb hv fuel p c num hr hd hf
  | succ n ih =>
    intro xs fuel p c num hlen hr hd hx hh hf
    cases xs with
    | nil => exact domains_reject_nil dom bad rest hb hv fuel p c num hr hd (by omega)
    | cons d xs' =>
      cases fuel with
      | zero => simp at hf
      | succ f =>
        have hdk : d.kind = NK_CONTENT ∧ valid_suffix dom d.text = true := by
          rcases hx d (List.mem_cons_self _ _) with h | h
          · exact absurd h (hh d rfl)
          · exact h
        rw [List.cons_append] at hr
        obtain ⟨fr, e1⟩ := consume_reads hr
        have hd1 : (consume_token p).2.domain = dom := hd
        rw [parse_server_domains, chain_take_hit hr c _ (by rw [hdk.1]; rfl)]
        simp only [bind_ok, if_true]
        rw [if_pos (by rw [hdk.1]; rfl), hd1, hdk.2]
        simp only [Bool.not_true, Bool.false_eq_true, if_false, bind_ok]
        have hsplit : xs' = xs'.takeWhile (fun x => decide (x.kind = NK_SKIP))
            ++ xs'.dropWhile (fun x => decide (x.kind = NK_SKIP)) :=
          (List.takeWhile_append_dropWhile _ _).symm
        generalize hS : xs'.takeWhile (fun x => decide (x.kind = NK_SKIP)) = skips at hsplit
        generalize hT : xs'.dropWhile (fun x => decide (x.kind = NK_SKIP)) = tl at hsplit
        have hskips : ∀ s ∈ skips, s.kind = NK_SKIP := by
          intro s hs
          rw [← hS] at hs
          simpa using List.mem_takeWhile_imp hs
        have htl : ∀ x, tl.head? = some x → x.kind ≠ NK_SKIP := by
          intro x hx2
          rw [← hT] at hx2
          simpa using head_dropWhile _ _ _ hx2
        have hlen2 : xs'.length = skips.length + tl.length := by
          rw [hsplit, List.length_append]
        have fr2 : Fresh (consume_token p).2 (skips ++ (tl ++ bad :: rest)) := by
          rw [← List.append_assoc, ← hsplit]; exact fr
        simp only [List.length_cons] at hlen hf
        obtain ⟨q, hq, rq, eq⟩ := skip_eval_fresh false (tl ++ bad :: rest) skips f
          (consume_token p).2 fr2
          (next_of_append_kind tl bad rest _ NK_SKIP htl (by rw [hb]; decide)) hskips (by omega)
        rw [hq]
        simp only [bind_ok]
        obtain ⟨rs, aq, _, _⟩ := skip_tokens_spec hq (by decide)
        apply ih tl f q _ _ (by omega) rq (by rw [aq.domain]; exact hd1)
        · intro x hx2
          apply hx x
          rw [hsplit]
          exact List.mem_cons_of_mem _ (List.mem_append_right _ hx2)
        · exact htl
        · omega

theorem domains_none (L : List Token) (fuel : Nat) (p : ParserT) (c : ChainT) (num : Nat)
    (hr : Reads p L) (hk : (next_of L p.scanner.eof_line).kind ≠ NK_CONTENT) (hf : 0 < fuel) :
    parse_server_domains fuel p c num = ok (next_of L p.scanner.eof_line, c, num, p) := by
  cases fuel with
  | zero => simp at hf
  | succ f =>
    rw [parse_server_domains, chain_take_miss hr c _ (by simpa [hasKind] using hk)]
    rfl

/-- The state in which `parser_parse_server_block` reaches line 263 when the
stream begins with the word `server`: the word is in the chain and consumed. -/
theorem server_block_header (dom : CStr) (cs : List BindingT) (el : Nat) (server : Token)
    (L : List Token) (fuel : Nat) (hw : server.kind = NK_WORD)
    (ht : server.text = some "server".toList) (hf : 0 < fuel) :
    ∃ q, Fresh q L ∧ q.domain = dom ∧ q.scanner.eof_line = el ∧
      parser_parse_server_block fuel (parser_init dom false cs ⟨server :: L, el⟩)
        = (do
            let r ← skip_tokens fuel q false [NK_SKIP] true
            let r2 ← parse_server_domains fuel r.2 (chain_add init_chain (NodeT.leaf server) []) 0
            if r2.2.2.1 = 0 then error ErrorT.domain_name_expected server.line
            else do
              let r3 ← chain_take r2.2.2.2 r2.2.1 [NK_LB] false
              if (!r3.1) = true then error ErrorT.lbrace_expected r3.2.1.line
              else do
                let r4 ← gobble_unless_eol fuel r3.2.2.2 r3.2.2.1 r3.2.1 [NK_BREAK] true
                let r5 ← parser_parse_section_list fuel r4.2.2 [NK_BREAK]
                let r6 ← chain_take r5.2 (chain_add r4.2.1 r5.1 []) [NK_RB] true
                if (!r6.1) = true then error ErrorT.rbrace_expected r6.2.1.line
                else do
                  let r7 ← gobble_unless_eol fuel r6.2.2.2 r6.2.2.1 r6.2.1 [NK_BREAK] true
                  ok (some (NodeT.chain r7.2.1.children), r7.2.2)) := by
  have f0 : Fresh (parser_init dom false cs ⟨server :: L, el⟩) (server :: L) :=
    And.intro rfl rfl
  obtain ⟨q1, h1, r1, e1⟩ := peek_fresh f0 true
  have e1' : q1.scanner.eof_line = el := e1
  have hn : next_of (server :: L) el = server := rfl
  have h1' : peek (parser_init dom false cs ⟨server :: L, el⟩) true = ok (server, q1) := h1
  have h2 := skip_eval_reads true (server :: L) fuel q1 r1
    (by rw [e1', hn, hw]; decide) hf
  rw [e1', hn] at h2
  have h3 := chain_take_hit r1 init_chain [NK_WORD] (by rw [hw]; rfl) false
  obtain ⟨f4, e4⟩ := consume_reads r1
  obtain ⟨a1, _⟩ := peek_spec h1'
  refine ⟨(consume_token q1).2, f4, ?_, by rw [e4, e1'], ?_⟩
  · show q1.domain = dom
    rw [a1.domain]; rfl
  · unfold parser_parse_server_block
    rw [h1']
    simp only [bind_ok]
    rw [h2]
    simp only [bind_ok]
    rw [if_neg (by rw [hw]; simp), h3]
    simp only [bind_ok, Bool.not_true, Bool.false_eq_true, if_false]
    rw [ht]
    simp only [deref, bind_ok, streq, decide_True, Bool.not_true, Bool.false_eq_true, if_false]

theorem server_block_no_domain (dom : CStr) (cs : List BindingT) (el : Nat) (server : Token)
    (skips L : List Token) (fuel : Nat) (hw : server.kind = NK_WORD)
    (ht : server.text = some "server".toList) (hs : ∀ s ∈ skips, s.kind = NK_SKIP)
    (h1 : (next_of L el).kind ≠ NK_SKIP) (h2 : (next_of L el).kind ≠ NK_CONTENT)
    (hf : skips.length < fuel) :
    parser_parse_server_block fuel (parser_init dom false cs ⟨server :: (skips ++ L), el⟩)
      = error ErrorT.domain_name_expected server.line := by
  obtain ⟨q, fq, _, eq, hq⟩ := server_block_header dom cs el server (skips ++ L) fuel hw ht
    (by omega)
  rw [hq]
  obtain ⟨q2, hs2, r2, e2⟩ := skip_eval_fresh false L skips fuel q fq (by rw [eq]; exact h1) hs hf
  rw [hs2]
  simp only [bind_ok]
  rw [domains_none L fuel q2 _ 0 r2 (by rw [e2, eq]; exact h2) (by omega)]
  simp only [bind_ok, if_true]

theorem server_block_bad_domain (dom : CStr) (cs : List BindingT) (el : Nat) (server bad : Token)
    (xs rest : List Token) (fuel : Nat) (hw : server.kind = NK_WORD)
    (ht : server.text = some "server".toList)
    (hx : ∀ x ∈ xs, x.kind = NK_SKIP ∨ (x.kind = NK_CONTENT ∧ valid_suffix dom x.text = true))
    (hb : bad.kind = NK_CONTENT) (hv : valid_suffix dom bad.text = false)
    (hf : xs.length < fuel) :
    parser_parse_server_block fuel
        (parser_init dom false cs ⟨server :: (xs ++ bad :: rest), el⟩)
      = error ErrorT.domain_not_valid bad.line := by
  obtain ⟨q, fq, dq, eq, hq⟩ := server_block_header dom cs el server (xs ++ bad :: rest) fuel
    hw ht (by omega)
  rw [hq]
  have hsplit : xs = xs.takeWhile (fun x => decide (x.kind = NK_SKIP))
      ++ xs.dropWhile (fun x => decide (x.kind = NK_SKIP)) :=
    (List.takeWhile_append_dropWhile _ _).symm
  generalize hS : xs.takeWhile (fun x => decide (x.kind = NK_SKIP)) = skips at hsplit
  generalize hT : xs.dropWhile (fun x => decide (x.kind = NK_SKIP)) = tl at hsplit
  have hskips : ∀ s ∈ skips, s.kind = NK_SKIP := by
    intro s hs
    rw [← hS] at hs
    simpa using List.mem_takeWhile_imp hs
  have htl : ∀ x, tl.head? = some x → x.kind ≠ NK_SKIP := by
    intro x hx2
    rw [← hT] at hx2
    simpa using head_dropWhile _ _ _ hx2
  have hlen2 : xs.length = skips.length + tl.length := by
    rw [hsplit, List.length_append]
  have fr2 : Fresh q (skips ++ (tl ++ bad :: rest)) := by
    rw [← List.append_assoc, ← hsplit]; exact fq
  obtain ⟨q2, hs2, r2, e2⟩ := skip_eval_fresh false (tl ++ bad :: rest) skips fuel q fr2
    (next_of_append_kind tl bad rest _ NK_SKIP htl (by rw [hb]; decide)) hskips (by omega)
  rw [hs2]
  simp only [bind_ok]
  obtain ⟨rs, aq, _, _⟩ := skip_tokens_spec hs2 (by decide)
  rw [domains_reject dom bad rest hb hv tl.length tl fuel q2 _ 0 (Nat.le_refl _) r2
    (by rw [aq.domain]; exact dq)
    (fun x hx2 => hx x (by rw [hsplit]; exact List.mem_append_right _ hx2)) htl (by omega)]
  rfl

/-- C6: whenever `parser_parse_server_block` returns a block, the block's chain
begins with the word `server`, then one or more `CONTENT` tokens, each accepted
by `valid_suffix` against the parser's root domain, then `{`. Conversely, on a
stream that begins with `server` the call ends in the fatal error "domain name
expected" when no `CONTENT` token follows (after any `SKIP` tokens), and in the
fatal error "domain not valid" when the domain list holds a `CONTENT` token that
`valid_suffix` rejects after tokens it accepts; so for `server other.com { }`
under the root domain `example.com`. -/
theorem server_block_domain_gate :
    (∀ (fuel : Nat) (p q : ParserT) (node : NodeT),
        parser_parse_server_block fuel p = ok (some node, q) →
        ∃ server ds lb rest,
          node = NodeT.chain (NodeT.leaf server :: ds.map NodeT.leaf ++ NodeT.leaf lb :: rest)
          ∧ server.kind = NK_WORD ∧ server.text = some "server".toList ∧ lb.kind = NK_LB
          ∧ ds ≠ [] ∧ ∀ d ∈ ds, d.kind = NK_CONTENT ∧ valid_suffix p.domain d.text = true)
    ∧ (∀ (dom : CStr) (cs : List BindingT) (el : Nat) (server : Token) (skips L : List Token)
        (fuel : Nat), server.kind = NK_WORD → server.text = some "server".toList →
        (∀ s ∈ skips, s.kind = NK_SKIP) → (next_of L el).kind ≠ NK_SKIP →
        (next_of L el).kind ≠ NK_CONTENT → skips.length < fuel →
        parser_parse_server_block fuel (parser_init dom false cs ⟨server :: (skips ++ L), el⟩)
          = error ErrorT.domain_name_expected server.line)
    ∧ (∀ (dom : CStr) (cs : List BindingT) (el : Nat) (server bad : Token)
        (xs rest : List Token) (fuel : Nat), server.kind = NK_WORD →
        server.text = some "server".toList →
        (∀ x ∈ xs, x.kind = NK_SKIP ∨ (x.kind = NK_CONTENT ∧ valid_suffix dom x.text = true)) →
        bad.kind = NK_CONTENT → valid_suffix dom bad.text = false → xs.length < fuel →
        parser_parse_server_block fuel
            (parser_init dom false cs ⟨server :: (xs ++ bad :: rest), el⟩)
          = error ErrorT.domain_not_valid bad.line)
    ∧ parser_parse_server_block 2
        (parser_init "example.com".toList false []
          ⟨[⟨NK_WORD, some "server".toList, 1, false⟩, ⟨NK_SKIP, none, 1, false⟩,
            ⟨NK_CONTENT, some "other.com".toList, 1, false⟩, ⟨NK_SKIP, none, 1, false⟩,
            ⟨NK_LB, none, 1, false⟩, ⟨NK_SKIP, none, 1, false⟩, ⟨NK_RB, none, 1, true⟩], 2⟩)
      = error ErrorT.domain_not_valid 1 := by
  refine ⟨?_, server_block_no_domain, server_block_bad_domain, by rfl⟩
  intro fuel p q node h
  rcases server_block_spec h with ⟨h1, _⟩ | ⟨server, ds, lb, rest, h1, h2, h3, h4, h5, h6, _⟩
  · cases h1
  · simp only [Option.some.injEq] at h1
    exact ⟨server, ds, lb, rest, h1, h2, h3, h6, h4, h5⟩

/-! ## Round trip of the user-configuration parser -/

theorem conf_loop_spec :
    ∀ (fuel : Nat) (p q : ParserT) (conf conf' : ChainT),
      parser_parse_conf_loop fuel p conf = ok (conf', q) →
      ∃ ns, Ext conf conf' ns ∧ Kept p q (NodeT.leaves.leavesList ns) := by
  intro fuel
  induction fuel with
  | zero => intro p q conf conf' h; simp [parser_parse_conf_loop] at h
  | succ n ih =>
    intro p q conf conf' h
    rw [parser_parse_conf_loop] at h
    obtain ⟨⟨item, p1⟩, h1, g⟩ := bind_eq_ok h
    clear h
    rcases server_block_spec h1 with ⟨e, k⟩ | ⟨server, ds, lb, rest, e, _, _, _, _, _, k⟩
    · subst e
      simp only [ok.injEq, Prod.mk.injEq] at g
      obtain ⟨e1, e2⟩ := g
      subst e1 e2
      exact ⟨[], Ext.ext_refl _, k⟩
    · subst e
      simp only at g
      obtain ⟨ns, e2, k2⟩ := ih p1 q _ conf' g
      refine ⟨_ :: ns, (Ext.add conf _).ext_trans e2, ?_⟩
      have := k.kept_trans k2
      simpa [NodeT.leaves.leavesList, leaves_chain, leavesList_append, leavesList_leaf] using this

theorem conf_spec {fuel : Nat} {p q : ParserT} {node : NodeT}
    (h : parser_parse_conf fuel p = ok (node, q)) : Kept p q node.leaves := by
  unfold parser_parse_conf at h
  obtain ⟨⟨conf, p1⟩, h1, g⟩ := bind_eq_ok h
  simp only [ok.injEq, Prod.mk.injEq] at g
  obtain ⟨e1, e2⟩ := g
  subst e1 e2
  obtain ⟨ns, e, k⟩ := conf_loop_spec fuel p p1 init_chain conf h1
  obtain ⟨hc, _⟩ := e.children rfl
  rw [leaves_chain, hc]
  simpa [init_chain, ChainT.children] using k

theorem prefix_of_stream {cs x inp : List Token} {k : Nat} {el : Nat}
    (h : cs ++ x = inp ++ List.replicate k (eof_token el))
    (hn : ∀ t ∈ cs, t.kind ≠ NK_EOF) : cs <+: inp := by
  rcases List.append_eq_append_iff.1 h with ⟨a, h1, _⟩ | ⟨c, h1, h2⟩
  · exact ⟨a, h1.symm⟩
  · cases c with
    | nil => rw [h1]; simp
    | cons t c =>
      exfalso
      have ht : t ∈ List.replicate k (eof_token el) := by
        rw [h2]; exact List.mem_cons_self _ _
      have : t = eof_token el := List.eq_of_mem_replicate ht
      apply hn t (by rw [h1]; simp)
      rw [this]; rfl

theorem Adv.from_init {dom : CStr} {allowBreak : Bool} {bs : List BindingT} {sc : ScannerT}
    {q : ParserT} {cs rs : List Token} (a : Adv (parser_init dom allowBreak bs sc) q cs rs) :
    q.consumed = cs ∧ q.released = rs ∧ cs <+: sc.input := by
  refine ⟨by simpa [parser_init] using a.consumed, by simpa [parser_init] using a.released, ?_⟩
  obtain ⟨k, hk⟩ := a.stream
  have : ahead (parser_init dom allowBreak bs sc) = sc.input := by simp [ahead, parser_init]
  rw [this] at hk
  exact prefix_of_stream hk a.no_eof

/-- C7, the claim as stated fails: the stream `server`, SKIP, `example.com`, `{`,
`}` is parsed under the root domain `example.com`, all five tokens are consumed,
and the leaf sequence of the result has four tokens: the SKIP is missing. -/
theorem round_trip_counterexample :
    parse_user_conf 3 "example.com".toList []
        ⟨[⟨NK_WORD, some "server".toList, 1, false⟩, ⟨NK_SKIP, some " ".toList, 1, false⟩,
          ⟨NK_CONTENT, some "example.com".toList, 1, false⟩, ⟨NK_LB, none, 1, false⟩,
          ⟨NK_RB, none, 1, true⟩], 2⟩
      = ok (NodeT.chain [NodeT.chain [NodeT.leaf ⟨NK_WORD, some "server".toList, 1, false⟩,
              NodeT.leaf ⟨NK_CONTENT, some "example.com".toList, 1, false⟩,
              NodeT.leaf ⟨NK_LB, none, 1, false⟩, NodeT.chain [],
              NodeT.leaf ⟨NK_RB, none, 1, true⟩]])
    ∧ parser_parse_conf 3
        (parser_init "example.com".toList false []
          ⟨[⟨NK_WORD, some "server".toList, 1, false⟩, ⟨NK_SKIP, some " ".toList, 1, false⟩,
            ⟨NK_CONTENT, some "example.com".toList, 1, false⟩, ⟨NK_LB, none, 1, false⟩,
            ⟨NK_RB, none, 1, true⟩], 2⟩)
      = ok (NodeT.chain [NodeT.chain [NodeT.leaf ⟨NK_WORD, some "server".toList, 1, false⟩,
              NodeT.leaf ⟨NK_CONTENT, some "example.com".toList, 1, false⟩,
              NodeT.leaf ⟨NK_LB, none, 1, false⟩, NodeT.chain [],
              NodeT.leaf ⟨NK_RB, none, 1, true⟩]],
          { domain := "example.com".toList, scanner := ⟨[], 2⟩,
            pending_token := some (eof_token 2), constraints := [], primed := true,
            allowBreak := false,
            consumed := [⟨NK_WORD, some "server".toList, 1, false⟩,
              ⟨NK_SKIP, some " ".toList, 1, false⟩,
              ⟨NK_CONTENT, some "example.com".toList, 1, false⟩, ⟨NK_LB, none, 1, false⟩,
              ⟨NK_RB, none, 1, true⟩],
            released := [⟨NK_SKIP, some " ".toList, 1, false⟩] })
    ∧ (NodeT.chain [NodeT.chain [NodeT.leaf ⟨NK_WORD, some "server".toList, 1, false⟩,
              NodeT.leaf ⟨NK_CONTENT, some "example.com".toList, 1, false⟩,
              NodeT.leaf ⟨NK_LB, none, 1, false⟩, NodeT.chain [],
              NodeT.leaf ⟨NK_RB, none, 1, true⟩]]).leaves
      ≠ [⟨NK_WORD, some "server".toList, 1, false⟩, ⟨NK_SKIP, some " ".toList, 1, false⟩,
          ⟨NK_CONTENT, some "example.com".toList, 1, false⟩, ⟨NK_LB, none, 1, false⟩,
          ⟨NK_RB, none, 1, true⟩] := by
  refine ⟨by rfl, by rfl, by decide⟩

/-- C7 as amended: when `parse_user_conf` succeeds, the consumed tokens, a prefix
of the input stream, are a merge in stream order of the leaf sequence of the
result (depth first, left to right) and of the tokens `skip_tokens` released, all
of which are `SKIP` tokens; nothing else is dropped, duplicated or reordered, and
when nothing was released the leaf sequence is exactly the consumed sequence. -/
theorem user_conf_round_trip (fuel : Nat) (dom : CStr) (bs : List BindingT) (sc : ScannerT)
    (node : NodeT) (h : parse_user_conf fuel dom bs sc = ok node) :
    ∃ q, parser_parse_conf fuel (parser_init dom false bs sc) = ok (node, q)
      ∧ q.consumed <+: sc.input
      ∧ Interleave node.leaves q.released q.consumed
      ∧ (∀ r ∈ q.released, r.kind = NK_SKIP)
      ∧ (q.released = [] → node.leaves = q.consumed) := by
  unfold parse_user_conf at h
  obtain ⟨⟨node', q⟩, h1, g⟩ := bind_eq_ok h
  simp only [ok.injEq] at g
  subst g
  obtain ⟨cs, rs, a, i, s⟩ := conf_spec h1
  obtain ⟨e1, e2, e3⟩ := a.from_init
  rw [← e1, ← e2] at i
  exact ⟨q, h1, by rw [e1]; exact e3, i, by rw [e2]; exact s, fun hr => i.eq_of_nil hr⟩

/-- C7 as amended, at the stream `server`, SKIP, `example.com`, `{`, `}`. -/
theorem user_conf_round_trip_witness :
    ∃ q, parser_parse_conf 3
        (parser_init "example.com".toList false []
          ⟨[⟨NK_WORD, some "server".toList, 1, false⟩, ⟨NK_SKIP, some " ".toList, 1, false⟩,
            ⟨NK_CONTENT, some "example.com".toList, 1, false⟩, ⟨NK_LB, none, 1, false⟩,
            ⟨NK_RB, none, 1, true⟩], 2⟩)
        = ok (NodeT.chain [NodeT.chain [NodeT.leaf ⟨NK_WORD, some "server".toList, 1, false⟩,
              NodeT.leaf ⟨NK_CONTENT, some "example.com".toList, 1, false⟩,
              NodeT.leaf ⟨NK_LB, none, 1, false⟩, NodeT.chain [],
              NodeT.leaf ⟨NK_RB, none, 1, true⟩]], q)
      ∧ q.consumed <+: [⟨NK_WORD, some "server".toList, 1, false⟩,
            ⟨NK_SKIP, some " ".toList, 1, false⟩,
            ⟨NK_CONTENT, some "example.com".toList, 1, false⟩, ⟨NK_LB, none, 1, false⟩,
            ⟨NK_RB, none, 1, true⟩]
      ∧ Interleave
          (NodeT.chain [NodeT.chain [NodeT.leaf ⟨NK_WORD, some "server".toList, 1, false⟩,
              NodeT.leaf ⟨NK_CONTENT, some "example.com".toList, 1, false⟩,
              NodeT.leaf ⟨NK_LB, none, 1, false⟩, NodeT.chain [],
              NodeT.leaf ⟨NK_RB, none, 1, true⟩]]).leaves q.released q.consumed
      ∧ (∀ r ∈ q.released, r.kind = NK_SKIP)
      ∧ (q.released = [] →
          (NodeT.chain [NodeT.chain [NodeT.leaf ⟨NK_WORD, some "server".toList, 1, false⟩,
              NodeT.leaf ⟨NK_CONTENT, some "example.com".toList, 1, false⟩,
              NodeT.leaf ⟨NK_LB, none, 1, false⟩, NodeT.chain [],
              NodeT.leaf ⟨NK_RB, none, 1, true⟩]]).leaves = q.consumed) :=
  user_conf_round_trip 3 "example.com".toList []
    ⟨[⟨NK_WORD, some "server".toList, 1, false⟩, ⟨NK_SKIP, some " ".toList, 1, false⟩,
      ⟨NK_CONTENT, some "example.com".toList, 1, false⟩, ⟨NK_LB, none, 1, false⟩,
      ⟨NK_RB, none, 1, true⟩], 2⟩ _ (by rfl)

/-- On a stream whose next token is neither `SKIP` nor `WORD`,
`parser_parse_server_block` returns NULL and leaves that token as lookahead. -/
theorem server_block_none_fresh (L : List Token) (fuel : Nat) (p : ParserT) (hp : Fresh p L)
    (h1 : (next_of L p.scanner.eof_line).kind ≠ NK_SKIP)
    (h2 : (next_of L p.scanner.eof_line).kind ≠ NK_WORD) (hf : 0 < fuel) :
    ∃ q, parser_parse_server_block fuel p = ok (none, q) ∧ Reads q L
      ∧ q.scanner.eof_line = p.scanner.eof_line := by
  obtain ⟨q, hq, rq, eq⟩ := peek_fresh hp true
  refine ⟨q, ?_, rq, eq⟩
  unfold parser_parse_server_block
  rw [hq]
  simp only [bind_ok]
  rw [skip_eval_reads true L fuel q rq (by rw [eq]; exact h1) hf]
  simp only [bind_ok]
  rw [if_pos h2]

theorem server_block_none_reads (L : List Token) (fuel : Nat) (p : ParserT) (hp : Reads p L)
    (h1 : (next_of L p.scanner.eof_line).kind ≠ NK_SKIP)
    (h2 : (next_of L p.scanner.eof_line).kind ≠ NK_WORD) (hf : 0 < fuel) :
    parser_parse_server_block fuel p = ok (none, p) := by
  unfold parser_parse_server_block
  rw [peek_reads hp]
  simp only [bind_ok]
  rw [skip_eval_reads true L fuel p hp h1 hf]
  simp only [bind_ok]
  rw [if_pos h2]

/-- `parse_user_conf` on a stream whose first token is neither `SKIP` nor
`WORD`: the chain returned has no children. -/
theorem user_conf_stops (dom : CStr) (cs : List BindingT) (L : List Token) (el : Nat)
    (fuel : Nat) (h1 : (next_of L el).kind ≠ NK_SKIP) (h2 : (next_of L el).kind ≠ NK_WORD) :
    parse_user_conf (fuel + 2) dom cs ⟨L, el⟩ = ok (NodeT.chain []) := by
  obtain ⟨q, hq, _, _⟩ := server_block_none_fresh L (fuel + 1)
    (parser_init dom false cs ⟨L, el⟩) (And.intro rfl rfl) h1 h2 (Nat.succ_pos _)
  unfold parse_user_conf parser_parse_conf
  rw [parser_parse_conf_loop, hq]
  rfl

/-- C12: on the stream that holds only the end of input, `parse_user_conf`
returns a chain with no children and no error; so it does on every stream whose
first token is an `EOF` token, whatever follows it, and with any fuel from 2 on. -/
theorem empty_input_empty_chain (dom : CStr) (cs : List BindingT) (el : Nat) (fuel : Nat) :
    parse_user_conf (fuel + 2) dom cs ⟨[], el⟩ = ok (NodeT.chain []) ∧
    ∀ (t : Token) (rest : List Token), t.kind = NK_EOF →
      parse_user_conf (fuel + 2) dom cs ⟨t :: rest, el⟩ = ok (NodeT.chain []) := by
  constructor
  · exact user_conf_stops dom cs [] el fuel (fun h => NodeKind.noConfusion h)
      (fun h => NodeKind.noConfusion h)
  · intro t rest ht
    exact user_conf_stops dom cs (t :: rest) el fuel
      (by show t.kind ≠ NK_SKIP; rw [ht]; decide) (by show t.kind ≠ NK_WORD; rw [ht]; decide)

/-- The loop of `parser_parse_conf` ends, without consuming anything and without
an error, at a lookahead that is neither `SKIP` nor `WORD`. -/
theorem conf_loop_stops (L : List Token) (fuel : Nat) (p : ParserT) (c : ChainT)
    (hp : Reads p L) (h1 : (next_of L p.scanner.eof_line).kind ≠ NK_SKIP)
    (h2 : (next_of L p.scanner.eof_line).kind ≠ NK_WORD) :
    parser_parse_conf_loop (fuel + 2) p c = ok (c, p) := by
  rw [parser_parse_conf_loop, server_block_none_reads L (fuel + 1) p hp h1 h2 (Nat.succ_pos _)]
  rfl

/-- C20: a successful parse need not consume the whole input. On the stream
`server example.com { }` followed by a stray `}`, and on the same block followed
by a stray `CONTENT` token and more, `parse_user_conf` succeeds with the chain of
the one block; the parser has consumed the four tokens of the block only and the
stray token is still the unconsumed lookahead, with no error raised. In general
the loop of `parser_parse_conf` stops silently at any lookahead that is neither
`SKIP` nor `WORD`. -/
theorem unread_input_after_block :
    (∃ q, parser_parse_conf 8 (parser_init "example.com".toList false []
        ⟨[⟨NK_WORD, some "server".toList, 1, false⟩,
          ⟨NK_CONTENT, some "example.com".toList, 1, false⟩, ⟨NK_LB, none, 1, false⟩,
          ⟨NK_RB, none, 1, true⟩, ⟨NK_RB, none, 2, true⟩], 3⟩)
      = ok (NodeT.chain [NodeT.chain [NodeT.leaf ⟨NK_WORD, some "server".toList, 1, false⟩,
          NodeT.leaf ⟨NK_CONTENT, some "example.com".toList, 1, false⟩,
          NodeT.leaf ⟨NK_LB, none, 1, false⟩, NodeT.chain [],
          NodeT.leaf ⟨NK_RB, none, 1, true⟩]], q)
      ∧ ahead q = [⟨NK_RB, none, 2, true⟩]
      ∧ q.consumed = [⟨NK_WORD, some "server".toList, 1, false⟩,
          ⟨NK_CONTENT, some "example.com".toList, 1, false⟩, ⟨NK_LB, none, 1, false⟩,
          ⟨NK_RB, none, 1, true⟩]) ∧
    (∃ q, parser_parse_conf 8 (parser_init "example.com".toList false []
        ⟨[⟨NK_WORD, some "server".toList, 1, false⟩,
          ⟨NK_CONTENT, some "example.com".toList, 1, false⟩, ⟨NK_LB, none, 1, false⟩,
          ⟨NK_RB, none, 1, true⟩, ⟨NK_CONTENT, some "oops".toList, 2, false⟩,
          ⟨NK_SEMI, none, 2, true⟩], 3⟩)
      = ok (NodeT.chain [NodeT.chain [NodeT.leaf ⟨NK_WORD, some "server".toList, 1, false⟩,
          NodeT.leaf ⟨NK_CONTENT, some "example.com".toList, 1, false⟩,
          NodeT.leaf ⟨NK_LB, none, 1, false⟩, NodeT.chain [],
          NodeT.leaf ⟨NK_RB, none, 1, true⟩]], q)
      ∧ ahead q = [⟨NK_CONTENT, some "oops".toList, 2, false⟩, ⟨NK_SEMI, none, 2, true⟩]
      ∧ q.consumed = [⟨NK_WORD, some "server".toList, 1, false⟩,
          ⟨NK_CONTENT, some "example.com".toList, 1, false⟩, ⟨NK_LB, none, 1, false⟩,
          ⟨NK_RB, none, 1, true⟩]) ∧
    parse_user_conf 8 "example.com".toList []
        ⟨[⟨NK_WORD, some "server".toList, 1, false⟩,
          ⟨NK_CONTENT, some "example.com".toList, 1, false⟩, ⟨NK_LB, none, 1, false⟩,
          ⟨NK_RB, none, 1, true⟩, ⟨NK_RB, none, 2, true⟩], 3⟩
      = ok (NodeT.chain [NodeT.chain [NodeT.leaf ⟨NK_WORD, some "server".toList, 1, false⟩,
          NodeT.leaf ⟨NK_CONTENT, some "example.com".toList, 1, false⟩,
          NodeT.leaf ⟨NK_LB, none, 1, false⟩, NodeT.chain [],
          NodeT.leaf ⟨NK_RB, none, 1, true⟩]]) ∧
    (∀ (L : List Token) (fuel : Nat) (p : ParserT) (c : ChainT), Reads p L →
      (next_of L p.scanner.eof_line).kind ≠ NK_SKIP →
      (next_of L p.scanner.eof_line).kind ≠ NK_WORD →
      parser_parse_conf_loop (fuel + 2) p c = ok (c, p)) := by
  refine ⟨⟨_, by rfl, by rfl, by rfl⟩, ⟨_, by rfl, by rfl, by rfl⟩, by rfl, ?_⟩
  intro L fuel p c hp h1 h2
  exact conf_loop_stops L fuel p c hp h1 h2

theorem next_token_primed (p : ParserT) (allowWord : Bool) (h : p.primed = true) :
    next_token p allowWord = (p.pending_token, p) := by
  simp [next_token, h]

theorem next_token_calls_primed (flags : List Bool) (p : ParserT) (h : p.primed = true) :
    next_token_calls flags p = (List.replicate flags.length p.pending_token, p) := by
  induction flags with
  | nil => rfl
  | cons a more ih =>
    rw [next_token_calls, next_token_primed p a h]
    simp only [ih, List.length_cons, List.replicate_succ]

theorem next_token_unprimed (p : ParserT) (allowWord : Bool) (h : p.primed = false) :
    next_token p allowWord
      = (some (scanner_scan p.scanner allowWord p.allowBreak).1,
         { p with pending_token := some (scanner_scan p.scanner allowWord p.allowBreak).1,
                  scanner := (scanner_scan p.scanner allowWord p.allowBreak).2,
                  primed := true }) := by
  simp [next_token, h]

/-- C15: the lookahead is memoized. From a state with an empty buffer, any
number of consecutive `next_token` calls (one per flag of `a :: more`) run the
tokenizer once, with the first flag: every call returns the token of that one
scan and the final state is the state after the first call. From a state with a
buffered token they never run it: every call returns the buffered token and the
state is unchanged. `consume_token` returns the buffered token and empties the
buffer without touching the tokenizer, and the `next_token` after it returns the
following tokenizer token. In every state reached from `parser_init` through
`next_token` and `consume_token`, `primed` holds iff a token is buffered. -/
theorem lookahead_memoized :
    (∀ (p : ParserT) (a : Bool) (more : List Bool), p.primed = false →
      next_token_calls (a :: more) p
        = (List.replicate (more.length + 1) (some (scanner_scan p.scanner a p.allowBreak).1),
           { p with pending_token := some (scanner_scan p.scanner a p.allowBreak).1,
                    scanner := (scanner_scan p.scanner a p.allowBreak).2,
                    primed := true })) ∧
    (∀ (p : ParserT) (flags : List Bool), p.primed = true →
      next_token_calls flags p = (List.replicate flags.length p.pending_token, p)) ∧
    (∀ (p : ParserT) (a b : Bool),
      next_token (next_token p a).2 b = ((next_token p a).1, (next_token p a).2)) ∧
    (∀ (p : ParserT), (consume_token p).1 = p.pending_token ∧
      (consume_token p).2.primed = false ∧ (consume_token p).2.pending_token = none ∧
      (consume_token p).2.scanner = p.scanner ∧
      ∀ a, (next_token (consume_token p).2 a).1
        = some (scanner_scan p.scanner a p.allowBreak).1) ∧
    (∀ (domain : CStr) (allowBreak : Bool) (constraints : List BindingT) (scanner : ScannerT)
      (q : ParserT), Reachable domain allowBreak constraints scanner q →
      (q.primed = true ↔ q.pending_token.isSome = true)) := by
  refine ⟨?_, fun p flags h => next_token_calls_primed flags p h, ?_, ?_, ?_⟩
  · intro p a more h
    rw [next_token_calls, next_token_unprimed p a h]
    have e := next_token_calls_primed more
      { p with pending_token := some (scanner_scan p.scanner a p.allowBreak).1,
               scanner := (scanner_scan p.scanner a p.allowBreak).2,
               primed := true } rfl
    simp only [e, List.replicate_succ]
  · intro p a b
    cases h : p.primed with
    | true => rw [next_token_primed p a h, next_token_primed p b h]
    | false => rw [next_token_unprimed p a h, next_token_primed _ b rfl]
  · intro p
    exact ⟨rfl, rfl, rfl, rfl, fun a => by rw [next_token_unprimed _ a rfl]; rfl⟩
  · intro domain allowBreak constraints scanner q hq
    induction hq with
    | init => simp [parser_init]
    | next p a _ ih =>
      cases h : p.primed with
      | true => rw [next_token_primed p a h]; exact ih
      | false => rw [next_token_unprimed p a h]; simp
    | consume p _ _ => simp [consume_token]

theorem gobble_taken_eq_rule (alsoSkip : KindMask) (cont : Bool) (L : List Token) :
    gobble_taken alsoSkip true cont L = gobbleSkippable_rule alsoSkip true cont L := by
  induction L with
  | nil => rfl
  | cons t rest ih => simp [gobble_taken, gobbleSkippable_rule, ih]

theorem gobble_loop_eval (alsoSkip : KindMask) (aw allowEOL cont : Bool) (el : Nat)
    (hE : hasKind alsoSkip NK_EOF = false) :
    ∀ (L : List Token) (fuel : Nat) (p : ParserT) (c : ChainT), Reads p L →
      p.scanner.eof_line = el → (gobble_taken alsoSkip allowEOL cont L).length < fuel →
      ∃ tok q, chain_gobble_skip_loop alsoSkip aw allowEOL cont fuel p c (next_of L el)
          = ok (tok, (gobble_taken alsoSkip allowEOL cont L).foldl
              (fun c t => chain_add c (NodeT.leaf t) []) c, q)
        ∧ q.consumed = p.consumed ++ gobble_taken alsoSkip allowEOL cont L
        ∧ q.released = p.released ∧ q.scanner.eof_line = el
        ∧ (∀ t, (gobble_taken alsoSkip allowEOL cont L).getLast? = some t →
            t.ends_line = true → allowEOL = false →
            tok = t ∧ Fresh q (L.drop (gobble_taken alsoSkip allowEOL cont L).length))
        ∧ ((allowEOL = true ∨ ∀ t, (gobble_taken alsoSkip allowEOL cont L).getLast? = some t →
              t.ends_line = false) →
            tok = next_of (L.drop (gobble_taken alsoSkip allowEOL cont L).length) el
            ∧ Reads q (L.drop (gobble_taken alsoSkip allowEOL cont L).length)) := by
  intro L
  induction L with
  | nil =>
    intro fuel p c hr he hf
    cases fuel with
    | zero => simp at hf
    | succ n =>
      refine ⟨eof_token el, p, ?_, by simp [gobble_taken], rfl, he, ?_, ?_⟩
      · rw [chain_gobble_skip_loop, if_neg]
        · rfl
        · have : hasKind (NK_SKIP :: alsoSkip) NK_EOF = false := by
            rw [hasKind_cons, hE]; rfl
          show ¬ hasKind (NK_SKIP :: alsoSkip) NK_EOF = true
          rw [this]; exact Bool.false_ne_true
      · intro t ht; simp [gobble_taken] at ht
      · intro _; exact ⟨rfl, hr⟩
  | cons t rest ih =>
    intro fuel p c hr he hf
    cases fuel with
    | zero => simp at hf
    | succ n =>
      have hn : next_of (t :: rest) el = t := rfl
      rw [hn, chain_gobble_skip_loop]
      by_cases hk : hasKind (NK_SKIP :: alsoSkip) t.kind = true
      · rw [if_pos hk]
        obtain ⟨fq, eq⟩ := consume_reads hr
        have hcons : (consume_token p).2.consumed = p.consumed ++ [t] := by
          show p.consumed ++ p.pending_token.toList = _
          rw [hr.1.2]; rfl
        by_cases hb : (t.ends_line && !allowEOL) = true
        · have ht : gobble_taken alsoSkip allowEOL cont (t :: rest) = [t] := by
            simp only [Bool.and_eq_true, Bool.not_eq_true'] at hb
            simp [gobble_taken, hk, hb.1, hb.2]
          rw [ht]
          simp only [hb, if_true]
          refine ⟨t, _, rfl, hcons, rfl, by rw [eq, he], ?_, ?_⟩
          · intro t2 h2 _ _
            simp at h2
            exact ⟨h2, fq⟩
          · intro h
            simp only [Bool.and_eq_true, Bool.not_eq_true'] at hb
            rcases h with h | h
            · rw [h] at hb; exact absurd hb.2 (by decide)
            · have := h t (by simp)
              rw [this] at hb; exact absurd hb.1 (by decide)
        · simp only [hb, if_false]
          obtain ⟨q1, h1, r1, e1⟩ := peek_fresh fq aw
          rw [eq, he] at h1 e1
          rw [h1]
          by_cases hs : (t.ends_line && !cont) = true
          · have ht : gobble_taken alsoSkip allowEOL cont (t :: rest) = [t] := by
              simp only [Bool.and_eq_true, Bool.not_eq_true'] at hs
              simp [gobble_taken, hk, hs.1, hs.2]
            rw [ht]
            simp only [hs, if_true]
            have hq1 : q1.consumed = p.consumed ++ [t] := by
              rw [← hcons]; exact (peek_spec h1).1.consumed.trans (by simp)
            have hq2 : q1.released = p.released := by
              have := (peek_spec h1).1.released
              simpa using this
            refine ⟨_, q1, rfl, hq1, hq2, e1, ?_, ?_⟩
            · intro t2 h2 g1 g2
              simp at h2
              subst h2
              rw [g1, g2] at hb
              exact absurd rfl hb
            · intro _; exact ⟨rfl, r1⟩
          · have ht : gobble_taken alsoSkip allowEOL cont (t :: rest)
                = t :: gobble_taken alsoSkip allowEOL cont rest := by
              have : (t.ends_line && (!allowEOL || !cont)) = false := by
                cases h1 : t.ends_line <;> cases h2 : allowEOL <;> cases h3 : cont <;>
                  simp_all
              simp [gobble_taken, hk, this]
            rw [ht]
            simp only [hs, if_false]
            have hq1 : q1.consumed = p.consumed ++ [t] := by
              rw [← hcons]; exact (peek_spec h1).1.consumed.trans (by simp)
            have hq2 : q1.released = p.released := by
              have := (peek_spec h1).1.released
              simpa using this
            obtain ⟨tok, q, g, gc, gr, ge, ga, gb⟩ := ih n q1
              (chain_add c (NodeT.leaf t) []) r1 e1 (by rw [ht] at hf; simpa using hf)
            refine ⟨tok, q, ?_, ?_, by rw [gr, hq2], ge, ?_, ?_⟩
            · rw [g]; rfl
            · rw [gc, hq1]; simp
            · intro t2 h2 g1 g2
              cases hl : gobble_taken alsoSkip allowEOL cont rest with
              | nil =>
                rw [hl] at h2
                simp at h2
                subst h2
                rw [g1, g2] at hb
                exact absurd rfl hb
              | cons a l =>
                rw [hl, List.getLast?_cons_cons] at h2
                rw [hl] at ga
                have := ga t2 h2 g1 g2
                simpa [hl] using this
            · intro h
              have h3 : allowEOL = true ∨ ∀ t2,
                  (gobble_taken alsoSkip allowEOL cont rest).getLast? = some t2 →
                    t2.ends_line = false := by
                rcases h with h | h
                · exact Or.inl h
                · right
                  intro t2 h2
                  apply h t2
                  cases hl : gobble_taken alsoSkip allowEOL cont rest with
                  | nil => rw [hl] at h2; simp at h2
                  | cons a l => rw [List.getLast?_cons_cons, ← hl]; exact h2
              have := gb h3
              simpa using this
      · rw [if_neg hk]
        have ht : gobble_taken alsoSkip allowEOL cont (t :: rest) = [] := by
          simp [gobble_taken, hk]
        rw [ht]
        exact ⟨t, p, rfl, by simp, rfl, he, by intro t2 h2; simp at h2,
          fun _ => ⟨rfl, hr⟩⟩

theorem foldl_chain_add_ext (ts : List Token) :
    ∀ c : ChainT, Ext c (ts.foldl (fun c t => chain_add c (NodeT.leaf t) []) c)
      (ts.map NodeT.leaf) := by
  induction ts with
  | nil => intro c; exact Ext.ext_refl c
  | cons t ts ih =>
    intro c
    have := (Ext.add c (NodeT.leaf t)).ext_trans (ih (chain_add c (NodeT.leaf t) []))
    simpa using this

/-- Evaluation of `chain_gobble_skip` on a known stream `L`, from a state with an
empty buffer or with the first token of `L` buffered. -/
theorem gobble_eval (alsoSkip : KindMask) (aw allowEOL cont : Bool)
    (hE : hasKind alsoSkip NK_EOF = false) (L : List Token) (fuel : Nat) (p : ParserT)
    (c : ChainT) (hp : Fresh p L ∨ Reads p L)
    (hf : (gobble_taken alsoSkip allowEOL cont L).length < fuel) :
    ∃ tok q, chain_gobble_skip fuel p c alsoSkip aw allowEOL cont
        = ok (tok, (gobble_taken alsoSkip allowEOL cont L).foldl
            (fun c t => chain_add c (NodeT.leaf t) []) c, q)
      ∧ q.consumed = p.consumed ++ gobble_taken alsoSkip allowEOL cont L
      ∧ q.released = p.released ∧ q.scanner.eof_line = p.scanner.eof_line
      ∧ (∀ t, (gobble_taken alsoSkip allowEOL cont L).getLast? = some t →
          t.ends_line = true → allowEOL = false →
          tok = t ∧ Fresh q (L.drop (gobble_taken alsoSkip allowEOL cont L).length))
      ∧ ((allowEOL = true ∨ ∀ t, (gobble_taken alsoSkip allowEOL cont L).getLast? = some t →
            t.ends_line = false) →
          tok = next_of (L.drop (gobble_taken alsoSkip allowEOL cont L).length)
            p.scanner.eof_line
          ∧ Reads q (L.drop (gobble_taken alsoSkip allowEOL cont L).length)) := by
  rcases hp with hp | hp
  · obtain ⟨q1, h1, r1, e1⟩ := peek_fresh hp aw
    obtain ⟨tok, q, g, gc, gr, ge, ga, gb⟩ := gobble_loop_eval alsoSkip aw allowEOL cont
      p.scanner.eof_line hE L fuel q1 c r1 e1 hf
    have a := (peek_spec h1).1
    refine ⟨tok, q, ?_, ?_, ?_, ge, ga, gb⟩
    · unfold chain_gobble_skip
      rw [h1]
      exact g
    · rw [gc, a.consumed]; simp
    · rw [gr, a.released]; simp
  · obtain ⟨tok, q, g, gc, gr, ge, ga, gb⟩ := gobble_loop_eval alsoSkip aw allowEOL cont
      p.scanner.eof_line hE L fuel p c hp rfl hf
    refine ⟨tok, q, ?_, gc, gr, ge, ga, gb⟩
    unfold chain_gobble_skip
    rw [peek_reads hp]
    exact g

/-- C16, counterexample: with `allowEOL` false and the one-token stream of a
`SKIP` token that ends its line, the documented rule selects no token, while
`chain_gobble_skip` appends the token to the chain and consumes it; the token
it reports is that consumed token, the buffer is empty and the unconsumed
lookahead (the end of input) has not been fetched. -/
theorem gobble_rule_counterexample :
    gobbleSkippable_rule [] false false [⟨NK_SKIP, some "\n".toList, 1, true⟩] = [] ∧
    chain_gobble_skip 2 (parser_init [] false [] ⟨[⟨NK_SKIP, some "\n".toList, 1, true⟩], 2⟩)
        init_chain [] true false false
      = ok (⟨NK_SKIP, some "\n".toList, 1, true⟩,
          ⟨[NodeT.leaf ⟨NK_SKIP, some "\n".toList, 1, true⟩], []⟩,
          { domain := [], scanner := ⟨[], 2⟩, pending_token := none, constraints := [],
            primed := false, allowBreak := false,
            consumed := [⟨NK_SKIP, some "\n".toList, 1, true⟩], released := [] }) := by
  constructor
  · rfl
  · rfl

/-- C16, amended: on a stream `L` (from a state with an empty buffer or with the
first token of `L` buffered, `alsoSkip` without `EOF`, enough fuel)
`chain_gobble_skip` returns, and the tokens it consumes and appends, in stream
order, are `gobble_taken`: tokens whose kind is in `{SKIP} ∪ alsoSkip`, up to
and including the first one that ends a line when `allowEOL` or
`continueAfterEOL` is false. The token reported is the unconsumed lookahead,
buffered, except when the last token taken ends a line and `allowEOL` is false:
then it is that last taken token and the buffer is empty. With `allowEOL` true
the tokens taken are those of the documented rule. -/
theorem gobble_skip_takes (alsoSkip : KindMask) (aw allowEOL cont : Bool)
    (L : List Token) (fuel : Nat) (p : ParserT) (c : ChainT)
    (hE : hasKind alsoSkip NK_EOF = false) (hp : Fresh p L ∨ Reads p L)
    (hf : (gobble_taken alsoSkip allowEOL cont L).length < fuel) :
    (∃ tok c' q, chain_gobble_skip fuel p c alsoSkip aw allowEOL cont = ok (tok, c', q)
      ∧ Ext c c' ((gobble_taken alsoSkip allowEOL cont L).map NodeT.leaf)
      ∧ q.consumed = p.consumed ++ gobble_taken alsoSkip allowEOL cont L
      ∧ q.released = p.released
      ∧ (∀ t, (gobble_taken alsoSkip allowEOL cont L).getLast? = some t →
          t.ends_line = true → allowEOL = false →
          tok = t ∧ Fresh q (L.drop (gobble_taken alsoSkip allowEOL cont L).length))
      ∧ ((allowEOL = true ∨ ∀ t, (gobble_taken alsoSkip allowEOL cont L).getLast? = some t →
            t.ends_line = false) →
          tok = next_of (L.drop (gobble_taken alsoSkip allowEOL cont L).length)
            p.scanner.eof_line
          ∧ Reads q (L.drop (gobble_taken alsoSkip allowEOL cont L).length)))
    ∧ (allowEOL = true →
        gobble_taken alsoSkip allowEOL cont L = gobbleSkippable_rule alsoSkip allowEOL cont L) := by
  constructor
  · obtain ⟨tok, q, g, gc, gr, _, ga, gb⟩ := gobble_eval alsoSkip aw allowEOL cont hE L fuel p c
      hp hf
    exact ⟨tok, _, q, g, foldl_chain_add_ext _ c, gc, gr, ga, gb⟩
  · intro h
    subst h
    exact gobble_taken_eq_rule alsoSkip cont L

/-- Witness of `gobble_skip_takes`: two `SKIP` tokens, the second ending its
line, then `}`, with `alsoSkip` = `BREAK` and `allowEOL` false: both `SKIP`
tokens are consumed and the token reported is the second of them. -/
theorem gobble_skip_takes_witness :
    hasKind [NK_BREAK] NK_EOF = false ∧
    (gobble_taken [NK_BREAK] false false [⟨NK_SKIP, some " ".toList, 1, false⟩,
      ⟨NK_SKIP, some "\n".toList, 1, true⟩, ⟨NK_RB, none, 2, true⟩]).length < 3 ∧
    ∃ tok c' q, chain_gobble_skip 3
        (parser_init [] false [] ⟨[⟨NK_SKIP, some " ".toList, 1, false⟩,
          ⟨NK_SKIP, some "\n".toList, 1, true⟩, ⟨NK_RB, none, 2, true⟩], 3⟩)
        init_chain [NK_BREAK] true false false = ok (tok, c', q)
      ∧ q.consumed = [⟨NK_SKIP, some " ".toList, 1, false⟩,
          ⟨NK_SKIP, some "\n".toList, 1, true⟩]
      ∧ tok = ⟨NK_SKIP, some "\n".toList, 1, true⟩
      ∧ Fresh q [⟨NK_RB, none, 2, true⟩] := by
  obtain ⟨⟨tok, c', q, h, _, hc, _, ha, _⟩, _⟩ := gobble_skip_takes [NK_BREAK] true false false
    [⟨NK_SKIP, some " ".toList, 1, false⟩, ⟨NK_SKIP, some "\n".toList, 1, true⟩,
      ⟨NK_RB, none, 2, true⟩] 3
    (parser_init [] false [] ⟨[⟨NK_SKIP, some " ".toList, 1, false⟩,
          ⟨NK_SKIP, some "\n".toList, 1, true⟩, ⟨NK_RB, none, 2, true⟩], 3⟩)
    init_chain (by decide) (Or.inl (And.intro rfl rfl)) (by decide)
  have e := ha ⟨NK_SKIP, some "\n".toList, 1, true⟩ (by decide) rfl rfl
  exact ⟨by decide, by decide, tok, c', q, h, hc, e.1, e.2⟩

theorem Interleave.filter_left {α : Type} {a b c : List α} (f : α → Bool)
    (h : Interleave a b c) (hb : ∀ r ∈ b, f r = false) : c.filter f = a.filter f := by
  induction h with
  | nil => rfl
  | left x _ ih => simp only [List.filter_cons, ih hb]
  | right x _ ih =>
    have hx : f x = false := hb x (List.mem_cons_self _ _)
    have := ih (fun r hr => hb r (List.mem_cons_of_mem _ hr))
    simp [List.filter_cons, hx, this]

theorem Interleave.count_left {α : Type} [DecidableEq α] {a b c : List α} (t : α)
    (h : Interleave a b c) (hb : t ∉ b) : c.count t = a.count t := by
  induction h with
  | nil => rfl
  | left x _ ih => simp only [List.count_cons, ih hb]
  | right x _ ih =>
    have hx : x ≠ t := fun e => hb (by rw [e]; exact List.mem_cons_self _ _)
    have := ih (fun hr => hb (List.mem_cons_of_mem _ hr))
    simp [List.count_cons, hx, this]

/-- C19: token preservation. When `parse_user_conf` succeeds, the leaf sequence
of the result (depth first, children before next links) is a subsequence, in
stream order, of the consumed tokens, which are a prefix of the input; the
consumed tokens that are not `SKIP` tokens are exactly the leaves that are not
`SKIP` tokens, in the same order, so every consumed `WORD`, `CONTENT`, `STRING`,
`{`, `}` and `;` token occurs in the tree as often as it was consumed, and no
token occurs in the tree more often than it was consumed. -/
theorem token_preservation (fuel : Nat) (dom : CStr) (bs : List BindingT) (sc : ScannerT)
    (node : NodeT) (h : parse_user_conf fuel dom bs sc = ok node) :
    ∃ q, parser_parse_conf fuel (parser_init dom false bs sc) = ok (node, q)
      ∧ q.consumed <+: sc.input
      ∧ List.Sublist node.leaves q.consumed
      ∧ q.consumed.filter (fun t => decide (t.kind ≠ NK_SKIP))
          = node.leaves.filter (fun t => decide (t.kind ≠ NK_SKIP))
      ∧ (∀ t : Token, t.kind ≠ NK_SKIP → node.leaves.count t = q.consumed.count t)
      ∧ (∀ t : Token, node.leaves.count t ≤ q.consumed.count t) := by
  unfold parse_user_conf at h
  obtain ⟨⟨node0, q⟩, h1, g⟩ := bind_eq_ok h
  simp only [ok.injEq] at g
  subst g
  obtain ⟨cs, rs, a, i, s⟩ := conf_spec h1
  obtain ⟨e1, e2, e3⟩ := a.from_init
  rw [← e1] at i
  refine ⟨q, h1, by rw [e1]; exact e3, i.sublist_left, ?_, ?_, ?_⟩
  · exact i.filter_left _ (fun r hr => by simp [s r hr])
  · intro t ht
    exact (i.count_left t (fun hr => ht (s t hr))).symm
  · intro t
    exact i.sublist_left.count_le t

/-- Witness of `token_preservation` on the stream `server`, SKIP, `example.com`,
`{`, `root`, SKIP, `/srv`, `;`, `}`: the `SKIP` token after `server` is the only
consumed token missing from the tree. -/
theorem token_preservation_witness :
    ∃ q, parser_parse_conf 8 (parser_init "example.com".toList false []
        ⟨[⟨NK_WORD, some "server".toList, 1, false⟩, ⟨NK_SKIP, some " ".toList, 1, false⟩,
          ⟨NK_CONTENT, some "example.com".toList, 1, false⟩, ⟨NK_LB, none, 1, true⟩,
          ⟨NK_WORD, some "root".toList, 2, false⟩, ⟨NK_SKIP, some " ".toList, 2, false⟩,
          ⟨NK_CONTENT, some "/srv".toList, 2, false⟩, ⟨NK_SEMI, none, 2, true⟩,
          ⟨NK_RB, none, 3, true⟩], 4⟩)
      = ok (NodeT.chain [NodeT.chain [NodeT.leaf ⟨NK_WORD, some "server".toList, 1, false⟩,
          NodeT.leaf ⟨NK_CONTENT, some "example.com".toList, 1, false⟩,
          NodeT.leaf ⟨NK_LB, none, 1, true⟩,
          NodeT.chain [NodeT.chain [NodeT.leaf ⟨NK_WORD, some "root".toList, 2, false⟩,
            NodeT.leaf ⟨NK_SKIP, some " ".toList, 2, false⟩,
            NodeT.leaf ⟨NK_CONTENT, some "/srv".toList, 2, false⟩,
            NodeT.leaf ⟨NK_SEMI, none, 2, true⟩]],
          NodeT.leaf ⟨NK_RB, none, 3, true⟩]], q)
      ∧ q.consumed.filter (fun t => decide (t.kind ≠ NK_SKIP))
        = [⟨NK_WORD, some "server".toList, 1, false⟩,
          ⟨NK_CONTENT, some "example.com".toList, 1, false⟩, ⟨NK_LB, none, 1, true⟩,
          ⟨NK_WORD, some "root".toList, 2, false⟩,
          ⟨NK_CONTENT, some "/srv".toList, 2, false⟩, ⟨NK_SEMI, none, 2, true⟩,
          ⟨NK_RB, none, 3, true⟩] := by
  obtain ⟨q, h, _, _, hf, _, _⟩ := token_preservation 8 "example.com".toList []
    ⟨[⟨NK_WORD, some "server".toList, 1, false⟩, ⟨NK_SKIP, some " ".toList, 1, false⟩,
      ⟨NK_CONTENT, some "example.com".toList, 1, false⟩, ⟨NK_LB, none, 1, true⟩,
      ⟨NK_WORD, some "root".toList, 2, false⟩, ⟨NK_SKIP, some " ".toList, 2, false⟩,
      ⟨NK_CONTENT, some "/srv".toList, 2, false⟩, ⟨NK_SEMI, none, 2, true⟩,
      ⟨NK_RB, none, 3, true⟩], 4⟩
    (NodeT.chain [NodeT.chain [NodeT.leaf ⟨NK_WORD, some "server".toList, 1, false⟩,
          NodeT.leaf ⟨NK_CONTENT, some "example.com".toList, 1, false⟩,
          NodeT.leaf ⟨NK_LB, none, 1, true⟩,
          NodeT.chain [NodeT.chain [NodeT.leaf ⟨NK_WORD, some "root".toList, 2, false⟩,
            NodeT.leaf ⟨NK_SKIP, some " ".toList, 2, false⟩,
            NodeT.leaf ⟨NK_CONTENT, some "/srv".toList, 2, false⟩,
            NodeT.leaf ⟨NK_SEMI, none, 2, true⟩]],
          NodeT.leaf ⟨NK_RB, none, 3, true⟩]]) (by rfl)
  refine ⟨q, h, ?_⟩
  rw [hf]
  decide

theorem section_unfold (fuel : Nat) (p : ParserT) (alsoSkip : KindMask) :
    parser_parse_section (fuel + 1) p alsoSkip = (do
      let (token, p) ← peek p true
      if hasKind (NK_SKIP :: alsoSkip) token.kind && token.ends_line then
        let r := consume_token p
        ok ((r.1.map NodeT.leaf).toList, r.2)
      else if token.kind = NK_BREAK && !hasKind alsoSkip NK_BREAK then ok ([], p)
      else if token.kind = NK_EOF then ok ([], p)
      else
        let c := init_chain
        let (token, c, p) ← chain_gobble_skip fuel p c alsoSkip true false false
        if token.kind = NK_RB then ok (c.children, p)
        else
          let (took, token, c, p) ← chain_take p c [NK_WORD] true
          if !took then error ErrorT.directive_expected token.line
          else
            let dir := token
            let ok0 ← valid_directive_call dir.text none p.constraints
            let (_, c, p) ← chain_gobble_skip fuel p c alsoSkip false true true
            let (took, token, c, p) ←
              chain_take p c (NK_CONTENT :: NK_STRING :: NK_SKIP :: alsoSkip) false
            let (ok1, token, c, p) ←
              (if took then do
                let ok1 ← if ok0 then ok true
                          else valid_directive_call dir.text token.text p.constraints
                if !ok1 then error ErrorT.directive_and_parameter_invalid dir.line
                else
                  let (token, c, p) ←
                    parse_section_params (NK_CONTENT :: NK_STRING :: NK_SKIP :: alsoSkip) fuel p c
                  ok (ok1, token, c, p)
              else ok (ok0, token, c, p) : Outcome (Bool × Token × ChainT × ParserT))
            if !ok1 then error ErrorT.directive_invalid dir.line
            else section_terminator fuel p c token alsoSkip) := by
  rw [parser_parse_section]
  rfl

/-- What the evaluation lemmas keep of a state: the line of the end of input,
the constraints and the history of released tokens. -/
theorem peek_fresh_keeps {p : ParserT} {L : List Token} (h : Fresh p L) (allowWord : Bool) :
    ∃ q, peek p allowWord = ok (next_of L p.scanner.eof_line, q) ∧ Reads q L
      ∧ q.scanner.eof_line = p.scanner.eof_line ∧ q.constraints = p.constraints
      ∧ q.consumed = p.consumed := by
  obtain ⟨q, h1, r1, e1⟩ := peek_fresh h allowWord
  have a := (peek_spec h1).1
  exact ⟨q, h1, r1, e1, a.constraints, by simpa using a.consumed⟩

theorem chain_take_hit_any {p : ParserT} {t : Token} {L : List Token}
    (h : Fresh p (t :: L) ∨ Reads p (t :: L))
    (c : ChainT) (kinds : KindMask) (hk : hasKind kinds t.kind = true) (allowWord : Bool) :
    ∃ q, chain_take p c kinds allowWord = ok (true, t, chain_add c (NodeT.leaf t) [], q)
      ∧ Fresh q L ∧ q.scanner.eof_line = p.scanner.eof_line ∧ q.constraints = p.constraints
      ∧ q.consumed = p.consumed ++ [t] := by
  rcases h with h | h
  · obtain ⟨q1, h1, r1, e1, c1, d1⟩ := peek_fresh_keeps h allowWord
    have e : next_of (t :: L) p.scanner.eof_line = t := rfl
    rw [e] at h1
    refine ⟨(consume_token q1).2, ?_, (consume_reads r1).1, ?_, ?_, ?_⟩
    · unfold chain_take
      rw [h1]
      simp only [bind_ok]
      rw [if_pos hk]
    · rw [(consume_reads r1).2, e1]
    · exact c1
    · show q1.consumed ++ q1.pending_token.toList = _
      rw [r1.1.2, d1]; rfl
  · refine ⟨(consume_token p).2, chain_take_hit h c kinds hk allowWord, (consume_reads h).1,
      (consume_reads h).2, rfl, ?_⟩
    show p.consumed ++ p.pending_token.toList = _
    rw [h.1.2]; rfl

theorem chain_take_miss_any {p : ParserT} {L : List Token} (h : Fresh p L ∨ Reads p L)
    (c : ChainT) (kinds : KindMask)
    (hk : hasKind kinds (next_of L p.scanner.eof_line).kind = false) (allowWord : Bool) :
    ∃ q, chain_take p c kinds allowWord = ok (false, next_of L p.scanner.eof_line, c, q)
      ∧ Reads q L ∧ q.scanner.eof_line = p.scanner.eof_line ∧ q.constraints = p.constraints
      ∧ q.consumed = p.consumed := by
  rcases h with h | h
  · obtain ⟨q1, h1, r1, e1, c1, d1⟩ := peek_fresh_keeps h allowWord
    refine ⟨q1, ?_, r1, e1, c1, d1⟩
    unfold chain_take
    rw [h1]
    simp only [bind_ok]
    rw [if_neg (by rw [hk]; exact Bool.false_ne_true)]
  · exact ⟨p, chain_take_miss h c kinds hk allowWord, h, rfl, rfl, rfl⟩

theorem params_eval (kinds : KindMask) (T : List Token) (el : Nat)
    (hT : hasKind kinds (next_of T el).kind = false) :
    ∀ (vs : List Token) (fuel : Nat) (p : ParserT) (c : ChainT),
      (Fresh p (vs ++ T) ∨ Reads p (vs ++ T)) → p.scanner.eof_line = el →
      (∀ x ∈ vs, hasKind kinds x.kind = true) → vs.length < fuel →
      ∃ q, parse_section_params kinds fuel p c
          = ok (next_of T el, chain_add_tokens c vs, q)
        ∧ Reads q T ∧ q.scanner.eof_line = el ∧ q.constraints = p.constraints
        ∧ q.consumed = p.consumed ++ vs := by
  intro vs
  induction vs with
  | nil =>
    intro fuel p c hp he _ hf
    cases fuel with
    | zero => simp at hf
    | succ n =>
      obtain ⟨q, h, r, e, k, d⟩ := chain_take_miss_any hp c kinds (by rw [he]; exact hT) false
      refine ⟨q, ?_, r, by rw [e, he], k, by simpa using d⟩
      rw [parse_section_params, h, he]
      rfl
  | cons v vs ih =>
    intro fuel p c hp he hv hf
    cases fuel with
    | zero => simp at hf
    | succ n =>
      obtain ⟨q, h, r, e, k, d⟩ := chain_take_hit_any hp c kinds
        (hv v (List.mem_cons_self _ _)) false
      obtain ⟨q2, h2, r2, e2, k2, d2⟩ := ih n q (chain_add c (NodeT.leaf v) []) (Or.inl r)
        (by rw [e, he]) (fun x hx => hv x (List.mem_cons_of_mem _ hx)) (by simpa using hf)
      refine ⟨q2, ?_, r2, e2, by rw [k2, k], by rw [d2, d]; simp⟩
      rw [parse_section_params, h]
      simp only [bind_ok, if_true]
      rw [h2]
      rfl

theorem gobble_taken_all (alsoSkip : KindMask) (T : List Token)
    (hT : ∀ t, T.head? = some t → hasKind (NK_SKIP :: alsoSkip) t.kind = false) :
    ∀ g : List Token, (∀ x ∈ g, hasKind (NK_SKIP :: alsoSkip) x.kind = true) →
      gobble_taken alsoSkip true true (g ++ T) = g := by
  intro g
  induction g with
  | nil =>
    intro _
    cases T with
    | nil => rfl
    | cons t T => simp [gobble_taken, hT t rfl]
  | cons x g ih =>
    intro hg
    have := ih (fun y hy => hg y (List.mem_cons_of_mem _ hy))
    simp [gobble_taken, hg x (List.mem_cons_self _ _), this]

theorem gobble_none {p : ParserT} {L : List Token} (h : Reads p L) (c : ChainT)
    (alsoSkip : KindMask) (aw allowEOL cont : Bool) (fuel : Nat)
    (hk : hasKind (NK_SKIP :: alsoSkip) (next_of L p.scanner.eof_line).kind = false) :
    chain_gobble_skip (fuel + 1) p c alsoSkip aw allowEOL cont
      = ok (next_of L p.scanner.eof_line, c, p) := by
  unfold chain_gobble_skip
  rw [peek_reads h]
  simp only [bind_ok]
  rw [chain_gobble_skip_loop, if_neg (by rw [hk]; exact Bool.false_ne_true)]

theorem gobble_all_eval (alsoSkip : KindMask) (aw : Bool)
    (hE : hasKind alsoSkip NK_EOF = false) (g R : List Token) (fuel : Nat) (p : ParserT)
    (c : ChainT) (hp : Fresh p (g ++ R) ∨ Reads p (g ++ R))
    (hg : ∀ x ∈ g, hasKind (NK_SKIP :: alsoSkip) x.kind = true)
    (hR : ∀ t, R.head? = some t → hasKind (NK_SKIP :: alsoSkip) t.kind = false)
    (hf : g.length < fuel) :
    ∃ q, chain_gobble_skip fuel p c alsoSkip aw true true
        = ok (next_of R p.scanner.eof_line, chain_add_tokens c g, q)
      ∧ Reads q R ∧ q.scanner.eof_line = p.scanner.eof_line ∧ q.constraints = p.constraints
      ∧ q.consumed = p.consumed ++ g := by
  have ht := gobble_taken_all alsoSkip R hR g hg
  obtain ⟨tok, q, h, hc, _, he, _, hb⟩ := gobble_eval alsoSkip aw true true hE (g ++ R) fuel p c
    hp (by rw [ht]; exact hf)
  rw [ht] at h hc hb
  obtain ⟨h1, h2⟩ := hb (Or.inl rfl)
  rw [List.drop_left] at h1 h2
  obtain ⟨xs, a, _⟩ := gobble_spec h hE
  subst h1
  exact ⟨q, h, h2, he, a.constraints, hc⟩

theorem hasKind_params (alsoSkip : KindMask) (k : NodeKind) :
    hasKind (NK_CONTENT :: NK_STRING :: NK_SKIP :: alsoSkip) k
      = (decide (k = NK_CONTENT) || decide (k = NK_STRING) || hasKind (NK_SKIP :: alsoSkip) k) := by
  rw [hasKind_cons, hasKind_cons, Bool.or_assoc]

/-- `parser_parse_section` on a stream that begins with the directive word `w`,
tokens `g` of kinds `{SKIP} ∪ alsoSkip`, a first parameter `v1`, further
parameter-class tokens `vs` and then `T`: the state in which line 334 is reached. -/
theorem section_head_param (alsoSkip : KindMask) (hE : hasKind alsoSkip NK_EOF = false)
    (hW : hasKind alsoSkip NK_WORD = false) (w v1 : Token) (n : CStr) (g vs T : List Token)
    (fuel : Nat) (p : ParserT) (hp : Fresh p (w :: (g ++ v1 :: (vs ++ T))))
    (hw : w.kind = NK_WORD) (hn : w.text = some n)
    (hg : ∀ x ∈ g, hasKind (NK_SKIP :: alsoSkip) x.kind = true)
    (hv : hasKind (NK_SKIP :: alsoSkip) v1.kind = false)
    (hv1 : hasKind (NK_CONTENT :: NK_STRING :: NK_SKIP :: alsoSkip) v1.kind = true)
    (hvs : ∀ x ∈ vs, hasKind (NK_CONTENT :: NK_STRING :: NK_SKIP :: alsoSkip) x.kind = true)
    (hT : hasKind (NK_CONTENT :: NK_STRING :: NK_SKIP :: alsoSkip)
      (next_of T p.scanner.eof_line).kind = false)
    (hf : g.length + vs.length + 1 ≤ fuel) :
    ∃ q, Reads q T ∧ q.scanner.eof_line = p.scanner.eof_line ∧ q.constraints = p.constraints
      ∧ q.consumed = p.consumed ++ w :: (g ++ v1 :: vs)
      ∧ parser_parse_section (fuel + 1) p alsoSkip
        = if (valid_directive n none p.constraints
              || valid_directive n v1.text p.constraints) = true then
            section_terminator fuel q (chain_add_tokens init_chain (w :: (g ++ v1 :: vs)))
              (next_of T p.scanner.eof_line) alsoSkip
          else error ErrorT.directive_and_parameter_invalid w.line := by
  have hwG : hasKind (NK_SKIP :: alsoSkip) w.kind = false := by
    rw [hw, hasKind_cons, hW]; rfl
  obtain ⟨q1, h1, r1, e1, k1, d1⟩ := peek_fresh_keeps hp true
  have en : next_of (w :: (g ++ v1 :: (vs ++ T))) p.scanner.eof_line = w := rfl
  rw [en] at h1
  cases fuel with
  | zero => simp at hf
  | succ f =>
  have h2 := gobble_none r1 init_chain alsoSkip true false false f (by rw [e1, en]; exact hwG)
  rw [e1, en] at h2
  obtain ⟨q3, h3, r3, e3, k3, d3⟩ := chain_take_hit_any (Or.inr r1) init_chain [NK_WORD]
    (by rw [hw]; rfl) true
  obtain ⟨q4, h4, r4, e4, k4, d4⟩ := gobble_all_eval alsoSkip false hE g (v1 :: (vs ++ T))
    (f + 1) q3 (chain_add init_chain (NodeT.leaf w) []) (Or.inl r3) hg
    (by intro t ht; simp at ht; rw [← ht]; exact hv) (by omega)
  obtain ⟨q5, h5, r5, e5, k5, d5⟩ := chain_take_hit_any (Or.inr r4)
    (chain_add_tokens (chain_add init_chain (NodeT.leaf w) []) g)
    (NK_CONTENT :: NK_STRING :: NK_SKIP :: alsoSkip) hv1 false
  obtain ⟨q6, h6, r6, e6, k6, d6⟩ := params_eval (NK_CONTENT :: NK_STRING :: NK_SKIP :: alsoSkip)
    T p.scanner.eof_line hT vs (f + 1) q5
    (chain_add (chain_add_tokens (chain_add init_chain (NodeT.leaf w) []) g) (NodeT.leaf v1) [])
    (Or.inl r5) (by rw [e5, e4, e3, e1]) hvs (by omega)
  have ec : p.constraints = q3.constraints := by rw [k3, k1]
  have ec5 : q5.constraints = p.constraints := by rw [k5, k4, k3, k1]
  refine ⟨q6, r6, e6, by rw [k6, ec5], ?_, ?_⟩
  · rw [d6, d5, d4, d3, d1]; simp
  · rw [section_unfold, h1]
    simp only [bind_ok]
    rw [hwG]
    simp only [Bool.false_and, Bool.false_eq_true, if_false, hw]
    simp only [show (NK_WORD = NK_BREAK) = False from by simp, decide_False, Bool.false_and,
      Bool.false_eq_true, if_false, show (NK_WORD = NK_EOF) = False from by simp]
    rw [h2]
    simp only [bind_ok, hw, show (NK_WORD = NK_RB) = False from by simp, if_false]
    rw [h3]
    simp only [bind_ok, Bool.not_true, Bool.false_eq_true, if_false, hn,
      valid_directive_call_some]
    rw [h4]
    simp only [bind_ok]
    rw [h5]
    simp only [bind_ok, if_true, ec5, k3, k1]
    have ech : chain_add_tokens init_chain (w :: (g ++ v1 :: vs))
        = chain_add_tokens (chain_add (chain_add_tokens
            (chain_add init_chain (NodeT.leaf w) []) g) (NodeT.leaf v1) []) vs := by
      simp [chain_add_tokens, List.foldl_append]
    rw [ech, e3, e1] at *
    cases hv0 : valid_directive n none p.constraints with
    | true =>
      simp only [if_true, bind_ok, Bool.not_true, Bool.false_eq_true, if_false, Bool.true_or]
      rw [h6]
      simp
    | false =>
      simp only [Bool.false_eq_true, if_false, Bool.false_or]
      cases hv2 : valid_directive n v1.text p.constraints with
      | true =>
        simp only [if_true, bind_ok, Bool.not_true, Bool.false_eq_true, if_false]
        rw [h6]
        simp
      | false => simp

/-- `parser_parse_section` on a stream that begins with the directive word `w`,
tokens `g` of kinds `{SKIP} ∪ alsoSkip` and then `T`, whose first token is not of
a parameter class: the state in which line 334 is reached. -/
theorem section_head_bare (alsoSkip : KindMask) (hE : hasKind alsoSkip NK_EOF = false)
    (hW : hasKind alsoSkip NK_WORD = false) (w : Token) (n : CStr) (g T : List Token)
    (fuel : Nat) (p : ParserT) (hp : Fresh p (w :: (g ++ T)))
    (hw : w.kind = NK_WORD) (hn : w.text = some n)
    (hg : ∀ x ∈ g, hasKind (NK_SKIP :: alsoSkip) x.kind = true)
    (hT : hasKind (NK_CONTENT :: NK_STRING :: NK_SKIP :: alsoSkip)
      (next_of T p.scanner.eof_line).kind = false)
    (hf : g.length + 1 ≤ fuel) :
    ∃ q, Reads q T ∧ q.scanner.eof_line = p.scanner.eof_line ∧ q.constraints = p.constraints
      ∧ q.consumed = p.consumed ++ w :: g
      ∧ parser_parse_section (fuel + 1) p alsoSkip
        = if valid_directive n none p.constraints = true then
            section_terminator fuel q (chain_add_tokens init_chain (w :: g))
              (next_of T p.scanner.eof_line) alsoSkip
          else error ErrorT.directive_invalid w.line := by
  have hwG : hasKind (NK_SKIP :: alsoSkip) w.kind = false := by
    rw [hw, hasKind_cons, hW]; rfl
  have hTG : ∀ t, T.head? = some t → hasKind (NK_SKIP :: alsoSkip) t.kind = false := by
    intro t ht
    cases T with
    | nil => simp at ht
    | cons a T =>
      simp at ht
      subst ht
      have e : next_of (a :: T) p.scanner.eof_line = a := rfl
      rw [e, hasKind_params] at hT
      simp only [Bool.or_eq_false_iff] at hT
      exact hT.2
  obtain ⟨q1, h1, r1, e1, k1, d1⟩ := peek_fresh_keeps hp true
  have en : next_of (w :: (g ++ T)) p.scanner.eof_line = w := rfl
  rw [en] at h1
  cases fuel with
  | zero => simp at hf
  | succ f =>
  have h2 := gobble_none r1 init_chain alsoSkip true false false f (by rw [e1, en]; exact hwG)
  rw [e1, en] at h2
  obtain ⟨q3, h3, r3, e3, k3, d3⟩ := chain_take_hit_any (Or.inr r1) init_chain [NK_WORD]
    (by rw [hw]; rfl) true
  obtain ⟨q4, h4, r4, e4, k4, d4⟩ := gobble_all_eval alsoSkip false hE g T
    (f + 1) q3 (chain_add init_chain (NodeT.leaf w) []) (Or.inl r3) hg hTG (by omega)
  have e41 : q4.scanner.eof_line = p.scanner.eof_line := by rw [e4, e3, e1]
  obtain ⟨q5, h5, r5, e5, k5, d5⟩ := chain_take_miss_any (Or.inr r4)
    (chain_add_tokens (chain_add init_chain (NodeT.leaf w) []) g)
    (NK_CONTENT :: NK_STRING :: NK_SKIP :: alsoSkip) (by rw [e41]; exact hT) false
  refine ⟨q5, r5, by rw [e5, e41], by rw [k5, k4, k3, k1], ?_, ?_⟩
  · rw [d5, d4, d3, d1]; simp
  · rw [section_unfold, h1]
    simp only [bind_ok]
    rw [hwG]
    simp only [Bool.false_and, Bool.false_eq_true, if_false, hw]
    simp only [show (NK_WORD = NK_BREAK) = False from by simp, decide_False, Bool.false_and,
      Bool.false_eq_true, if_false, show (NK_WORD = NK_EOF) = False from by simp]
    rw [h2]
    simp only [bind_ok, hw, show (NK_WORD = NK_RB) = False from by simp, if_false]
    rw [h3]
    simp only [bind_ok, Bool.not_true, Bool.false_eq_true, if_false, hn,
      valid_directive_call_some]
    rw [h4]
    simp only [bind_ok]
    rw [h5]
    simp only [bind_ok, Bool.false_eq_true, if_false, k3, k1, e41]
    have ech : chain_add_tokens init_chain (w :: g)
        = chain_add_tokens (chain_add init_chain (NodeT.leaf w) []) g := rfl
    rw [ech]
    cases hv0 : valid_directive n none p.constraints <;> simp

/-- Line 339-341 and 350: the terminator `;`. -/
theorem section_terminator_semi (alsoSkip : KindMask) (hE : hasKind alsoSkip NK_EOF = false)
    (semi : Token) (T : List Token) (fuel : Nat) (p : ParserT) (c : ChainT)
    (hp : Reads p (semi :: T)) (hs : semi.kind = NK_SEMI)
    (hf : (gobble_taken alsoSkip true false T).length < fuel) :
    ∃ q, section_terminator fuel p c semi alsoSkip
      = ok ([NodeT.chain (chain_add_tokens c (semi ::
          (if semi.ends_line then [] else gobble_taken alsoSkip true false T))).children], q)
      ∧ q.consumed = p.consumed ++ semi ::
          (if semi.ends_line then [] else gobble_taken alsoSkip true false T) := by
  obtain ⟨q1, h1, r1, e1, k1, d1⟩ := chain_take_hit_any (Or.inr hp) c [NK_SEMI]
    (by rw [hs]; rfl) true
  unfold section_terminator
  simp only [hs, show (NK_SEMI = NK_LB) = False from by simp, if_false, if_true]
  rw [h1]
  simp only [bind_ok]
  unfold gobble_unless_eol
  cases he : semi.ends_line with
  | true =>
    simp only [Bool.not_true, Bool.false_eq_true, if_false, bind_ok, if_true]
    exact ⟨q1, rfl, d1⟩
  | false =>
    simp only [Bool.not_false, if_true, Bool.false_eq_true, if_false]
    obtain ⟨tok, q, g, gc, _⟩ := gobble_eval alsoSkip true true false hE T fuel q1
      (chain_add c (NodeT.leaf semi) []) (Or.inl r1) hf
    rw [g]
    refine ⟨q, rfl, ?_⟩
    rw [gc, d1]; simp

/-- Line 344-346: a lookahead that is none of `{`, `;` and `BREAK` is the
fatal error "{ or ; expected". -/
theorem section_terminator_other (alsoSkip : KindMask) (t : Token) (fuel : Nat) (p : ParserT)
    (c : ChainT) (h1 : t.kind ≠ NK_LB) (h2 : t.kind ≠ NK_SEMI) (h3 : t.kind ≠ NK_BREAK) :
    section_terminator fuel p c t alsoSkip = error ErrorT.lbrace_or_semi_expected t.line := by
  unfold section_terminator
  rw [if_neg h1, if_neg h2, if_pos h3]
  rfl

theorem gobble_taken_length_le (alsoSkip : KindMask) (allowEOL cont : Bool) (L : List Token) :
    (gobble_taken alsoSkip allowEOL cont L).length ≤ L.length := by
  induction L with
  | nil => simp [gobble_taken]
  | cons t L ih =>
    rw [gobble_taken]
    split
    · split
      · simp
      · simpa using ih
    · simp

theorem chain_add_tokens_children (ts : List Token) :
    (chain_add_tokens init_chain ts).children = ts.map NodeT.leaf := by
  have := (foldl_chain_add_ext ts init_chain).children rfl
  simpa [chain_add_tokens, init_chain, ChainT.children] using this.1

theorem chain_add_tokens_append (c : ChainT) (a b : List Token) :
    chain_add_tokens (chain_add_tokens c a) b = chain_add_tokens c (a ++ b) := by
  simp [chain_add_tokens, List.foldl_append]

theorem hasKind_break_only {alsoSkip : KindMask} (hA : ∀ k ∈ alsoSkip, k = NK_BREAK)
    {k : NodeKind} (hk : k ≠ NK_BREAK) : hasKind alsoSkip k = false := by
  cases h : hasKind alsoSkip k with
  | false => rfl
  | true =>
    have : k ∈ alsoSkip := by simpa [hasKind] using h
    exact absurd (hA k this) hk

/-- The section `w g v1 vs ;` on a stream: accepted exactly when the bare
directive or its first parameter `v1` is valid; the chain holds every token. -/
theorem section_params_semi (alsoSkip : KindMask) (hA : ∀ k ∈ alsoSkip, k = NK_BREAK)
    (w v1 semi : Token) (n : CStr) (g vs T : List Token) (fuel : Nat) (p : ParserT)
    (hp : Fresh p (w :: (g ++ v1 :: (vs ++ semi :: T))))
    (hw : w.kind = NK_WORD) (hn : w.text = some n)
    (hg : ∀ x ∈ g, hasKind (NK_SKIP :: alsoSkip) x.kind = true)
    (hv : v1.kind = NK_CONTENT ∨ v1.kind = NK_STRING)
    (hvs : ∀ x ∈ vs, hasKind (NK_CONTENT :: NK_STRING :: NK_SKIP :: alsoSkip) x.kind = true)
    (hs : semi.kind = NK_SEMI) (hf : g.length + vs.length + T.length + 2 ≤ fuel) :
    ((valid_directive n none p.constraints || valid_directive n v1.text p.constraints) = true →
      ∃ q, parser_parse_section (fuel + 1) p alsoSkip
        = ok ([NodeT.chain ((w :: (g ++ v1 :: (vs ++ semi ::
            (if semi.ends_line then [] else gobble_taken alsoSkip true false T)))).map
              NodeT.leaf)], q)) ∧
    ((valid_directive n none p.constraints || valid_directive n v1.text p.constraints) = false →
      parser_parse_section (fuel + 1) p alsoSkip
        = error ErrorT.directive_and_parameter_invalid w.line) := by
  have hE : hasKind alsoSkip NK_EOF = false := hasKind_break_only hA (by decide)
  have hW : hasKind alsoSkip NK_WORD = false := hasKind_break_only hA (by decide)
  have hvG : hasKind (NK_SKIP :: alsoSkip) v1.kind = false := by
    rw [hasKind_cons]
    rcases hv with h | h <;> rw [h, hasKind_break_only hA (by decide)] <;> rfl
  have hvK : hasKind (NK_CONTENT :: NK_STRING :: NK_SKIP :: alsoSkip) v1.kind = true := by
    rw [hasKind_params]
    rcases hv with h | h <;> rw [h] <;> simp
  have hT : hasKind (NK_CONTENT :: NK_STRING :: NK_SKIP :: alsoSkip)
      (next_of (semi :: T) p.scanner.eof_line).kind = false := by
    show hasKind _ semi.kind = false
    rw [hs, hasKind_params, hasKind_cons, hasKind_break_only hA (by decide)]
    rfl
  obtain ⟨q, rq, _, _, _, h⟩ := section_head_param alsoSkip hE hW w v1 n g vs (semi :: T) fuel p hp
    hw hn hg hvG hvK hvs hT (by omega)
  have hlen := gobble_taken_length_le alsoSkip true false T
  obtain ⟨q2, h2, _⟩ := section_terminator_semi alsoSkip hE semi T fuel q
    (chain_add_tokens init_chain (w :: (g ++ v1 :: vs))) rq hs (by omega)
  have en : next_of (semi :: T) p.scanner.eof_line = semi := rfl
  rw [en] at h
  constructor
  · intro hc
    refine ⟨q2, ?_⟩
    rw [h, if_pos hc, h2, chain_add_tokens_append, chain_add_tokens_children]
    simp
  · intro hc
    rw [h, if_neg (by rw [hc]; exact Bool.false_ne_true)]

/-- C17: only the first parameter is validated. For a directive word `w` named
`n`, tokens `g` of kinds `{SKIP} ∪ alsoSkip`, a first parameter `v1` (`CONTENT`
or `STRING`), any further parameter-class tokens `vs`, the terminator `;` and
any rest `T` of the stream, `parser_parse_section` accepts `w g v1 vs ;` exactly
when it accepts `w g v1 ;`, namely when `valid_directive(n, NULL, cs)` or
`valid_directive(n, v1, cs)`; otherwise both end in the fatal error "directive and
parameter invalid". On acceptance the chain holds `w`, `g`, `v1`, all of `vs`,
the `;` and the trailing tokens gobbled, so `vs` is appended unvalidated. -/
theorem first_parameter_only (alsoSkip : KindMask) (dom : CStr) (ab : Bool)
    (cs : List BindingT) (el : Nat) (w v1 semi : Token) (n : CStr) (g vs T : List Token)
    (fuel : Nat) (hA : ∀ k ∈ alsoSkip, k = NK_BREAK)
    (hw : w.kind = NK_WORD) (hn : w.text = some n)
    (hg : ∀ x ∈ g, hasKind (NK_SKIP :: alsoSkip) x.kind = true)
    (hv : v1.kind = NK_CONTENT ∨ v1.kind = NK_STRING)
    (hvs : ∀ x ∈ vs, hasKind (NK_CONTENT :: NK_STRING :: NK_SKIP :: alsoSkip) x.kind = true)
    (hs : semi.kind = NK_SEMI) (hf : g.length + vs.length + T.length + 2 ≤ fuel) :
    ((parser_parse_section (fuel + 1)
        (parser_init dom ab cs ⟨w :: (g ++ v1 :: (vs ++ semi :: T)), el⟩) alsoSkip).isOk
      = (parser_parse_section (fuel + 1)
        (parser_init dom ab cs ⟨w :: (g ++ v1 :: semi :: T), el⟩) alsoSkip).isOk) ∧
    ((parser_parse_section (fuel + 1)
        (parser_init dom ab cs ⟨w :: (g ++ v1 :: (vs ++ semi :: T)), el⟩) alsoSkip).isOk
      = (valid_directive n none cs || valid_directive n v1.text cs)) ∧
    ((valid_directive n none cs || valid_directive n v1.text cs) = true →
      ∃ q, parser_parse_section (fuel + 1)
          (parser_init dom ab cs ⟨w :: (g ++ v1 :: (vs ++ semi :: T)), el⟩) alsoSkip
        = ok ([NodeT.chain ((w :: (g ++ v1 :: (vs ++ semi ::
            (if semi.ends_line then [] else gobble_taken alsoSkip true false T)))).map
              NodeT.leaf)], q)) ∧
    ((valid_directive n none cs || valid_directive n v1.text cs) = false →
      parser_parse_section (fuel + 1)
          (parser_init dom ab cs ⟨w :: (g ++ v1 :: (vs ++ semi :: T)), el⟩) alsoSkip
        = error ErrorT.directive_and_parameter_invalid w.line) := by
  obtain ⟨a1, a2⟩ := section_params_semi alsoSkip hA w v1 semi n g vs T fuel
    (parser_init dom ab cs ⟨w :: (g ++ v1 :: (vs ++ semi :: T)), el⟩) (And.intro rfl rfl)
    hw hn hg hv hvs hs hf
  obtain ⟨b1, b2⟩ := section_params_semi alsoSkip hA w v1 semi n g [] T fuel
    (parser_init dom ab cs ⟨w :: (g ++ v1 :: semi :: T), el⟩) (And.intro rfl rfl)
    hw hn hg hv (by simp) hs (by simpa using (by omega : g.length + T.length + 2 ≤ fuel))
  have ec : (parser_init dom ab cs ⟨w :: (g ++ v1 :: (vs ++ semi :: T)), el⟩).constraints = cs :=
    rfl
  have ec2 : (parser_init dom ab cs ⟨w :: (g ++ v1 :: semi :: T), el⟩).constraints = cs := rfl
  rw [ec] at a1 a2
  rw [ec2] at b1 b2
  cases hc : (valid_directive n none cs || valid_directive n v1.text cs) with
  | true =>
    obtain ⟨q, hq⟩ := a1 hc
    obtain ⟨q2, hq2⟩ := b1 hc
    refine ⟨by rw [hq, hq2]; rfl, by rw [hq]; rfl, fun _ => ⟨q, hq⟩, fun h => Bool.noConfusion h⟩
  | false =>
    refine ⟨by rw [a2 hc, b2 hc], by rw [a2 hc]; rfl, fun h => Bool.noConfusion h,
      fun _ => a2 hc⟩

/-- Witness of `first_parameter_only`: `root /home/u /etc;` under the constraint
`("root", "/home/")` is accepted, as `root /home/u;` is, although `/etc` alone
would not be a valid parameter. -/
theorem first_parameter_only_witness :
    valid_directive "root".toList (some "/etc".toList) [⟨"root".toList, some "/home/".toList⟩]
      = false ∧
    (parser_parse_section 6
        (parser_init "example.com".toList false [⟨"root".toList, some "/home/".toList⟩]
          ⟨[⟨NK_WORD, some "root".toList, 1, false⟩, ⟨NK_SKIP, some " ".toList, 1, false⟩,
            ⟨NK_CONTENT, some "/home/u".toList, 1, false⟩,
            ⟨NK_SKIP, some " ".toList, 1, false⟩, ⟨NK_CONTENT, some "/etc".toList, 1, false⟩,
            ⟨NK_SEMI, none, 1, true⟩], 2⟩) [NK_BREAK]).isOk
      = (parser_parse_section 6
        (parser_init "example.com".toList false [⟨"root".toList, some "/home/".toList⟩]
          ⟨[⟨NK_WORD, some "root".toList, 1, false⟩, ⟨NK_SKIP, some " ".toList, 1, false⟩,
            ⟨NK_CONTENT, some "/home/u".toList, 1, false⟩,
            ⟨NK_SEMI, none, 1, true⟩], 2⟩) [NK_BREAK]).isOk ∧
    (parser_parse_section 6
        (parser_init "example.com".toList false [⟨"root".toList, some "/home/".toList⟩]
          ⟨[⟨NK_WORD, some "root".toList, 1, false⟩, ⟨NK_SKIP, some " ".toList, 1, false⟩,
            ⟨NK_CONTENT, some "/home/u".toList, 1, false⟩,
            ⟨NK_SKIP, some " ".toList, 1, false⟩, ⟨NK_CONTENT, some "/etc".toList, 1, false⟩,
            ⟨NK_SEMI, none, 1, true⟩], 2⟩) [NK_BREAK]).isOk = true := by
  obtain ⟨h1, h2, _, _⟩ := first_parameter_only [NK_BREAK] "example.com".toList false
    [⟨"root".toList, some "/home/".toList⟩] 2 ⟨NK_WORD, some "root".toList, 1, false⟩
    ⟨NK_CONTENT, some "/home/u".toList, 1, false⟩ ⟨NK_SEMI, none, 1, true⟩ "root".toList
    [⟨NK_SKIP, some " ".toList, 1, false⟩]
    [⟨NK_SKIP, some " ".toList, 1, false⟩, ⟨NK_CONTENT, some "/etc".toList, 1, false⟩] [] 5
    (by decide) rfl rfl (by decide) (Or.inl rfl) (by decide) rfl (by decide)
  exact ⟨by decide, h1, h2.trans (by decide)⟩

theorem next_of_dropWhile (f : Token → Bool) (L : List Token) (el : Nat)
    (he : f (eof_token el) = false) : f (next_of (L.dropWhile f) el) = false := by
  cases h : L.dropWhile f with
  | nil => exact he
  | cons a T =>
    have : (L.dropWhile f).head? = some a := by rw [h]; rfl
    exact head_dropWhile f L a this

/-- `parser_parse_section` on any stream that begins with a directive word `w`:
the tokens of parameter class that follow `w` are taken, and the call either
ends in a validation error or continues at line 334 with the first token `T`
that is not of parameter class as lookahead. -/
theorem section_head_any (alsoSkip : KindMask) (hA : ∀ k ∈ alsoSkip, k = NK_BREAK)
    (w : Token) (n : CStr) (L : List Token) (fuel : Nat) (p : ParserT)
    (hp : Fresh p (w :: L)) (hw : w.kind = NK_WORD) (hn : w.text = some n)
    (hf : L.length + 1 ≤ fuel) :
    ∃ q, Reads q (L.dropWhile
          (fun t => hasKind (NK_CONTENT :: NK_STRING :: NK_SKIP :: alsoSkip) t.kind))
      ∧ q.scanner.eof_line = p.scanner.eof_line ∧ q.constraints = p.constraints
      ∧ q.consumed = p.consumed ++ w :: L.takeWhile
          (fun t => hasKind (NK_CONTENT :: NK_STRING :: NK_SKIP :: alsoSkip) t.kind)
      ∧ (parser_parse_section (fuel + 1) p alsoSkip
          = section_terminator fuel q (chain_add_tokens init_chain (w :: L.takeWhile
              (fun t => hasKind (NK_CONTENT :: NK_STRING :: NK_SKIP :: alsoSkip) t.kind)))
            (next_of (L.dropWhile
              (fun t => hasKind (NK_CONTENT :: NK_STRING :: NK_SKIP :: alsoSkip) t.kind))
              p.scanner.eof_line) alsoSkip
        ∨ (p.constraints ≠ [] ∧ (parser_parse_section (fuel + 1) p alsoSkip
              = error ErrorT.directive_and_parameter_invalid w.line
            ∨ parser_parse_section (fuel + 1) p alsoSkip
              = error ErrorT.directive_invalid w.line))) := by
  have hE : hasKind alsoSkip NK_EOF = false := hasKind_break_only hA (by decide)
  have hW : hasKind alsoSkip NK_WORD = false := hasKind_break_only hA (by decide)
  generalize hK : (fun t : Token =>
    hasKind (NK_CONTENT :: NK_STRING :: NK_SKIP :: alsoSkip) t.kind) = fK
  have hsplit : L = L.takeWhile fK ++ L.dropWhile fK := (List.takeWhile_append_dropWhile fK L).symm
  have hps : ∀ x ∈ L.takeWhile fK,
      hasKind (NK_CONTENT :: NK_STRING :: NK_SKIP :: alsoSkip) x.kind = true := by
    intro x hx
    have := List.mem_takeWhile_imp hx
    rw [← hK] at this
    exact this
  have hT : hasKind (NK_CONTENT :: NK_STRING :: NK_SKIP :: alsoSkip)
      (next_of (L.dropWhile fK) p.scanner.eof_line).kind = false := by
    have := next_of_dropWhile fK L p.scanner.eof_line (by
      rw [← hK]
      show hasKind _ NK_EOF = false
      rw [hasKind_params, hasKind_cons, hE]; rfl)
    rw [← hK] at this
    rw [← hK]
    exact this
  have hlen : (L.takeWhile fK).length ≤ L.length := (List.takeWhile_sublist fK).length_le
  generalize L.takeWhile fK = ps at hsplit hps hlen
  generalize L.dropWhile fK = T at hsplit hT
  subst hsplit
  generalize hG : (fun t : Token => hasKind (NK_SKIP :: alsoSkip) t.kind) = fG
  have hsplit2 : ps = ps.takeWhile fG ++ ps.dropWhile fG :=
    (List.takeWhile_append_dropWhile fG ps).symm
  have hg : ∀ x ∈ ps.takeWhile fG, hasKind (NK_SKIP :: alsoSkip) x.kind = true := by
    intro x hx
    have := List.mem_takeWhile_imp hx
    rw [← hG] at this
    exact this
  have hR : ∀ v, (ps.dropWhile fG).head? = some v →
      hasKind (NK_SKIP :: alsoSkip) v.kind = false := by
    intro v hv
    have := head_dropWhile fG ps v hv
    rw [← hG] at this
    exact this
  have hRK : ∀ x ∈ ps.dropWhile fG,
      hasKind (NK_CONTENT :: NK_STRING :: NK_SKIP :: alsoSkip) x.kind = true :=
    fun x hx => hps x ((List.dropWhile_sublist fG).subset hx)
  have hlen2 : ps.length = (ps.takeWhile fG).length + (ps.dropWhile fG).length := by
    rw [← List.length_append, List.takeWhile_append_dropWhile]
  generalize ps.takeWhile fG = g at hsplit2 hg hlen2
  generalize ps.dropWhile fG = R at hsplit2 hR hRK hlen2
  subst hsplit2
  cases R with
  | nil =>
    simp only [List.append_nil] at hp hlen hf ⊢
    obtain ⟨q, rq, eq, kq, dq, h⟩ := section_head_bare alsoSkip hE hW w n g T fuel p hp hw hn hg
      hT (by simp at hf; omega)
    refine ⟨q, rq, eq, kq, dq, ?_⟩
    rw [h]
    cases hc : p.constraints with
    | nil => left; simp [valid_directive]
    | cons b bs =>
      cases hv : valid_directive n none (b :: bs) with
      | true => left; simp
      | false => right; exact ⟨List.cons_ne_nil _ _, Or.inr (by simp)⟩
  | cons v1 vs =>
    have hp2 : Fresh p (w :: (g ++ v1 :: (vs ++ T))) := by
      simpa [List.append_assoc] using hp
    obtain ⟨q, rq, eq, kq, dq, h⟩ := section_head_param alsoSkip hE hW w v1 n g vs T fuel p hp2
      hw hn hg (hR v1 rfl) (hRK v1 (List.mem_cons_self _ _))
      (fun x hx => hRK x (List.mem_cons_of_mem _ hx)) hT
      (by simp at hf hlen2; omega)
    refine ⟨q, rq, eq, kq, by rw [dq], ?_⟩
    rw [h]
    cases hc : p.constraints with
    | nil => left; simp [valid_directive]
    | cons b bs =>
      cases hv : (valid_directive n none (b :: bs) || valid_directive n v1.text (b :: bs)) with
      | true => left; simp
      | false => right; exact ⟨List.cons_ne_nil _ _, Or.inl (by simp)⟩

/-- When lines 334-352 return the section, the lookahead they were entered with
is `;`, `BREAK` or `{`; in the last case a `}` was consumed after the nested
list and is in the chain, followed by gobbled tokens only. -/
theorem section_terminator_accepts (alsoSkip : KindMask) (hE : hasKind alsoSkip NK_EOF = false)
    (hR : hasKind alsoSkip NK_RB = false) {fuel : Nat} {p q : ParserT} {c : ChainT} {t : Token}
    {items : List NodeT} (h : section_terminator fuel p c t alsoSkip = ok (items, q)) :
    t.kind = NK_SEMI ∨ t.kind = NK_BREAK ∨
    (t.kind = NK_LB ∧ ∃ (rb : Token) (cs : List Token) (pre : List NodeT) (tr : List Token), rb.kind = NK_RB ∧ Adv p q cs [] ∧ rb ∈ cs
      ∧ items = [NodeT.chain (pre ++ NodeT.leaf rb :: tr.map NodeT.leaf)]
      ∧ ∀ x ∈ tr, hasKind (NK_SKIP :: alsoSkip) x.kind = true) := by
  unfold section_terminator at h
  by_cases h1 : t.kind = NK_LB
  · right; right
    refine ⟨h1, ?_⟩
    rw [if_pos h1] at h
    obtain ⟨⟨tok5, c5, p5⟩, g, g5⟩ := bind_eq_ok h
    obtain ⟨⟨tk1, tok1, c1, p1⟩, g1, g⟩ := bind_eq_ok g
    obtain ⟨⟨tok2, c2, p2⟩, g2, g⟩ := bind_eq_ok g
    obtain ⟨⟨list, p3⟩, g3, g⟩ := bind_eq_ok g
    obtain ⟨⟨tk4, tok4, c4, p4⟩, g4, g⟩ := bind_eq_ok g
    simp only at g
    cases tk4 with
    | false => simp at g
    | true =>
      simp only [Bool.not_true, Bool.false_eq_true, if_false, ok.injEq, Prod.mk.injEq] at g
      obtain ⟨e1, e2, e3⟩ := g
      subst e1 e2 e3
      obtain ⟨⟨tok6, c6, p6⟩, g6, g7⟩ := bind_eq_ok g5
      simp only [ok.injEq, Prod.mk.injEq] at g7
      obtain ⟨e4, e5⟩ := g7
      subst e5
      have a1 : ∃ x1, Adv p p1 x1 [] := by
        rcases chain_take_spec g1 (by decide) with ⟨_, _, _, a, _⟩ | ⟨_, _, _, a, _⟩
        · exact ⟨_, a⟩
        · exact ⟨_, a⟩
      obtain ⟨x1, a1⟩ := a1
      obtain ⟨x2, a2, _, _⟩ := gobble_unless_eol_spec g2 hE
      have a3 := (section_list_with_spec _ (section_spec alsoSkip hE hR fuel) g3).1
      rcases chain_take_spec g4 (by decide) with ⟨_, k4, e4c, a4, _⟩ | ⟨hf, _⟩
      · obtain ⟨x5, a5, x5e, x5k⟩ := gobble_unless_eol_spec g6 hE
        have hrb : tok4.kind = NK_RB := hasKind_single k4
        have hch := (x5e.children (by rw [e4c]; rfl)).1
        refine ⟨tok4, _, (chain_add c2 list []).upto, x5, hrb,
          by simpa using (((a1.adv_trans a2).adv_trans a3).adv_trans a4).adv_trans a5,
          by simp, ?_, x5k⟩
        rw [← e4, hch, e4c]
        simp [ChainT.children, chain_add]
      · exact Bool.noConfusion hf
  · rw [if_neg h1] at h
    by_cases h2 : t.kind = NK_SEMI
    · exact Or.inl h2
    · rw [if_neg h2] at h
      by_cases h3 : t.kind = NK_BREAK
      · exact Or.inr (Or.inl h3)
      · rw [if_pos h3] at h
        simp at h

theorem ahead_reads {q : ParserT} {t : Token} {T : List Token} (h : Reads q (t :: T)) :
    ahead q = t :: T := by
  obtain ⟨⟨h1, h2⟩, h3⟩ := h
  unfold ahead
  rw [h1, h2, h3]
  rfl

theorem next_of_kind_cons {T : List Token} {el : Nat} {k : NodeKind} (hk : k ≠ NK_EOF)
    (h : (next_of T el).kind = k) : ∃ t T2, T = t :: T2 ∧ t.kind = k := by
  cases T with
  | nil => exact absurd h.symm hk
  | cons t T2 => exact ⟨t, T2, rfl, h⟩

theorem ChainAvoids.avoids_init (k : NodeKind) : ChainAvoids k init_chain := by
  intro x hx
  simp [init_chain, ChainT.children, NodeT.leaves.leavesList] at hx

theorem ChainAvoids.avoids_add {k : NodeKind} {c : ChainT} (h : ChainAvoids k c) (item : NodeT)
    (siblings : List NodeT) (hi : ∀ x ∈ NodeT.leaves.leavesList (item :: siblings), x.kind ≠ k) :
    ChainAvoids k (chain_add c item siblings) := by
  intro x hx
  have e : (chain_add c item siblings).children = c.upto ++ (item :: siblings) := by
    simp [chain_add, ChainT.children]
  rw [e, leavesList_append] at hx
  rcases List.mem_append.1 hx with m | m
  · apply h x
    unfold ChainT.children
    rw [leavesList_append]
    exact List.mem_append_left _ m
  · exact hi x m

theorem ChainAvoids.avoids_ext {k : NodeKind} {c c' : ChainT} {ns : List NodeT}
    (h : ChainAvoids k c) (e : Ext c c' ns)
    (hn : ∀ x ∈ NodeT.leaves.leavesList ns, x.kind ≠ k) : ChainAvoids k c' := by
  obtain ⟨e1, e2, e3⟩ := e
  by_cases hz : ns = []
  · rw [e2 hz]; exact h
  · intro x hx
    unfold ChainT.children at hx
    rw [e3 hz, List.append_nil, e1, leavesList_append] at hx
    rcases List.mem_append.1 hx with m | m
    · apply h x
      unfold ChainT.children
      rw [leavesList_append]
      exact List.mem_append_left _ m
    · exact hn x m

theorem ChainAvoids.avoids_take {k : NodeKind} {p q : ParserT} {c c' : ChainT} {kinds : KindMask}
    {allowWord took : Bool} {t : Token} (hc : ChainAvoids k c)
    (h : chain_take p c kinds allowWord = ok (took, t, c', q))
    (hE : hasKind kinds NK_EOF = false) (hk : hasKind kinds k = false) : ChainAvoids k c' := by
  rcases chain_take_spec h hE with ⟨_, h2, h3, _, _⟩ | ⟨_, _, h3, _, _⟩
  · rw [h3]
    apply hc.avoids_add
    intro x hx
    simp [NodeT.leaves.leavesList, NodeT.leaves] at hx
    rw [hx]
    exact hasKind_ne h2 hk
  · rw [h3]; exact hc

theorem ChainAvoids.avoids_leaves {k : NodeKind} {c c' : ChainT} {xs : List Token}
    {kinds : KindMask} (hc : ChainAvoids k c) (e : Ext c c' (xs.map NodeT.leaf))
    (hx : ∀ x ∈ xs, hasKind kinds x.kind = true) (hk : hasKind kinds k = false) :
    ChainAvoids k c' := by
  apply hc.avoids_ext e
  rw [leavesList_leaf]
  exact fun x m => hasKind_ne (hx x m) hk

theorem ChainAvoids.avoids_gobble {k : NodeKind} {fuel : Nat} {p q : ParserT} {c c' : ChainT}
    {alsoSkip : KindMask} {allowWord allowEOL cont : Bool} {t : Token} (hc : ChainAvoids k c)
    (h : chain_gobble_skip fuel p c alsoSkip allowWord allowEOL cont = ok (t, c', q))
    (hE : hasKind alsoSkip NK_EOF = false) (hk : hasKind (NK_SKIP :: alsoSkip) k = false) :
    ChainAvoids k c' := by
  obtain ⟨xs, _, e, hx, _⟩ := gobble_spec h hE
  exact hc.avoids_leaves e hx hk

theorem ChainAvoids.avoids_gobble_unless_eol {k : NodeKind} {fuel : Nat} {p q : ParserT}
    {c c' : ChainT} {token t : Token} {alsoSkip : KindMask} {allowWord : Bool}
    (hc : ChainAvoids k c)
    (h : gobble_unless_eol fuel p c token alsoSkip allowWord = ok (t, c', q))
    (hE : hasKind alsoSkip NK_EOF = false) (hk : hasKind (NK_SKIP :: alsoSkip) k = false) :
    ChainAvoids k c' := by
  obtain ⟨xs, _, e, hx⟩ := gobble_unless_eol_spec h hE
  exact hc.avoids_leaves e hx hk

theorem ChainAvoids.avoids_params {k : NodeKind} (kinds : KindMask) (hE : hasKind kinds NK_EOF = false)
    (hk : hasKind kinds k = false) :
    ∀ (fuel : Nat) (p q : ParserT) (c c' : ChainT) (t : Token), ChainAvoids k c →
      parse_section_params kinds fuel p c = ok (t, c', q) → ChainAvoids k c' := by
  intro fuel
  induction fuel with
  | zero => intro p q c c' t _ h; simp [parse_section_params] at h
  | succ n ih =>
    intro p q c c' t hc h
    rw [parse_section_params] at h
    obtain ⟨⟨took, tok, c1, p1⟩, h1, h⟩ := bind_eq_ok h
    simp only at h
    have hc1 := hc.avoids_take h1 hE hk
    cases took with
    | true =>
      simp only [if_true] at h
      exact ih p1 q c1 c' t hc1 h
    | false =>
      simp only [Bool.false_eq_true, if_false, ok.injEq, Prod.mk.injEq] at h
      rw [← h.2.1]; exact hc1

theorem ChainAvoids.avoids_list_loop {k : NodeKind} (ps : ParserT → Outcome (List NodeT × ParserT))
    (hps : ∀ p items q, ps p = ok (items, q) →
      ∀ x ∈ NodeT.leaves.leavesList items, x.kind ≠ k) :
    ∀ (fuel : Nat) (p q : ParserT) (c c' : ChainT), ChainAvoids k c →
      parser_parse_section_list_loop ps fuel p c = ok (c', q) → ChainAvoids k c' := by
  intro fuel
  induction fuel with
  | zero => intro p q c c' _ h; simp [parser_parse_section_list_loop] at h
  | succ n ih =>
    intro p q c c' hc h
    rw [parser_parse_section_list_loop] at h
    obtain ⟨⟨items, p1⟩, h1, h⟩ := bind_eq_ok h
    simp only at h
    cases items with
    | nil =>
      simp only [ok.injEq, Prod.mk.injEq] at h
      rw [← h.1]; exact hc
    | cons first siblings =>
      simp only at h
      exact ih p1 q _ c' (hc.avoids_add first siblings (hps p _ p1 h1)) h

theorem ChainAvoids.avoids_list_with {k : NodeKind} (ps : ParserT → Outcome (List NodeT × ParserT))
    (hps : ∀ p items q, ps p = ok (items, q) →
      ∀ x ∈ NodeT.leaves.leavesList items, x.kind ≠ k)
    {fuel : Nat} {p q : ParserT} {node : NodeT}
    (h : parse_section_list_with ps fuel p = ok (node, q)) : ∀ x ∈ node.leaves, x.kind ≠ k := by
  unfold parse_section_list_with at h
  obtain ⟨⟨c, p1⟩, h1, h⟩ := bind_eq_ok h
  simp only [ok.injEq, Prod.mk.injEq] at h
  rw [← h.1, leaves_chain]
  exact ChainAvoids.avoids_list_loop ps hps fuel p p1 init_chain c (ChainAvoids.avoids_init k) h1

/-- The tokens `parser_parse_section` puts in the tree have the kinds it asks
`chain_take` and `chain_gobble_skip` for: none has a kind `k` outside `WORD`,
`{`, `}`, `;`, `CONTENT`, `STRING`, `SKIP` and `alsoSkip`. -/
theorem section_avoids (alsoSkip : KindMask) (k : NodeKind)
    (hE : hasKind alsoSkip NK_EOF = false)
    (hk : hasKind (NK_WORD :: NK_LB :: NK_RB :: NK_SEMI :: NK_CONTENT :: NK_STRING :: NK_SKIP
      :: alsoSkip) k = false) :
    ∀ (fuel : Nat) (p : ParserT) (items : List NodeT) (q : ParserT),
      parser_parse_section fuel p alsoSkip = ok (items, q) →
      ∀ x ∈ NodeT.leaves.leavesList items, x.kind ≠ k := by
  have hE3 : hasKind (NK_CONTENT :: NK_STRING :: NK_SKIP :: alsoSkip) NK_EOF = false := by
    rw [hasKind_params, hasKind_cons, hE]; rfl
  rw [hasKind_cons, hasKind_cons, hasKind_cons, hasKind_cons] at hk
  simp only [Bool.or_eq_false_iff, decide_eq_false_iff_not] at hk
  obtain ⟨kW, kL, kR, kS, hK⟩ := hk
  have hG : hasKind (NK_SKIP :: alsoSkip) k = false := by
    rw [hasKind_params] at hK
    simp only [Bool.or_eq_false_iff] at hK
    exact hK.2
  have hone : ∀ k2 : NodeKind, k ≠ k2 → hasKind [k2] k = false := by
    intro k2 h
    simp [hasKind, h]
  intro fuel
  induction fuel with
  | zero => intro p items q h; simp [parser_parse_section] at h
  | succ n ih =>
    intro p items q h
    rw [section_unfold] at h
    obtain ⟨⟨token, p1⟩, h1, h⟩ := bind_eq_ok h
    obtain ⟨a1, hh1⟩ := peek_spec h1
    simp only at h
    by_cases c1 : (hasKind (NK_SKIP :: alsoSkip) token.kind && token.ends_line) = true
    · rw [if_pos c1] at h
      simp only [ok.injEq, Prod.mk.injEq] at h
      have hkk : hasKind (NK_SKIP :: alsoSkip) token.kind = true := by
        simp only [Bool.and_eq_true] at c1; exact c1.1
      have hv : (consume_token p1).1 = some token := hh1.2
      rw [hv] at h
      rw [← h.1]
      intro x hx
      simp [NodeT.leaves.leavesList, NodeT.leaves] at hx
      rw [hx]
      exact hasKind_ne hkk hG
    rw [if_neg c1] at h
    by_cases c2 : (decide (token.kind = NK_BREAK) && !hasKind alsoSkip NK_BREAK) = true
    · rw [if_pos c2] at h
      simp only [ok.injEq, Prod.mk.injEq] at h
      rw [← h.1]
      intro x hx; simp [NodeT.leaves.leavesList] at hx
    rw [if_neg c2] at h
    by_cases c3 : token.kind = NK_EOF
    · rw [if_pos c3] at h
      simp only [ok.injEq, Prod.mk.injEq] at h
      rw [← h.1]
      intro x hx; simp [NodeT.leaves.leavesList] at hx
    rw [if_neg c3] at h
    obtain ⟨⟨tok2, c2', p2⟩, h2, h⟩ := bind_eq_ok h
    simp only at h
    have v2 := (ChainAvoids.avoids_init k).avoids_gobble h2 hE hG
    by_cases c4 : tok2.kind = NK_RB
    · rw [if_pos c4] at h
      simp only [ok.injEq, Prod.mk.injEq] at h
      rw [← h.1]
      exact v2
    rw [if_neg c4] at h
    obtain ⟨⟨took3, tok3, c3', p3⟩, h3, h⟩ := bind_eq_ok h
    simp only at h
    have v3 := v2.avoids_take h3 (by decide) (hone _ kW)
    by_cases c5 : (!took3) = true
    · rw [if_pos c5] at h; simp at h
    rw [if_neg c5] at h
    obtain ⟨ok0, h4, h⟩ := bind_eq_ok h
    obtain ⟨⟨tok5, c5', p5⟩, h5, h⟩ := bind_eq_ok h
    simp only at h
    have v5 := v3.avoids_gobble h5 hE hG
    obtain ⟨⟨took6, tok6, c6', p6⟩, h6, h⟩ := bind_eq_ok h
    simp only at h
    have v6 := v5.avoids_take h6 hE3 hK
    obtain ⟨⟨ok7, tok7, c7', p7⟩, h7, h⟩ := bind_eq_ok h
    simp only at h
    have v7 : ChainAvoids k c7' := by
      by_cases c6 : took6 = true
      · rw [if_pos c6] at h7
        have h7' : ∃ y, (if (!y) = true then
              (error ErrorT.directive_and_parameter_invalid tok3.line
                : Outcome (Bool × Token × ChainT × ParserT))
            else do
              let r ← parse_section_params
                (NK_CONTENT :: NK_STRING :: NK_SKIP :: alsoSkip) n p6 c6'
              ok (y, r.1, r.2.1, r.2.2)) = ok (ok7, tok7, c7', p7) := by
          by_cases c7 : ok0 = true
          · rw [if_pos c7] at h7
            exact ⟨true, h7⟩
          · rw [if_neg c7] at h7
            obtain ⟨y, _, hy⟩ := bind_eq_ok h7
            exact ⟨y, hy⟩
        obtain ⟨y, hy⟩ := h7'
        by_cases c8 : (!y) = true
        · rw [if_pos c8] at hy; simp at hy
        · rw [if_neg c8] at hy
          obtain ⟨⟨tok8, c8', p8⟩, h8, hy⟩ := bind_eq_ok hy
          simp only [ok.injEq, Prod.mk.injEq] at hy
          obtain ⟨_, _, e3, _⟩ := hy
          subst e3
          exact ChainAvoids.avoids_params _ hE3 hK n p6 p8 c6' c8' tok8 v6 h8
      · rw [if_neg c6] at h7
        simp only [ok.injEq, Prod.mk.injEq] at h7
        obtain ⟨_, _, e3, _⟩ := h7
        subst e3
        exact v6
    by_cases c9 : (!ok7) = true
    · rw [if_pos c9] at h; simp at h
    rw [if_neg c9] at h
    unfold section_terminator at h
    obtain ⟨⟨tok10, c10, p10⟩, h10, h⟩ := bind_eq_ok h
    simp only at h
    have v10 : ChainAvoids k c10 := by
      by_cases d1 : tok7.kind = NK_LB
      · rw [if_pos d1] at h10
        obtain ⟨⟨took11, tok11, c11, p11⟩, h11, h10⟩ := bind_eq_ok h10
        simp only at h10
        obtain ⟨⟨tok12, c12, p12⟩, h12, h10⟩ := bind_eq_ok h10
        simp only at h10
        obtain ⟨⟨list, p13⟩, h13, h10⟩ := bind_eq_ok h10
        simp only at h10
        obtain ⟨⟨took14, tok14, c14, p14⟩, h14, h10⟩ := bind_eq_ok h10
        simp only at h10
        by_cases d2 : (!took14) = true
        · rw [if_pos d2] at h10; simp at h10
        rw [if_neg d2] at h10
        simp only [ok.injEq, Prod.mk.injEq] at h10
        obtain ⟨_, e2, _⟩ := h10
        subst e2
        have vl := ChainAvoids.avoids_list_with _ (fun p items q => ih p items q) h13
        have v12 := (v7.avoids_take h11 (by decide) (hone _ kL)).avoids_gobble_unless_eol h12 hE hG
        have v13 : ChainAvoids k (chain_add c12 list []) := by
          apply v12.avoids_add
          intro x hx
          simp only [NodeT.leaves.leavesList, List.append_nil] at hx
          exact vl x hx
        exact v13.avoids_take h14 (by decide) (hone _ kR)
      · rw [if_neg d1] at h10
        by_cases d3 : tok7.kind = NK_SEMI
        · rw [if_pos d3] at h10
          obtain ⟨⟨took11, tok11, c11, p11⟩, h11, h10⟩ := bind_eq_ok h10
          simp only [ok.injEq, Prod.mk.injEq] at h10
          obtain ⟨_, e2, _⟩ := h10
          subst e2
          exact v7.avoids_take h11 (by decide) (hone _ kS)
        · rw [if_neg d3] at h10
          by_cases d4 : tok7.kind ≠ NK_BREAK
          · rw [if_pos d4] at h10; simp at h10
          · rw [if_neg d4] at h10
            simp only [ok.injEq, Prod.mk.injEq] at h10
            obtain ⟨_, e2, _⟩ := h10
            subst e2
            exact v7
    obtain ⟨⟨tok15, c15, p15⟩, h15, h⟩ := bind_eq_ok h
    simp only [ok.injEq, Prod.mk.injEq] at h
    obtain ⟨e1, _⟩ := h
    subst e1
    have v15 := v10.avoids_gobble_unless_eol h15 hE hG
    intro x hx
    simp only [NodeT.leaves.leavesList, leaves_chain, List.append_nil] at hx
    exact v15 x hx

/-- With `allowEOL` true, `skip_tokens` returns a lookahead outside `kinds`. -/
theorem skip_loop_stops (allowWord : Bool) (kinds : KindMask) :
    ∀ (fuel : Nat) (p q : ParserT) (t t2 : Token),
      skip_tokens_loop allowWord kinds true fuel p t = ok (t2, q) →
      hasKind kinds t2.kind = false := by
  intro fuel
  induction fuel with
  | zero => intro p q t t2 h; simp [skip_tokens_loop] at h
  | succ n ih =>
    intro p q t t2 h
    rw [skip_tokens_loop] at h
    by_cases hc : (hasKind kinds t.kind && (true || !t.ends_line)) = true
    · rw [if_pos hc] at h
      simp only at h
      cases hp : peek (release_node (consume_token p).2 t) allowWord with
      | ok a =>
        rcases a with ⟨t3, p3⟩
        rw [hp] at h
        exact ih p3 q t3 t2 h
      | error e l => rw [hp] at h; simp at h
      | crash => rw [hp] at h; simp at h
      | timeout => rw [hp] at h; simp at h
    · rw [if_neg hc] at h
      simp only [ok.injEq, Prod.mk.injEq] at h
      rw [← h.1]
      simpa using hc

theorem skip_tokens_stops {fuel : Nat} {p q : ParserT} {allowWord : Bool} {kinds : KindMask}
    {t : Token} (h : skip_tokens fuel p allowWord kinds true = ok (t, q)) :
    hasKind kinds t.kind = false := by
  unfold skip_tokens at h
  obtain ⟨⟨t0, p1⟩, _, h2⟩ := bind_eq_ok h
  exact skip_loop_stops allowWord kinds fuel p1 q t0 t h2

/-- `take_token` with `failOnError` 0: the tokens skipped are consumed and
released; the token returned, if any, is consumed and has a kind of `kinds`;
when NULL is returned the lookahead has no kind of `kinds`. -/
theorem take_token_spec {fuel : Nat} {p q : ParserT} {allowWord allowEOL : Bool}
    {kinds skips : KindMask} {r : Option Token}
    (h : take_token fuel p allowWord kinds skips allowEOL false = ok (r, q))
    (hE : hasKind skips NK_EOF = false) (hK : hasKind kinds NK_EOF = false) :
    ∃ sk, (∀ x ∈ sk, hasKind skips x.kind = true) ∧
      ((r = none ∧ Adv p q sk sk ∧ ∃ t, Holds q t ∧ hasKind kinds t.kind = false
          ∧ (allowEOL = true → hasKind skips t.kind = false))
        ∨ (∃ t, r = some t ∧ hasKind kinds t.kind = true ∧ Adv p q (sk ++ [t]) sk)) := by
  unfold take_token at h
  obtain ⟨⟨t, p1⟩, h1, h2⟩ := bind_eq_ok h
  obtain ⟨sk, a, hs, hh⟩ := skip_tokens_spec h1 hE
  refine ⟨sk, hs, ?_⟩
  simp only at h2
  cases hk : hasKind kinds t.kind with
  | false =>
    simp only [hk, Bool.not_false, if_true, Bool.false_eq_true, if_false, ok.injEq,
      Prod.mk.injEq] at h2
    left
    refine ⟨h2.1.symm, by rw [← h2.2]; exact a, t, by rw [← h2.2]; exact hh, hk, ?_⟩
    intro he
    subst he
    exact skip_tokens_stops h1
  | true =>
    simp only [hk, Bool.not_true, Bool.false_eq_true, if_false, ok.injEq] at h2
    right
    have hne : t.kind ≠ NK_EOF := hasKind_ne hk hK
    obtain ⟨a2, hv, _⟩ := consume_spec hh hne
    have e1 : r = some t := by
      have := congrArg Prod.fst h2
      simp only at this
      rw [← this, hv]
    have e2 : q = (consume_token p1).2 := by
      have := congrArg Prod.snd h2
      simp only at this
      exact this.symm
    refine ⟨t, e1, hk, ?_⟩
    rw [e2]
    simpa using a.adv_trans a2

theorem not_marker_of_kind {t : Token} (h : t.kind ≠ NK_BREAK) : is_marker t = false := by
  simp [is_marker, h]

theorem filter_marker_nil {xs : List Token} (h : ∀ x ∈ xs, x.kind ≠ NK_BREAK) :
    xs.filter is_marker = [] := by
  rw [List.filter_eq_nil_iff]
  intro x hx
  rw [not_marker_of_kind (h x hx)]
  exact Bool.false_ne_true

theorem skips_not_break {sk : List Token} (h : ∀ x ∈ sk, hasKind [NK_SKIP] x.kind = true) :
    ∀ x ∈ sk, x.kind ≠ NK_BREAK := by
  intro x hx
  rw [hasKind_single (h x hx)]
  decide

/-- `parser_parse_pair` consumes no `BREAK` token. -/
theorem pair_spec {fuel : Nat} {p q : ParserT} {r : Option BindingT}
    (h : parser_parse_pair fuel p = ok (r, q)) :
    ∃ cs rs, Adv p q cs rs ∧ ∀ x ∈ cs, x.kind ≠ NK_BREAK := by
  unfold parser_parse_pair at h
  obtain ⟨⟨name, p1⟩, h1, h⟩ := bind_eq_ok h
  obtain ⟨sk1, hs1, h1c⟩ := take_token_spec h1 (by decide) (by decide)
  simp only at h
  rcases h1c with ⟨e, a1, _⟩ | ⟨t, e, hk, a1⟩
  · subst e
    simp only [ok.injEq, Prod.mk.injEq] at h
    rw [← h.2]
    exact ⟨sk1, sk1, a1, skips_not_break hs1⟩
  · subst e
    simp only at h
    obtain ⟨⟨value, p2⟩, h2, h⟩ := bind_eq_ok h
    obtain ⟨sk2, hs2, h2c⟩ := take_token_spec h2 (by decide) (by decide)
    simp only at h
    obtain ⟨p3, h3, h⟩ := bind_eq_ok h
    obtain ⟨ntext, _, h⟩ := bind_eq_ok h
    simp only [ok.injEq, Prod.mk.injEq] at h
    have ht : t.kind ≠ NK_BREAK := by rw [hasKind_single hk]; decide
    have a2 : ∃ cs2 rs2, Adv p1 p2 cs2 rs2 ∧ ∀ x ∈ cs2, x.kind ≠ NK_BREAK := by
      rcases h2c with ⟨_, a2, _⟩ | ⟨v, _, hkv, a2⟩
      · exact ⟨_, _, a2, skips_not_break hs2⟩
      · refine ⟨_, _, a2, ?_⟩
        intro x hx
        rcases List.mem_append.1 hx with m | m
        · exact skips_not_break hs2 x m
        · rw [List.mem_singleton.1 m, hasKind_single hkv]; decide
    obtain ⟨cs2, rs2, a2, k2⟩ := a2
    have a3 : ∃ cs3 rs3, Adv p2 p3 cs3 rs3 ∧ ∀ x ∈ cs3, x.kind ≠ NK_BREAK := by
      cases value with
      | none =>
        simp only [ok.injEq] at h3
        rw [← h3]
        exact ⟨[], [], Adv.adv_refl p2, by simp⟩
      | some v =>
        simp only at h3
        by_cases hv : (!v.ends_line) = true
        · rw [if_pos hv] at h3
          obtain ⟨⟨t4, p4⟩, h4, h3⟩ := bind_eq_ok h3
          simp only [ok.injEq] at h3
          obtain ⟨sk4, a4, hs4, _⟩ := skip_tokens_spec h4 (by decide)
          rw [← h3]
          exact ⟨sk4, sk4, a4, skips_not_break hs4⟩
        · rw [if_neg hv] at h3
          simp only [ok.injEq] at h3
          rw [← h3]
          exact ⟨[], [], Adv.adv_refl p2, by simp⟩
    obtain ⟨cs3, rs3, a3, k3⟩ := a3
    have a5 : ∃ rs5, Adv p3 q [] rs5 := by
      rw [← h.2]
      cases value with
      | none => exact ⟨_, release_spec p3 t⟩
      | some v =>
        exact ⟨_, by simpa using (release_spec p3 t).adv_trans (release_spec _ v)⟩
    obtain ⟨rs5, a5⟩ := a5
    refine ⟨_, _, ((a1.adv_trans a2).adv_trans a3).adv_trans a5, ?_⟩
    intro x hx
    simp only [List.append_nil, List.mem_append, List.mem_singleton] at hx
    rcases hx with ((m | m) | m) | m
    · exact skips_not_break hs1 x m
    · rw [m]; exact ht
    · exact k2 x m
    · exact k3 x m

theorem pairs_spec :
    ∀ (fuel : Nat) (p q : ParserT) (list list2 : List BindingT),
      parse_template_pairs fuel p list = ok (list2, q) →
      ∃ cs rs, Adv p q cs rs ∧ ∀ x ∈ cs, x.kind ≠ NK_BREAK := by
  intro fuel
  induction fuel with
  | zero => intro p q list list2 h; simp [parse_template_pairs] at h
  | succ n ih =>
    intro p q list list2 h
    rw [parse_template_pairs] at h
    obtain ⟨⟨item, p1⟩, h1, h⟩ := bind_eq_ok h
    obtain ⟨cs1, rs1, a1, k1⟩ := pair_spec h1
    simp only at h
    cases item with
    | none =>
      simp only [ok.injEq, Prod.mk.injEq] at h
      rw [← h.2]
      exact ⟨cs1, rs1, a1, k1⟩
    | some b =>
      simp only at h
      obtain ⟨cs2, rs2, a2, k2⟩ := ih p1 q _ list2 h
      refine ⟨_, _, a1.adv_trans a2, ?_⟩
      intro x hx
      rcases List.mem_append.1 hx with m | m
      · exact k1 x m
      · exact k2 x m

theorem extract_prefix_head {text s : CStr} (h : extract_prefix text = some s) :
    charAt text 0 = '=' := by
  unfold extract_prefix at h
  by_cases h0 : charAt text 0 ≠ '='
  · rw [if_pos h0] at h; exact Option.noConfusion h
  · exact not_not.1 h0

/-- A section list of a template (`alsoSkip` = 0) consumes exactly its leaves,
none of them a `BREAK` token. -/
theorem template_list_spec {fuel : Nat} {p q : ParserT} {node : NodeT}
    (h : parser_parse_section_list fuel p [] = ok (node, q)) :
    Adv p q node.leaves [] ∧ node.leaves.filter is_marker = [] := by
  unfold parser_parse_section_list at h
  refine ⟨(section_list_with_spec _ (section_spec [] (by decide) (by decide) fuel) h).1, ?_⟩
  exact filter_marker_nil (ChainAvoids.avoids_list_with _
    (section_avoids [] NK_BREAK (by decide) (by decide) fuel) h)

theorem take_break_spec {fuel : Nat} {p q : ParserT} {r : Option Token}
    (h : take_token fuel p false [NK_BREAK] [NK_SKIP] true false = ok (r, q)) :
    ∃ sk rs, Adv p q (sk ++ r.toList) rs ∧ sk.filter is_marker = []
      ∧ (∀ x ∈ sk, x.kind = NK_SKIP) ∧ (∀ m, r = some m → m.kind = NK_BREAK)
      ∧ (r = none → ∃ t, Holds q t ∧ t.kind ≠ NK_BREAK ∧ t.kind ≠ NK_SKIP) := by
  obtain ⟨sk, hs, hc⟩ := take_token_spec h (by decide) (by decide)
  have hsk : ∀ x ∈ sk, x.kind = NK_SKIP := fun x hx => hasKind_single (hs x hx)
  rcases hc with ⟨e, a, t, ht, hk, hk2⟩ | ⟨t, e, hk, a⟩
  · subst e
    refine ⟨sk, sk, by simpa using a, filter_marker_nil (skips_not_break hs), hsk,
      fun m hm => Option.noConfusion hm, fun _ => ⟨t, ht, ?_, ?_⟩⟩
    · intro e; rw [e] at hk; exact absurd hk (by decide)
    · intro e; have := hk2 rfl; rw [e] at this; exact absurd this (by decide)
  · subst e
    refine ⟨sk, sk, a, filter_marker_nil (skips_not_break hs), hsk, ?_,
      fun e => Option.noConfusion e⟩
    intro m hm
    simp only [Option.some.injEq] at hm
    rw [← hm]
    exact hasKind_single hk

/-- The loop of lines 411-433: one template is put in front of the list per
marker token, those being the token the loop is entered with and the marker
tokens consumed by the loop. -/
theorem groups_spec :
    ∀ (fuel : Nat) (p q : ParserT) (tok : Option Token) (tail : Option NodeT)
      (t ts : List TemplateT),
      parse_template_groups fuel p tok tail t = ok (ts, q) →
      (∀ m, tok = some m → m.kind = NK_BREAK) →
      ∃ cs rs new, Adv p q cs rs ∧ ts = new ++ t
        ∧ new.map TemplateT.pfx
          = (((tok.toList ++ cs).filter is_marker).map marker_pfx).reverse
        ∧ ∀ m ∈ (tok.toList ++ cs).filter is_marker,
            ∃ text, m.text = some text ∧ marker_line text := by
  intro fuel
  induction fuel with
  | zero => intro p q tok tail t ts h; simp [parse_template_groups] at h
  | succ n ih =>
    intro p q tok tail t ts h hb
    cases tok with
    | none =>
      rw [parse_template_groups] at h
      simp only [ok.injEq, Prod.mk.injEq] at h
      rw [← h.1, ← h.2]
      exact ⟨[], [], [], Adv.adv_refl p, rfl, rfl, by simp⟩
    | some m =>
      rw [parse_template_groups] at h
      obtain ⟨text, h0, h⟩ := bind_eq_ok h
      have hmt : m.text = some text := deref_ok h0
      cases hx : extract_prefix text with
      | none => rw [hx] at h; simp at h
      | some pf =>
        rw [hx] at h
        simp only at h
        obtain ⟨⟨head, p1⟩, h1, h⟩ := bind_eq_ok h
        obtain ⟨a1, f1⟩ := template_list_spec h1
        simp only at h
        obtain ⟨⟨tk, p2⟩, h2, h⟩ := bind_eq_ok h
        obtain ⟨sk2, rs2, a2, f2, _, b2, _⟩ := take_break_spec h2
        simp only at h
        obtain ⟨⟨tk3, tail3, p3⟩, h3, h⟩ := bind_eq_ok h
        simp only at h
        have hm : is_marker m = true := by
          simp [is_marker, hb m rfl, hmt, extract_prefix_head hx]
        have hmp : marker_pfx m = pf := by
          simp [marker_pfx, hmt, hx]
        have hml : marker_line text := by
          by_contra hc
          rw [(extract_prefix_none_iff text).2 hc] at hx
          exact Option.noConfusion hx
        have a0 := release_spec p m
        have key : ∃ cs3 rs3, Adv p2 p3 cs3 rs3 ∧ (∀ m3, tk3 = some m3 → m3.kind = NK_BREAK)
            ∧ (tk.toList ++ cs3).filter is_marker = tk3.toList.filter is_marker := by
          cases tk with
          | none =>
            simp only [ok.injEq, Prod.mk.injEq] at h3
            rw [← h3.1, ← h3.2.2]
            exact ⟨[], [], Adv.adv_refl p2, fun m3 e => Option.noConfusion e, by simp⟩
          | some tk =>
            simp only at h3
            obtain ⟨text2, h30, h3⟩ := bind_eq_ok h3
            have ht2 : tk.text = some text2 := deref_ok h30
            by_cases hc : charAt text2 0 ≠ '='
            · rw [if_pos hc] at h3
              obtain ⟨⟨tl, p4⟩, h4, h3⟩ := bind_eq_ok h3
              obtain ⟨a4, f4⟩ := template_list_spec h4
              simp only at h3
              obtain ⟨⟨tk5, p5⟩, h5, h3⟩ := bind_eq_ok h3
              obtain ⟨sk5, rs5, a5, f5, _, b5, _⟩ := take_break_spec h5
              simp only [ok.injEq, Prod.mk.injEq] at h3
              obtain ⟨e1, _, e3⟩ := h3
              subst e1 e3
              have hntk : is_marker tk = false := by
                simp [is_marker, ht2, hc]
              refine ⟨_, _, ((release_spec p2 tk).adv_trans a4).adv_trans a5, b5, ?_⟩
              simp [List.filter_append, f4, f5, hntk, List.filter_cons]
            · rw [if_neg hc] at h3
              simp only [ok.injEq, Prod.mk.injEq] at h3
              obtain ⟨e1, _, e3⟩ := h3
              subst e1 e3
              exact ⟨[], [], Adv.adv_refl p2, b2, by simp⟩
        obtain ⟨cs3, rs3, a3, b3, f3⟩ := key
        obtain ⟨cs4, rs4, new4, a4, e4, m4, l4⟩ := ih p3 q tk3 tail3 _ ts h b3
        have hfil : (([m] : List Token) ++ ([] ++ head.leaves ++ (sk2 ++ tk.toList) ++ cs3
            ++ cs4)).filter is_marker = m :: (tk3.toList ++ cs4).filter is_marker := by
          have e : ([] ++ head.leaves ++ (sk2 ++ tk.toList) ++ cs3 ++ cs4)
              = head.leaves ++ sk2 ++ ((tk.toList ++ cs3) ++ cs4) := by
            simp [List.append_assoc]
          rw [e]
          simp only [List.filter_append, f1, f2, f3, List.nil_append, List.filter_cons, hm,
            if_true, List.singleton_append, List.filter_nil, List.cons_append]
        refine ⟨_, _, new4 ++ [⟨pf, head, tail3⟩],
          (((a0.adv_trans a1).adv_trans a2).adv_trans a3).adv_trans a4, ?_, ?_, ?_⟩
        · rw [e4]; simp
        · show _ = (List.map marker_pfx (List.filter is_marker
            (([m] : List Token) ++ ([] ++ head.leaves ++ (sk2 ++ tk.toList) ++ cs3
              ++ cs4)))).reverse
          rw [hfil]
          simp [m4, hmp]
        · show ∀ m2 ∈ List.filter is_marker
            (([m] : List Token) ++ ([] ++ head.leaves ++ (sk2 ++ tk.toList) ++ cs3 ++ cs4)), _
          rw [hfil]
          intro m2 hm2
          rcases List.mem_cons.1 hm2 with e | e
          · rw [e]; exact ⟨text, hmt, hml⟩
          · exact l4 m2 e

theorem dropWhile_skips (sk R : List Token) (hs : ∀ x ∈ sk, x.kind = NK_SKIP)
    (hR : ∀ t, R.head? = some t → t.kind ≠ NK_SKIP) :
    (sk ++ R).dropWhile (fun t => decide (t.kind = NK_SKIP)) = R := by
  induction sk with
  | nil =>
    cases R with
    | nil => rfl
    | cons t R =>
      have := hR t rfl
      simp [List.dropWhile_cons, this]
  | cons x sk ih =>
    have hx := hs x (List.mem_cons_self _ _)
    simp only [List.cons_append, List.dropWhile_cons, hx, decide_True, if_true]
    exact ih (fun y hy => hs y (List.mem_cons_of_mem _ hy))

theorem template_markers_break (sk R : List Token) (b : Token)
    (hs : ∀ x ∈ sk, x.kind = NK_SKIP) (hb : b.kind = NK_BREAK) :
    template_markers (sk ++ b :: R) = R.filter is_marker := by
  unfold template_markers
  rw [dropWhile_skips sk (b :: R) hs (by intro t ht; simp at ht; rw [← ht, hb]; decide)]
  simp [hb]

theorem template_markers_other (sk R : List Token) (hs : ∀ x ∈ sk, x.kind = NK_SKIP)
    (hR : ∀ t, R.head? = some t → t.kind ≠ NK_SKIP ∧ t.kind ≠ NK_BREAK) :
    template_markers (sk ++ R) = R.filter is_marker := by
  unfold template_markers
  rw [dropWhile_skips sk R hs (fun t ht => (hR t ht).1)]
  cases R with
  | nil => rfl
  | cons t R => simp [(hR t rfl).2]

theorem head_of_stream {p q : ParserT} {cs rs : List Token} {t : Token}
    (a : Adv p q cs rs) (h : Holds p t) : ∀ x, cs.head? = some x → x = t := by
  intro x hx
  obtain ⟨k, hk⟩ := a.stream
  cases cs with
  | nil => simp at hx
  | cons y cs =>
    simp only [List.head?_cons, Option.some.injEq] at hx
    have e : ahead p = t :: p.scanner.input := by
      unfold ahead
      rw [h.1, h.2]
      rfl
    rw [e] at hk
    simp only [List.cons_append, List.cons.injEq] at hk
    rw [← hx, hk.1]

/-- C13, counterexample: a template stream that is one marker line, and one of
two marker lines followed by a section. The first marker token is the `BREAK`
token that line 401 discards: the parse succeeds with no template for the
first stream and with one template for the second. -/
theorem template_marker_counterexample :
    parse_template 6 [] ⟨[⟨NK_BREAK, some "=== host a".toList, 1, true⟩], 2⟩ = ok ([], []) ∧
    marker_line "=== host a".toList ∧
    parse_template 6 [] ⟨[⟨NK_BREAK, some "=== host a".toList, 1, true⟩,
        ⟨NK_BREAK, some "=== host b".toList, 2, true⟩,
        ⟨NK_WORD, some "x".toList, 3, false⟩, ⟨NK_SEMI, none, 3, true⟩], 4⟩
      = ok ([⟨[], NodeT.chain [NodeT.chain [NodeT.leaf ⟨NK_WORD, some "x".toList, 3, false⟩,
          NodeT.leaf ⟨NK_SEMI, none, 3, true⟩]], none⟩], []) ∧
    marker_line "=== host b".toList := by
  exact ⟨by rfl, ⟨by rfl, ' ', "a".toList, Or.inl rfl, by rfl⟩, by rfl,
    ⟨by rfl, ' ', "b".toList, Or.inl rfl, by rfl⟩⟩

/-- `parser_parse_template`: the templates returned, against the marker tokens
among the tokens consumed after the token that line 401 may discard. -/
theorem template_spec {fuel : Nat} {p q : ParserT} {ts : List TemplateT}
    {list : List BindingT} (h : parser_parse_template fuel p = ok (ts, list, q)) :
    ∃ cs rs, Adv p q cs rs
      ∧ ts.map TemplateT.pfx = ((template_markers cs).map marker_pfx).reverse
      ∧ ∀ m ∈ template_markers cs, ∃ text, m.text = some text ∧ marker_line text := by
  unfold parser_parse_template at h
  obtain ⟨⟨first, p1⟩, h1, h⟩ := bind_eq_ok h
  obtain ⟨sk1, rs1, a1, _, s1, b1, n1⟩ := take_break_spec h1
  simp only at h
  obtain ⟨⟨list2, p2⟩, h2, h⟩ := bind_eq_ok h
  obtain ⟨cs2, rs2, a2, k2⟩ := pairs_spec fuel _ p2 [] list2 h2
  simp only at h
  obtain ⟨⟨tok, p3⟩, h3, h⟩ := bind_eq_ok h
  obtain ⟨sk3, rs3, a3, f3, _, b3, _⟩ := take_break_spec h3
  simp only at h
  obtain ⟨⟨ts4, p4⟩, h4, h⟩ := bind_eq_ok h
  obtain ⟨cs4, rs4, new, a4, e4, m4, l4⟩ := groups_spec fuel p3 p4 tok none [] ts4 h4 b3
  simp only [ok.injEq, Prod.mk.injEq] at h
  obtain ⟨e1, _, e3⟩ := h
  subst e1 e3
  have a0 : ∃ rs0, Adv p1 (release_node_opt p1 first) [] rs0 := by
    cases first with
    | none => exact ⟨[], Adv.adv_refl p1⟩
    | some b => exact ⟨[b], release_spec p1 b⟩
  obtain ⟨rs0, a0⟩ := a0
  have aR := ((a0.adv_trans a2).adv_trans a3).adv_trans a4
  have fR : ([] ++ cs2 ++ (sk3 ++ tok.toList) ++ cs4).filter is_marker
      = (tok.toList ++ cs4).filter is_marker := by
    simp [List.filter_append, filter_marker_nil k2, f3]
  have key : template_markers (sk1 ++ first.toList ++ ([] ++ cs2 ++ (sk3 ++ tok.toList) ++ cs4))
      = (tok.toList ++ cs4).filter is_marker := by
    rw [← fR]
    cases first with
    | some b =>
      have := template_markers_break sk1 ([] ++ cs2 ++ (sk3 ++ tok.toList) ++ cs4) b s1
        (b1 b rfl)
      simpa using this
    | none =>
      obtain ⟨t0, ht0, hk1, hk2⟩ := n1 rfl
      have hd := head_of_stream aR ht0
      have := template_markers_other sk1 ([] ++ cs2 ++ (sk3 ++ tok.toList) ++ cs4) s1
        (fun t ht => by rw [hd t ht]; exact ⟨hk2, hk1⟩)
      simpa using this
  refine ⟨_, _, a1.adv_trans aR, ?_, ?_⟩
  · rw [key, ← m4, e4]; simp
  · rw [key]; exact l4

theorem section_unfold_directive (fuel : Nat) (p : ParserT) (alsoSkip : KindMask) :
    parser_parse_section (fuel + 1) p alsoSkip = (do
      let (token, p) ← peek p true
      if hasKind (NK_SKIP :: alsoSkip) token.kind && token.ends_line then
        let r := consume_token p
        ok ((r.1.map NodeT.leaf).toList, r.2)
      else if token.kind = NK_BREAK && !hasKind alsoSkip NK_BREAK then ok ([], p)
      else if token.kind = NK_EOF then ok ([], p)
      else
        let c := init_chain
        let (token, c, p) ← chain_gobble_skip fuel p c alsoSkip true false false
        if token.kind = NK_RB then ok (c.children, p)
        else
          let (took, token, c, p) ← chain_take p c [NK_WORD] true
          if !took then error ErrorT.directive_expected token.line
          else section_directive fuel p c token alsoSkip) := by
  rw [section_unfold]
  rfl

theorem At.wf_rest {L cs L2 : List Token} (h : WordsHaveText L) (e : L = cs ++ L2) :
    WordsHaveText L2 :=
  fun t ht => h t (by rw [e]; exact List.mem_append_right _ ht)

theorem At.of_fresh {el : Nat} {p : ParserT} {L : List Token} (h : Fresh p L)
    (e : p.scanner.eof_line = el) : At el p L := ⟨e, Or.inl h⟩

theorem At.of_reads {el : Nat} {p : ParserT} {L : List Token} (h : Reads p L)
    (e : p.scanner.eof_line = el) : At el p L := ⟨e, Or.inr h⟩

theorem At.at_peek {el : Nat} {p : ParserT} {L : List Token} (h : At el p L) (allowWord : Bool) :
    ∃ q, peek p allowWord = ok (next_of L el, q) ∧ Reads q L ∧ q.scanner.eof_line = el
      ∧ q.consumed = p.consumed := by
  obtain ⟨e, h | h⟩ := h
  · obtain ⟨q, h1, r1, e1, _, d1⟩ := peek_fresh_keeps h allowWord
    exact ⟨q, by rw [← e]; exact h1, r1, by rw [e1, e], d1⟩
  · exact ⟨p, by rw [← e]; exact peek_reads h allowWord, h, e, rfl⟩

/-- `chain_take` at a stream: it takes the first token when its kind is asked
for, and otherwise leaves it buffered. -/
theorem At.at_take {el : Nat} {p : ParserT} {L : List Token} (h : At el p L) (c : ChainT)
    (kinds : KindMask) (hE : hasKind kinds NK_EOF = false) (allowWord : Bool) :
    (∃ t L2 q, L = t :: L2 ∧ hasKind kinds t.kind = true
        ∧ chain_take p c kinds allowWord = ok (true, t, chain_add c (NodeT.leaf t) [], q)
        ∧ Fresh q L2 ∧ q.scanner.eof_line = el ∧ q.consumed = p.consumed ++ [t])
    ∨ (∃ q, hasKind kinds (next_of L el).kind = false
        ∧ chain_take p c kinds allowWord = ok (false, next_of L el, c, q)
        ∧ Reads q L ∧ q.scanner.eof_line = el ∧ q.consumed = p.consumed) := by
  obtain ⟨e, h⟩ := h
  cases hk : hasKind kinds (next_of L el).kind with
  | false =>
    right
    obtain ⟨q, h1, r1, e1, _, d1⟩ := chain_take_miss_any h c kinds (by rw [e]; exact hk)
      allowWord
    exact ⟨q, rfl, by rw [← e]; exact h1, r1, by rw [e1, e], d1⟩
  | true =>
    left
    cases L with
    | nil =>
      have : hasKind kinds NK_EOF = true := hk
      rw [hE] at this
      exact Bool.noConfusion this
    | cons t L2 =>
      obtain ⟨q, h1, r1, e1, _, d1⟩ := chain_take_hit_any h c kinds hk allowWord
      exact ⟨t, L2, q, rfl, hk, h1, r1, by rw [e1, e], d1⟩

theorem gobble_taken_prefix (alsoSkip : KindMask) (allowEOL cont : Bool) (L : List Token) :
    L = gobble_taken alsoSkip allowEOL cont L
      ++ L.drop (gobble_taken alsoSkip allowEOL cont L).length := by
  induction L with
  | nil => simp [gobble_taken]
  | cons t L ih =>
    rw [gobble_taken]
    split
    · split
      · simp
      · simp only [List.length_cons, List.drop_succ_cons, List.cons_append, List.cons.injEq,
          true_and]
        exact ih
    · simp

theorem gobble_taken_kinds (alsoSkip : KindMask) (allowEOL cont : Bool) (L : List Token) :
    ∀ x ∈ gobble_taken alsoSkip allowEOL cont L, hasKind (NK_SKIP :: alsoSkip) x.kind = true := by
  induction L with
  | nil => intro x hx; simp [gobble_taken] at hx
  | cons t L ih =>
    intro x hx
    rw [gobble_taken] at hx
    split at hx
    · rename_i hk
      split at hx
      · simp at hx; rw [hx]; exact hk
      · rcases List.mem_cons.1 hx with m | m
        · rw [m]; exact hk
        · exact ih x m
    · simp at hx

/-- `chain_gobble_skip` at a stream returns; it has consumed and appended a
prefix of the stream, tokens of kinds `{SKIP} ∪ alsoSkip`. -/
theorem At.at_gobble {el : Nat} {p : ParserT} {L : List Token} (h : At el p L) (c : ChainT)
    (alsoSkip : KindMask) (hE : hasKind alsoSkip NK_EOF = false) (aw allowEOL cont : Bool)
    (fuel : Nat) (hf : L.length < fuel) :
    ∃ tok g L2 q, L = g ++ L2
      ∧ chain_gobble_skip fuel p c alsoSkip aw allowEOL cont
        = ok (tok, chain_add_tokens c g, q)
      ∧ At el q L2 ∧ q.consumed = p.consumed ++ g
      ∧ (∀ x ∈ g, hasKind (NK_SKIP :: alsoSkip) x.kind = true)
      ∧ (hasKind (NK_SKIP :: alsoSkip) tok.kind = false → tok = next_of L2 el ∧ Reads q L2)
      ∧ (allowEOL = true → tok = next_of L2 el ∧ Reads q L2) := by
  obtain ⟨e, h⟩ := h
  have hlen := gobble_taken_length_le alsoSkip allowEOL cont L
  obtain ⟨tok, q, g, gc, _, ge, ga, gb⟩ := gobble_eval alsoSkip aw allowEOL cont hE L fuel p c h
    (by omega)
  have hkinds := gobble_taken_kinds alsoSkip allowEOL cont L
  rw [e] at gb ge
  refine ⟨tok, _, _, q, gobble_taken_prefix alsoSkip allowEOL cont L, g, ?_, gc, hkinds, ?_,
    fun he => gb (Or.inl he)⟩
  · cases hl : (gobble_taken alsoSkip allowEOL cont L).getLast? with
    | none => exact At.of_reads (gb (Or.inr (by rw [hl]; intro t ht; cases ht))).2 ge
    | some t =>
      by_cases hb : t.ends_line = true ∧ allowEOL = false
      · exact At.of_fresh (ga t hl hb.1 hb.2).2 ge
      · refine At.of_reads (gb ?_).2 ge
        by_cases hA : allowEOL = true
        · exact Or.inl hA
        · right
          intro t2 ht2
          rw [hl] at ht2
          simp only [Option.some.injEq] at ht2
          rw [← ht2]
          cases hte : t.ends_line with
          | false => rfl
          | true => exact absurd ⟨hte, by simpa using hA⟩ hb
  · intro hk
    cases hl : (gobble_taken alsoSkip allowEOL cont L).getLast? with
    | none => exact gb (Or.inr (by rw [hl]; intro t ht; cases ht))
    | some t =>
      by_cases hb : t.ends_line = true ∧ allowEOL = false
      · have ht := (ga t hl hb.1 hb.2).1
        have hm : t ∈ gobble_taken alsoSkip allowEOL cont L := List.mem_of_mem_getLast? (Option.mem_def.2 hl)
        rw [ht, hkinds t hm] at hk
        exact Bool.noConfusion hk
      · apply gb
        by_cases hA : allowEOL = true
        · exact Or.inl hA
        · right
          intro t2 ht2
          rw [hl] at ht2
          simp only [Option.some.injEq] at ht2
          rw [← ht2]
          cases hte : t.ends_line with
          | false => rfl
          | true => exact absurd ⟨hte, by simpa using hA⟩ hb

/-- `gobble_unless_eol` at a stream returns, having consumed and appended a
prefix of the stream. -/
theorem At.at_gobble_unless_eol {el : Nat} {p : ParserT} {L : List Token} (h : At el p L)
    (c : ChainT) (token : Token) (alsoSkip : KindMask) (hE : hasKind alsoSkip NK_EOF = false)
    (aw : Bool) (fuel : Nat) (hf : L.length < fuel) :
    ∃ tok g L2 q, L = g ++ L2
      ∧ gobble_unless_eol fuel p c token alsoSkip aw = ok (tok, chain_add_tokens c g, q)
      ∧ At el q L2 ∧ q.consumed = p.consumed ++ g := by
  unfold gobble_unless_eol
  by_cases he : (!token.ends_line) = true
  · rw [if_pos he]
    obtain ⟨tok, g, L2, q, e, hg, a, d, _⟩ := h.at_gobble c alsoSkip hE aw true false fuel hf
    exact ⟨tok, g, L2, q, e, hg, a, d⟩
  · rw [if_neg he]
    exact ⟨token, [], L, p, rfl, rfl, h, by simp⟩

/-- The parameter loop of line 330 at a stream returns with the first token
that is not of parameter class buffered. -/
theorem At.at_params {el : Nat} {p : ParserT} {L : List Token} (h : At el p L) (c : ChainT)
    (kinds : KindMask) (hE : hasKind kinds NK_EOF = false) (fuel : Nat) (hf : L.length < fuel) :
    ∃ vs L2 q, L = vs ++ L2
      ∧ parse_section_params kinds fuel p c = ok (next_of L2 el, chain_add_tokens c vs, q)
      ∧ Reads q L2 ∧ q.scanner.eof_line = el ∧ q.consumed = p.consumed ++ vs
      ∧ hasKind kinds (next_of L2 el).kind = false := by
  obtain ⟨e, h⟩ := h
  have hsplit := (List.takeWhile_append_dropWhile (fun t : Token => hasKind kinds t.kind)
    L).symm
  have hvs : ∀ s ∈ L.takeWhile (fun t : Token => hasKind kinds t.kind),
      hasKind kinds s.kind = true := by
    intro s hs
    exact List.mem_takeWhile_imp (p := fun t : Token => hasKind kinds t.kind) hs
  have hL2 : hasKind kinds
      (next_of (L.dropWhile (fun t : Token => hasKind kinds t.kind)) el).kind = false :=
    next_of_dropWhile (fun t : Token => hasKind kinds t.kind) L el hE
  have hlen : (L.takeWhile (fun t : Token => hasKind kinds t.kind)).length ≤ L.length :=
    (List.takeWhile_sublist _).length_le
  generalize L.takeWhile (fun t : Token => hasKind kinds t.kind) = vs at hsplit hvs hlen
  generalize L.dropWhile (fun t : Token => hasKind kinds t.kind) = L2 at hsplit hL2
  subst hsplit
  obtain ⟨q, hq, r, e2, _, d⟩ := params_eval kinds L2 el hL2 vs fuel p c h e hvs (by omega)
  exact ⟨vs, L2, q, rfl, hq, r, e2, d, hL2⟩

theorem Settles.of_error {α : Type} {el : Nat} {p : ParserT} {L : List Token}
    {r : Outcome α} {st : α → ParserT} {progress : α → Bool} {e : ErrorT} {l : Nat}
    (h : r = error e l) : Settles el p L r st progress :=
  Or.inl ⟨e, l, h⟩

/-- The loop of `parser_parse_section_list` settles when each call of
`parser_parse_section` on a stream no longer than the current one does. -/
theorem list_loop_settles (alsoSkip : KindMask) (el fuel : Nat)
    (hsec : ∀ p L, At el p L → WordsHaveText L → L.length + 2 ≤ fuel →
      Settles el p L (parser_parse_section fuel p alsoSkip) (fun a => a.2)
        (fun a => !a.1.isEmpty)) :
    ∀ (k : Nat) (p : ParserT) (L : List Token) (c : ChainT), At el p L → WordsHaveText L →
      L.length + 2 ≤ fuel → L.length + 1 ≤ k →
      Settles el p L
        (parser_parse_section_list_loop (fun q => parser_parse_section fuel q alsoSkip) k p c)
        (fun a => a.2) (fun _ => false) := by
  intro k
  induction k with
  | zero => intro p L c _ _ _ hk; simp at hk
  | succ n ih =>
    intro p L c ha hw hf hk
    rw [parser_parse_section_list_loop]
    rcases hsec p L ha hw hf with ⟨e, l, h⟩ | ⟨⟨items, q⟩, cs, L2, h, e1, d1, a1, pr⟩
    · rw [h]; exact Settles.of_error rfl
    · rw [h]
      simp only [bind_ok]
      cases items with
      | nil =>
        exact Or.inr ⟨(c, q), cs, L2, rfl, e1, d1, a1, fun x => Bool.noConfusion x⟩
      | cons first siblings =>
        simp only
        have hcs : cs ≠ [] := pr (by simp)
        have hlen : L2.length < L.length := by
          rw [e1, List.length_append]
          have := List.length_pos.2 hcs
          omega
        rcases ih q L2 (chain_add c first siblings) a1 (At.wf_rest hw e1) (by omega) (by omega)
          with ⟨e, l, h2⟩ | ⟨a, cs2, L3, h2, e2, d2, a2, _⟩
        · exact Settles.of_error h2
        · refine Or.inr ⟨a, cs ++ cs2, L3, h2, by rw [e1, e2, List.append_assoc], ?_, a2,
            fun x => Bool.noConfusion x⟩
          rw [d2]
          show q.consumed ++ cs2 = _
          have : q.consumed = p.consumed ++ cs := d1
          rw [this, List.append_assoc]

theorem list_settles (alsoSkip : KindMask) (el fuel : Nat)
    (hsec : ∀ p L, At el p L → WordsHaveText L → L.length + 2 ≤ fuel →
      Settles el p L (parser_parse_section fuel p alsoSkip) (fun a => a.2)
        (fun a => !a.1.isEmpty))
    (p : ParserT) (L : List Token) (ha : At el p L) (hw : WordsHaveText L)
    (hf : L.length + 2 ≤ fuel) :
    Settles el p L (parser_parse_section_list fuel p alsoSkip) (fun a => a.2)
      (fun _ => false) := by
  unfold parser_parse_section_list parse_section_list_with
  rcases list_loop_settles alsoSkip el fuel hsec fuel p L init_chain ha hw hf (by omega)
    with ⟨e, l, h⟩ | ⟨⟨c, q⟩, cs, L2, h, e1, d1, a1, _⟩
  · rw [h]; exact Settles.of_error rfl
  · rw [h]
    exact Or.inr ⟨(NodeT.chain c.children, q), cs, L2, rfl, e1, d1, a1,
      fun x => Bool.noConfusion x⟩

/-- Lines 334-352 settle, from a state in which the lookahead is buffered. -/
theorem terminator_settles (alsoSkip : KindMask) (hE : hasKind alsoSkip NK_EOF = false)
    (el fuel : Nat)
    (hsec : ∀ p L, At el p L → WordsHaveText L → L.length + 2 ≤ fuel →
      Settles el p L (parser_parse_section fuel p alsoSkip) (fun a => a.2)
        (fun a => !a.1.isEmpty))
    (p : ParserT) (T : List Token) (c : ChainT) (hr : Reads p T) (he : p.scanner.eof_line = el)
    (hw : WordsHaveText T) (hf : T.length + 1 ≤ fuel) :
    Settles el p T (section_terminator fuel p c (next_of T el) alsoSkip) (fun a => a.2)
      (fun _ => false) := by
  have ha : At el p T := At.of_reads hr he
  unfold section_terminator
  by_cases h1 : (next_of T el).kind = NK_LB
  · rw [if_pos h1]
    rcases ha.at_take c [NK_LB] (by decide) false with
      ⟨t, T2, q1, e1, _, g1, f1, el1, d1⟩ | ⟨q1, hk, _⟩
    · rw [g1]
      simp only [bind_ok]
      have hT2 : T2.length + 1 = T.length := by rw [e1]; simp
      obtain ⟨tok2, g, T3, q2, e2, g2, a2, d2⟩ := (At.of_fresh f1 el1).at_gobble_unless_eol
        (chain_add c (NodeT.leaf t) []) t alsoSkip hE false fuel (by omega)
      rw [g2]
      simp only [bind_ok]
      have hT3 : T3.length ≤ T2.length := by rw [e2]; simp
      have hw2 : WordsHaveText T2 := At.wf_rest hw (show T = [t] ++ T2 from e1)
      have hw3 : WordsHaveText T3 := At.wf_rest hw2 e2
      rcases list_settles alsoSkip el fuel hsec q2 T3 a2 hw3 (by omega) with
        ⟨e, l, h3⟩ | ⟨⟨list, q3⟩, cs3, T4, h3, e3, d3, a3, _⟩
      · rw [h3]; exact Settles.of_error rfl
      · rw [h3]
        simp only [bind_ok]
        have hT4 : T4.length ≤ T3.length := by rw [e3]; simp
        rcases a3.at_take (chain_add (chain_add_tokens (chain_add c (NodeT.leaf t) []) g) list [])
          [NK_RB] (by decide) true with ⟨rb, T5, q4, e4, _, g4, f4, el4, d4⟩ | ⟨q4, _, g4, _⟩
        · rw [g4]
          simp only [bind_ok, Bool.not_true, Bool.false_eq_true, if_false]
          have hT5 : T5.length + 1 = T4.length := by rw [e4]; simp
          obtain ⟨tok5, g5, T6, q5, e5, g6, a5, d5⟩ := (At.of_fresh f4 el4).at_gobble_unless_eol
            (chain_add (chain_add (chain_add_tokens (chain_add c (NodeT.leaf t) []) g) list [])
              (NodeT.leaf rb) []) rb alsoSkip hE true fuel (by omega)
          rw [g6]
          refine Or.inr ⟨_, [t] ++ g ++ cs3 ++ [rb] ++ g5, T6, rfl, ?_, ?_, a5,
            fun x => Bool.noConfusion x⟩
          · rw [e1, e2, e3, e4, e5]; simp
          · show q5.consumed = _
            have x3 : q3.consumed = q2.consumed ++ cs3 := d3
            rw [d5, d4, x3, d2, d1]; simp
        · rw [g4]
          exact Settles.of_error rfl
    · have : hasKind [NK_LB] (next_of T el).kind = true := by rw [h1]; rfl
      rw [this] at hk
      exact Bool.noConfusion hk
  · rw [if_neg h1]
    by_cases h2 : (next_of T el).kind = NK_SEMI
    · rw [if_pos h2]
      rcases ha.at_take c [NK_SEMI] (by decide) true with
        ⟨t, T2, q1, e1, _, g1, f1, el1, d1⟩ | ⟨q1, hk, _⟩
      · rw [g1]
        simp only [bind_ok]
        have hT2 : T2.length + 1 = T.length := by rw [e1]; simp
        obtain ⟨tok2, g, T3, q2, e2, g2, a2, d2⟩ := (At.of_fresh f1 el1).at_gobble_unless_eol
          (chain_add c (NodeT.leaf t) []) t alsoSkip hE true fuel (by omega)
        rw [g2]
        refine Or.inr ⟨_, [t] ++ g, T3, rfl, ?_, ?_, a2, fun x => Bool.noConfusion x⟩
        · rw [e1, e2]; simp
        · show q2.consumed = _
          rw [d2, d1]; simp
      · have : hasKind [NK_SEMI] (next_of T el).kind = true := by rw [h2]; rfl
        rw [this] at hk
        exact Bool.noConfusion hk
    · rw [if_neg h2]
      by_cases h3 : (next_of T el).kind ≠ NK_BREAK
      · rw [if_pos h3]
        exact Settles.of_error rfl
      · rw [if_neg h3]
        simp only [bind_ok]
        obtain ⟨tok2, g, T3, q2, e2, g2, a2, d2⟩ := ha.at_gobble_unless_eol c (next_of T el)
          alsoSkip hE true fuel (by omega)
        rw [g2]
        exact Or.inr ⟨_, g, T3, rfl, e2, d2, a2, fun x => Bool.noConfusion x⟩

theorem valid_directive_call_text {dir : Option CStr} (h : dir ≠ none) (value : Option CStr)
    (cs : List BindingT) : ∃ b, valid_directive_call dir value cs = ok b := by
  cases dir with
  | none => exact absurd rfl h
  | some d => exact ⟨_, valid_directive_call_some d value cs⟩

/-- Lines 320-352 settle, for a directive word that carries its text. -/
theorem directive_settles (alsoSkip : KindMask) (hE : hasKind alsoSkip NK_EOF = false)
    (el fuel : Nat)
    (hsec : ∀ p L, At el p L → WordsHaveText L → L.length + 2 ≤ fuel →
      Settles el p L (parser_parse_section fuel p alsoSkip) (fun a => a.2)
        (fun a => !a.1.isEmpty))
    (p : ParserT) (L : List Token) (c : ChainT) (dir : Token) (ha : At el p L)
    (hw : WordsHaveText L) (hd : dir.text ≠ none) (hf : L.length + 1 ≤ fuel) :
    Settles el p L (section_directive fuel p c dir alsoSkip) (fun a => a.2)
      (fun _ => false) := by
  have hE3 : hasKind (NK_CONTENT :: NK_STRING :: NK_SKIP :: alsoSkip) NK_EOF = false := by
    rw [hasKind_params, hasKind_cons, hE]; rfl
  unfold section_directive
  obtain ⟨ok0, h0⟩ := valid_directive_call_text hd none p.constraints
  rw [h0]
  simp only [bind_ok]
  obtain ⟨tok1, g, L2, q1, e1, g1, a1, d1, _, _, r1⟩ := ha.at_gobble c alsoSkip hE false true true
    fuel (by omega)
  rw [g1]
  simp only [bind_ok]
  have hL2 : L2.length ≤ L.length := by rw [e1]; simp
  have hw2 : WordsHaveText L2 := At.wf_rest hw e1
  rcases a1.at_take (chain_add_tokens c g) (NK_CONTENT :: NK_STRING :: NK_SKIP :: alsoSkip) hE3
    false with ⟨v, L3, q2, e2, _, g2, f2, el2, d2⟩ | ⟨q2, hk, g2, r2, el2, d2⟩
  · rw [g2]
    have hL3 : L3.length + 1 = L2.length := by rw [e2]; simp
    have hw3 : WordsHaveText L3 := At.wf_rest hw2 (show L2 = [v] ++ L3 from e2)
    obtain ⟨vs, T, q3, e3, g3, r3, el3, d3, _⟩ := (At.of_fresh f2 el2).at_params
      (chain_add (chain_add_tokens c g) (NodeT.leaf v) [])
      (NK_CONTENT :: NK_STRING :: NK_SKIP :: alsoSkip) hE3 fuel (by omega)
    have hT : T.length ≤ L3.length := by rw [e3]; simp
    have tail : Settles el p L (section_terminator fuel q3
        (chain_add_tokens (chain_add (chain_add_tokens c g) (NodeT.leaf v) []) vs)
        (next_of T el) alsoSkip) (fun a => a.2) (fun _ => false) := by
      rcases terminator_settles alsoSkip hE el fuel hsec q3 T
        (chain_add_tokens (chain_add (chain_add_tokens c g) (NodeT.leaf v) []) vs) r3 el3
        (At.wf_rest hw3 e3) (by omega) with ⟨e, l, h4⟩ | ⟨a, cs4, T2, h4, e4, d4, a4, _⟩
      · exact Settles.of_error h4
      · refine Or.inr ⟨a, g ++ [v] ++ vs ++ cs4, T2, h4, ?_, ?_, a4,
          fun x => Bool.noConfusion x⟩
        · rw [e1, e2, e3, e4]; simp
        · rw [d4, d3, d2, d1]; simp
    cases ok0 with
    | true =>
      simp only [bind_ok, if_true, Bool.not_true, Bool.false_eq_true, if_false]
      rw [g3]
      simp only [bind_ok, Bool.not_true, Bool.false_eq_true, if_false]
      exact tail
    | false =>
      obtain ⟨b, hb⟩ := valid_directive_call_text hd v.text q2.constraints
      simp only [bind_ok, if_true, Bool.false_eq_true, if_false]
      rw [hb]
      simp only [bind_ok]
      cases b with
      | false => exact Settles.of_error rfl
      | true =>
        simp only [Bool.not_true, Bool.false_eq_true, if_false]
        rw [g3]
        simp only [bind_ok, Bool.not_true, Bool.false_eq_true, if_false]
        exact tail
  · rw [g2]
    simp only [bind_ok, Bool.false_eq_true, if_false]
    cases ok0 with
    | false => exact Settles.of_error rfl
    | true =>
      simp only [Bool.not_true, Bool.false_eq_true, if_false]
      rcases terminator_settles alsoSkip hE el fuel hsec q2 L2 (chain_add_tokens c g) r2 el2
        hw2 (by omega) with ⟨e, l, h4⟩ | ⟨a, cs4, T2, h4, e4, d4, a4, _⟩
      · exact Settles.of_error h4
      · refine Or.inr ⟨a, g ++ cs4, T2, h4, ?_, ?_, a4, fun x => Bool.noConfusion x⟩
        · rw [e1, e4]; simp
        · rw [d4, d2, d1]; simp

/-- `parser_parse_section` settles on every stream whose `WORD` tokens carry
their text, given fuel for two more than the tokens of the stream; when it
returns a node it has consumed at least one token. -/
theorem section_settles (alsoSkip : KindMask) (hE : hasKind alsoSkip NK_EOF = false)
    (el : Nat) :
    ∀ (fuel : Nat) (p : ParserT) (L : List Token), At el p L → WordsHaveText L →
      L.length + 2 ≤ fuel →
      Settles el p L (parser_parse_section fuel p alsoSkip) (fun a => a.2)
        (fun a => !a.1.isEmpty) := by
  have hE2 : hasKind (NK_SKIP :: alsoSkip) NK_EOF = false := by rw [hasKind_cons, hE]; rfl
  intro fuel
  induction fuel with
  | zero => intro p L _ _ hf; simp at hf
  | succ n ih =>
    intro p L ha hw hf
    rw [section_unfold_directive]
    obtain ⟨q1, h1, r1, e1, d1⟩ := ha.at_peek true
    rw [h1]
    simp only [bind_ok]
    by_cases c1 : (hasKind (NK_SKIP :: alsoSkip) (next_of L el).kind
        && (next_of L el).ends_line) = true
    · rw [if_pos c1]
      have hk : hasKind (NK_SKIP :: alsoSkip) (next_of L el).kind = true := by
        simp only [Bool.and_eq_true] at c1; exact c1.1
      cases L with
      | nil =>
        have : hasKind (NK_SKIP :: alsoSkip) NK_EOF = true := hk
        rw [hE2] at this
        exact Bool.noConfusion this
      | cons t L2 =>
        have hv : (consume_token q1).1 = some t := r1.1.2
        obtain ⟨f2, e2⟩ := consume_reads r1
        refine Or.inr ⟨_, [t], L2, rfl, rfl, ?_, At.of_fresh f2 (by rw [e2, e1]),
          fun _ => by simp⟩
        show q1.consumed ++ q1.pending_token.toList = _
        rw [r1.1.2, d1]
        rfl
    rw [if_neg c1]
    by_cases c2 : (decide ((next_of L el).kind = NK_BREAK) && !hasKind alsoSkip NK_BREAK) = true
    · rw [if_pos c2]
      exact Or.inr ⟨_, [], L, rfl, rfl, by simpa using d1, At.of_reads r1 e1,
        fun x => by simp at x⟩
    rw [if_neg c2]
    by_cases c3 : (next_of L el).kind = NK_EOF
    · rw [if_pos c3]
      exact Or.inr ⟨_, [], L, rfl, rfl, by simpa using d1, At.of_reads r1 e1,
        fun x => by simp at x⟩
    rw [if_neg c3]
    obtain ⟨tok2, g, L2, q2, e2, g2, a2, d2, _, _, _⟩ := (At.of_reads r1 e1).at_gobble init_chain
      alsoSkip hE true false false n (by omega)
    rw [g2]
    simp only [bind_ok]
    have hL2 : L2.length ≤ L.length := by rw [e2]; simp
    have hw2 : WordsHaveText L2 := At.wf_rest hw e2
    by_cases c4 : tok2.kind = NK_RB
    · rw [if_pos c4]
      refine Or.inr ⟨_, g, L2, rfl, e2, by rw [d2, d1], a2, ?_⟩
      intro x
      simp only [chain_add_tokens_children] at x
      intro hg
      rw [hg] at x
      simp at x
    rw [if_neg c4]
    rcases a2.at_take (chain_add_tokens init_chain g) [NK_WORD] (by decide) true with
      ⟨w, L3, q3, e3, k3, g3, f3, el3, d3⟩ | ⟨q3, _, g3, _⟩
    · rw [g3]
      simp only [bind_ok, Bool.not_true, Bool.false_eq_true, if_false]
      have hL3 : L3.length + 1 = L2.length := by rw [e3]; simp
      have hwk : w.kind = NK_WORD := hasKind_single k3
      have hwt : w.text ≠ none := hw w (by rw [e2, e3]; simp) hwk
      rcases directive_settles alsoSkip hE el n (ih) q3 L3
        (chain_add (chain_add_tokens init_chain g) (NodeT.leaf w) []) w (At.of_fresh f3 el3)
        (At.wf_rest hw2 (show L2 = [w] ++ L3 from e3)) hwt (by omega) with
        ⟨e, l, h4⟩ | ⟨a, cs4, L4, h4, e4, d4, a4, _⟩
      · exact Settles.of_error h4
      · refine Or.inr ⟨a, g ++ [w] ++ cs4, L4, h4, ?_, ?_, a4, fun _ => by simp⟩
        · rw [e2, e3, e4]; simp
        · rw [d4, d3, d2, d1]; simp
    · rw [g3]
      exact Settles.of_error rfl

/-- A call of `parser_parse_section` that returns a node has consumed a
non-empty prefix of the stream. -/
theorem section_progress (alsoSkip : KindMask) (hE : hasKind alsoSkip NK_EOF = false)
    (el fuel : Nat) (p q : ParserT) (L : List Token) (items : List NodeT)
    (ha : At el p L) (hw : WordsHaveText L) (hf : L.length + 2 ≤ fuel)
    (h : parser_parse_section fuel p alsoSkip = ok (items, q)) (hi : items ≠ []) :
    ∃ cs L2, cs ≠ [] ∧ L = cs ++ L2 ∧ q.consumed = p.consumed ++ cs ∧ At el q L2 := by
  rcases section_settles alsoSkip hE el fuel p L ha hw hf with
    ⟨e, l, h2⟩ | ⟨a, cs, L2, h2, e1, d1, a1, pr⟩
  · rw [h2] at h; exact Outcome.noConfusion h
  · rw [h2] at h
    simp only [ok.injEq] at h
    subst h
    refine ⟨cs, L2, pr ?_, e1, d1, a1⟩
    cases items with
    | nil => exact absurd rfl hi
    | cons x xs => rfl

/-- The loop of lines 411-433, with the order of the templates: read from its
end to its front, the part of the list that the loop has built lines up with the
marker groups among the tokens consumed, the first group being the one of the
token the loop was entered with. -/
theorem groups_order :
    ∀ (fuel : Nat) (p q : ParserT) (tok : Option Token) (tail : Option NodeT)
      (t ts : List TemplateT),
      parse_template_groups fuel p tok tail t = ok (ts, q) →
      (∀ m, tok = some m → m.kind = NK_BREAK) →
      ∃ cs rs new, Adv p q cs rs ∧ ts = new ++ t ∧ GroupsOf new.reverse (tok.toList ++ cs) := by
  intro fuel
  induction fuel with
  | zero => intro p q tok tail t ts h; simp [parse_template_groups] at h
  | succ n ih =>
    intro p q tok tail t ts h hb
    cases tok with
    | none =>
      rw [parse_template_groups] at h
      simp only [ok.injEq, Prod.mk.injEq] at h
      rw [← h.1, ← h.2]
      exact ⟨[], [], [], Adv.adv_refl p, rfl, GroupsOf.nil⟩
    | some m =>
      rw [parse_template_groups] at h
      obtain ⟨text, h0, h⟩ := bind_eq_ok h
      have hmt : m.text = some text := deref_ok h0
      cases hx : extract_prefix text with
      | none => rw [hx] at h; simp at h
      | some pf =>
        rw [hx] at h
        simp only at h
        obtain ⟨⟨head, p1⟩, h1, h⟩ := bind_eq_ok h
        obtain ⟨a1, f1⟩ := template_list_spec h1
        simp only at h
        obtain ⟨⟨tk, p2⟩, h2, h⟩ := bind_eq_ok h
        obtain ⟨sk2, rs2, a2, f2, _, b2, _⟩ := take_break_spec h2
        simp only at h
        obtain ⟨⟨tk3, tail3, p3⟩, h3, h⟩ := bind_eq_ok h
        simp only at h
        have a0 := release_spec p m
        have key : ∃ cs3 rs3 rest3, Adv p2 p3 cs3 rs3
            ∧ (∀ m3, tk3 = some m3 → m3.kind = NK_BREAK)
            ∧ tk.toList ++ cs3 = rest3 ++ tk3.toList ∧ rest3.filter is_marker = [] := by
          cases tk with
          | none =>
            simp only [ok.injEq, Prod.mk.injEq] at h3
            rw [← h3.1, ← h3.2.2]
            exact ⟨[], [], [], Adv.adv_refl p2, fun m3 e => Option.noConfusion e, by simp,
              rfl⟩
          | some tk =>
            simp only at h3
            obtain ⟨text2, h30, h3⟩ := bind_eq_ok h3
            have ht2 : tk.text = some text2 := deref_ok h30
            by_cases hc : charAt text2 0 ≠ '='
            · rw [if_pos hc] at h3
              obtain ⟨⟨tl, p4⟩, h4, h3⟩ := bind_eq_ok h3
              obtain ⟨a4, f4⟩ := template_list_spec h4
              simp only at h3
              obtain ⟨⟨tk5, p5⟩, h5, h3⟩ := bind_eq_ok h3
              obtain ⟨sk5, rs5, a5, f5, _, b5, _⟩ := take_break_spec h5
              simp only [ok.injEq, Prod.mk.injEq] at h3
              obtain ⟨e1, _, e3⟩ := h3
              subst e1 e3
              have hntk : is_marker tk = false := by
                simp [is_marker, ht2, hc]
              refine ⟨_, _, tk :: (tl.leaves ++ sk5),
                ((release_spec p2 tk).adv_trans a4).adv_trans a5, b5, by simp, ?_⟩
              simp [List.filter_append, f4, f5, hntk, List.filter_cons]
            · rw [if_neg hc] at h3
              simp only [ok.injEq, Prod.mk.injEq] at h3
              obtain ⟨e1, _, e3⟩ := h3
              subst e1 e3
              exact ⟨[], [], [], Adv.adv_refl p2, b2, by simp, rfl⟩
        obtain ⟨cs3, rs3, rest3, a3, b3, e3, f3⟩ := key
        obtain ⟨cs4, rs4, new4, a4, e4, g4⟩ := ih p3 q tk3 tail3 _ ts h b3
        have hcs : ([m] : List Token) ++ ([] ++ head.leaves ++ (sk2 ++ tk.toList) ++ cs3 ++ cs4)
            = m :: ((⟨pf, head, tail3⟩ : TemplateT).headPattern.leaves ++ (sk2 ++ rest3))
              ++ (tk3.toList ++ cs4) := by
          simp only [List.nil_append, List.singleton_append, List.cons_append,
            List.append_assoc, List.cons.injEq, true_and, List.append_cancel_left_eq]
          rw [← List.append_assoc tk.toList, e3]
          simp [List.append_assoc]
        refine ⟨_, _, new4 ++ [⟨pf, head, tail3⟩],
          (((a0.adv_trans a1).adv_trans a2).adv_trans a3).adv_trans a4, ?_, ?_⟩
        · rw [e4]; simp
        · show GroupsOf _ (([m] : List Token) ++ ([] ++ head.leaves ++ (sk2 ++ tk.toList) ++ cs3
            ++ cs4))
          rw [hcs, List.reverse_append, List.reverse_singleton, List.singleton_append]
          refine GroupsOf.group _ m text (sk2 ++ rest3) _ _ (hb m rfl) hmt hx ?_ g4
          simp [List.filter_append, f1, f2, f3]

/-- `parser_parse_template`, with the order of the templates: the tokens
consumed are a header (leading `SKIP` tokens, the `BREAK` token that line 401
discards, the binding pairs) and then the marker groups of the templates, the
group of the last template of the list first. -/
theorem template_order_spec {fuel : Nat} {p q : ParserT} {ts : List TemplateT}
    {list : List BindingT} (h : parser_parse_template fuel p = ok (ts, list, q)) :
    ∃ hdr G rs, Adv p q (hdr ++ G) rs
      ∧ template_markers (hdr ++ G) = G.filter is_marker
      ∧ GroupsOf ts.reverse G := by
  unfold parser_parse_template at h
  obtain ⟨⟨first, p1⟩, h1, h⟩ := bind_eq_ok h
  obtain ⟨sk1, rs1, a1, _, s1, b1, n1⟩ := take_break_spec h1
  simp only at h
  obtain ⟨⟨list2, p2⟩, h2, h⟩ := bind_eq_ok h
  obtain ⟨cs2, rs2, a2, k2⟩ := pairs_spec fuel _ p2 [] list2 h2
  simp only at h
  obtain ⟨⟨tok, p3⟩, h3, h⟩ := bind_eq_ok h
  obtain ⟨sk3, rs3, a3, f3, _, b3, _⟩ := take_break_spec h3
  simp only at h
  obtain ⟨⟨ts4, p4⟩, h4, h⟩ := bind_eq_ok h
  obtain ⟨cs4, rs4, new, a4, e4, g4⟩ := groups_order fuel p3 p4 tok none [] ts4 h4 b3
  simp only [ok.injEq, Prod.mk.injEq] at h
  obtain ⟨e1, _, e3⟩ := h
  subst e1 e3
  have a0 : ∃ rs0, Adv p1 (release_node_opt p1 first) [] rs0 := by
    cases first with
    | none => exact ⟨[], Adv.adv_refl p1⟩
    | some b => exact ⟨[b], release_spec p1 b⟩
  obtain ⟨rs0, a0⟩ := a0
  have aR := ((a0.adv_trans a2).adv_trans a3).adv_trans a4
  have fR : ([] ++ cs2 ++ (sk3 ++ tok.toList) ++ cs4).filter is_marker
      = (tok.toList ++ cs4).filter is_marker := by
    simp [List.filter_append, filter_marker_nil k2, f3]
  have key : template_markers (sk1 ++ first.toList ++ ([] ++ cs2 ++ (sk3 ++ tok.toList) ++ cs4))
      = (tok.toList ++ cs4).filter is_marker := by
    rw [← fR]
    cases first with
    | some b =>
      have := template_markers_break sk1 ([] ++ cs2 ++ (sk3 ++ tok.toList) ++ cs4) b s1
        (b1 b rfl)
      simpa using this
    | none =>
      obtain ⟨t0, ht0, hk1, hk2⟩ := n1 rfl
      have hd := head_of_stream aR ht0
      have := template_markers_other sk1 ([] ++ cs2 ++ (sk3 ++ tok.toList) ++ cs4) s1
        (fun t ht => by rw [hd t ht]; exact ⟨hk2, hk1⟩)
      simpa using this
  have esplit : sk1 ++ first.toList ++ ([] ++ cs2 ++ (sk3 ++ tok.toList) ++ cs4)
      = (sk1 ++ first.toList ++ cs2 ++ sk3) ++ (tok.toList ++ cs4) := by
    simp [List.append_assoc]
  have aT := a1.adv_trans aR
  rw [esplit] at aT key
  refine ⟨sk1 ++ first.toList ++ cs2 ++ sk3, tok.toList ++ cs4, _, aT, key, ?_⟩
  rw [e4, List.append_nil]; exact g4

/-- C13, amended: when `parser_parse_template` succeeds, the list returned holds
exactly one template per marker token consumed (a `BREAK` token whose text
begins with `=`), not counting a `BREAK` token that is the first token after the
leading `SKIP` tokens, which line 401 discards; each marker counted is a
well-formed marker line, the tokens consumed are a prefix of the input, and
without a counted marker the list is empty. The templates are listed
most-recently-parsed first: the tokens consumed are a header and then the marker
groups (`GroupsOf`) of the templates of the list read from its end to its front,
each group being the marker token of the template, then the leaves of its head
pattern, then the tokens up to the next marker token, none of them a marker. So
the template at the end of the list is the one parsed from the first counted
marker line, and the one at the front is the one parsed from the last. The
prefix recorded in a template is the value of `extract_prefix` on the text of
the marker token of its group; that value is the empty string for every marker
(`extract_prefix_empty`), so the prefixes cannot tell the order and it is the
marker groups that do. -/
theorem template_list_order (fuel : Nat) (dom : CStr) (sc : ScannerT) (ts : List TemplateT)
    (list : List BindingT) (q : ParserT)
    (h : parser_parse_template fuel (parser_init dom true [] sc) = ok (ts, list, q)) :
    q.consumed <+: sc.input
    ∧ ts.length = (template_markers q.consumed).length
    ∧ (∀ m ∈ template_markers q.consumed, ∃ text, m.text = some text ∧ marker_line text)
    ∧ (template_markers q.consumed = [] → ts = [])
    ∧ ∃ hdr G, q.consumed = hdr ++ G ∧ template_markers q.consumed = G.filter is_marker
        ∧ GroupsOf ts.reverse G := by
  obtain ⟨cs, rs, a, hm, hl⟩ := template_spec h
  obtain ⟨e1, _, e3⟩ := a.from_init
  obtain ⟨hdr, G, rs2, a2, m2, g2⟩ := template_order_spec h
  obtain ⟨e4, _, _⟩ := a2.from_init
  rw [e1]
  have hlen : ts.length = (template_markers cs).length := by
    have := congrArg List.length hm
    simpa using this
  refine ⟨e3, hlen, hl, ?_, hdr, G, by rw [← e1, e4], by rw [← e1, e4]; exact m2, g2⟩
  intro he
  rw [he] at hlen
  exact List.length_eq_zero.1 hlen

/-- Witness of `template_list_order`: the stream `user me`, `=== host a`, `x;`,
`---`, `y;`, `=== host b`, `z;` gives two templates, for the two marker tokens,
the one of `=== host b` (head `z;`) first and the one of `=== host a` (head
`x;`) last; the tokens consumed after the header are the group of the last
template followed by the group of the first. -/
theorem template_list_order_witness :
    ∃ ts list q, parser_parse_template 8 (parser_init [] true []
        ⟨[⟨NK_WORD, some "user".toList, 1, false⟩, ⟨NK_CONTENT, some "me".toList, 1, true⟩,
          ⟨NK_BREAK, some "=== host a".toList, 2, true⟩,
          ⟨NK_WORD, some "x".toList, 3, false⟩, ⟨NK_SEMI, none, 3, true⟩,
          ⟨NK_BREAK, some "---".toList, 4, true⟩,
          ⟨NK_WORD, some "y".toList, 5, false⟩, ⟨NK_SEMI, none, 5, true⟩,
          ⟨NK_BREAK, some "=== host b".toList, 6, true⟩,
          ⟨NK_WORD, some "z".toList, 7, false⟩, ⟨NK_SEMI, none, 7, true⟩], 8⟩)
        = ok (ts, list, q)
      ∧ template_markers q.consumed = [⟨NK_BREAK, some "=== host a".toList, 2, true⟩,
          ⟨NK_BREAK, some "=== host b".toList, 6, true⟩]
      ∧ ts.map TemplateT.headPattern
        = [NodeT.chain [NodeT.chain [NodeT.leaf ⟨NK_WORD, some "z".toList, 7, false⟩,
            NodeT.leaf ⟨NK_SEMI, none, 7, true⟩]],
          NodeT.chain [NodeT.chain [NodeT.leaf ⟨NK_WORD, some "x".toList, 3, false⟩,
            NodeT.leaf ⟨NK_SEMI, none, 3, true⟩]]]
      ∧ ts.length = (template_markers q.consumed).length
      ∧ ∃ hdr G, q.consumed = hdr ++ G ∧ template_markers q.consumed = G.filter is_marker
          ∧ GroupsOf ts.reverse G := by
  have h : ∃ r, parser_parse_template 8 (parser_init [] true []
        ⟨[⟨NK_WORD, some "user".toList, 1, false⟩, ⟨NK_CONTENT, some "me".toList, 1, true⟩,
          ⟨NK_BREAK, some "=== host a".toList, 2, true⟩,
          ⟨NK_WORD, some "x".toList, 3, false⟩, ⟨NK_SEMI, none, 3, true⟩,
          ⟨NK_BREAK, some "---".toList, 4, true⟩,
          ⟨NK_WORD, some "y".toList, 5, false⟩, ⟨NK_SEMI, none, 5, true⟩,
          ⟨NK_BREAK, some "=== host b".toList, 6, true⟩,
          ⟨NK_WORD, some "z".toList, 7, false⟩, ⟨NK_SEMI, none, 7, true⟩], 8⟩) = ok r
      ∧ template_markers r.2.2.consumed = [⟨NK_BREAK, some "=== host a".toList, 2, true⟩,
          ⟨NK_BREAK, some "=== host b".toList, 6, true⟩]
      ∧ r.1.map TemplateT.headPattern
        = [NodeT.chain [NodeT.chain [NodeT.leaf ⟨NK_WORD, some "z".toList, 7, false⟩,
            NodeT.leaf ⟨NK_SEMI, none, 7, true⟩]],
          NodeT.chain [NodeT.chain [NodeT.leaf ⟨NK_WORD, some "x".toList, 3, false⟩,
            NodeT.leaf ⟨NK_SEMI, none, 3, true⟩]]] := ⟨_, by rfl, by rfl, by rfl⟩
  obtain ⟨⟨ts, list, q⟩, h1, h2, h3⟩ := h
  have t := template_list_order 8 [] _ ts list q h1
  exact ⟨ts, list, q, h1, h2, h3, t.2.1, t.2.2.2.2⟩

/-- In the stream of two marker groups `=== host a`, `x;`, `---`, `y;` and
`=== host b`, `z;`, the templates with heads `z;` and `x;` taken in that order
are not the groups of the stream: `GroupsOf` tells the order of the templates. -/
theorem groups_order_strict :
    ¬ GroupsOf
      [⟨[], NodeT.chain [NodeT.chain [NodeT.leaf ⟨NK_WORD, some "z".toList, 7, false⟩,
          NodeT.leaf ⟨NK_SEMI, none, 7, true⟩]], none⟩,
       ⟨[], NodeT.chain [NodeT.chain [NodeT.leaf ⟨NK_WORD, some "x".toList, 3, false⟩,
          NodeT.leaf ⟨NK_SEMI, none, 3, true⟩]], none⟩]
      [⟨NK_BREAK, some "=== host a".toList, 2, true⟩,
        ⟨NK_WORD, some "x".toList, 3, false⟩, ⟨NK_SEMI, none, 3, true⟩,
        ⟨NK_BREAK, some "---".toList, 4, true⟩,
        ⟨NK_WORD, some "y".toList, 5, false⟩, ⟨NK_SEMI, none, 5, true⟩,
        ⟨NK_BREAK, some "=== host b".toList, 6, true⟩,
        ⟨NK_WORD, some "z".toList, 7, false⟩, ⟨NK_SEMI, none, 7, true⟩] := by
  intro h
  generalize hts : ([⟨[], NodeT.chain [NodeT.chain [NodeT.leaf
      ⟨NK_WORD, some "z".toList, 7, false⟩, NodeT.leaf ⟨NK_SEMI, none, 7, true⟩]], none⟩,
       ⟨[], NodeT.chain [NodeT.chain [NodeT.leaf ⟨NK_WORD, some "x".toList, 3, false⟩,
          NodeT.leaf ⟨NK_SEMI, none, 3, true⟩]], none⟩] : List TemplateT) = ts at h
  generalize hG : ([⟨NK_BREAK, some "=== host a".toList, 2, true⟩,
        ⟨NK_WORD, some "x".toList, 3, false⟩, ⟨NK_SEMI, none, 3, true⟩,
        ⟨NK_BREAK, some "---".toList, 4, true⟩,
        ⟨NK_WORD, some "y".toList, 5, false⟩, ⟨NK_SEMI, none, 5, true⟩,
        ⟨NK_BREAK, some "=== host b".toList, 6, true⟩,
        ⟨NK_WORD, some "z".toList, 7, false⟩, ⟨NK_SEMI, none, 7, true⟩] : List Token) = G at h
  cases h with
  | nil => exact List.noConfusion hts
  | group t m text rest ts2 cs _ _ _ _ _ =>
    simp only [List.cons.injEq] at hts
    obtain ⟨e1, _⟩ := hts
    subst e1
    simp [NodeT.leaves, NodeT.leaves.leavesList] at hG

theorem block_closes_cons (d : Nat) (t : Token) (ts : List Token) :
    block_closes d (t :: ts)
      = if t.kind = NK_LB then block_closes (d + 1) ts
        else if t.kind = NK_RB then
          (match d with
          | 0 => true
          | d + 1 => block_closes d ts)
        else block_closes d ts := by
  cases d <;> rfl

theorem Neutral.neutral_nil : Neutral [] := fun _ _ => rfl

theorem Neutral.neutral_append {xs ys : List Token} (hx : Neutral xs) (hy : Neutral ys) :
    Neutral (xs ++ ys) := by
  intro d X
  rw [List.append_assoc, hx d, hy d]

theorem Neutral.of_kinds {xs : List Token}
    (h : ∀ x ∈ xs, x.kind ≠ NK_LB ∧ x.kind ≠ NK_RB) : Neutral xs := by
  induction xs with
  | nil => exact Neutral.neutral_nil
  | cons x xs ih =>
    intro d X
    obtain ⟨h1, h2⟩ := h x (List.mem_cons_self _ _)
    rw [List.cons_append, block_closes_cons, if_neg h1, if_neg h2]
    exact ih (fun y hy => h y (List.mem_cons_of_mem _ hy)) d X

theorem Neutral.of_mask {xs : List Token} (kinds : KindMask)
    (h : ∀ x ∈ xs, hasKind kinds x.kind = true) (hL : hasKind kinds NK_LB = false)
    (hR : hasKind kinds NK_RB = false) : Neutral xs :=
  Neutral.of_kinds (fun x hx => ⟨hasKind_ne (h x hx) hL, hasKind_ne (h x hx) hR⟩)

theorem Neutral.block {N : List Token} (hN : Neutral N) {lb rb : Token}
    (hl : lb.kind = NK_LB) (hr : rb.kind = NK_RB) : Neutral (lb :: (N ++ [rb])) := by
  intro d X
  have hr2 : rb.kind ≠ NK_LB := by rw [hr]; decide
  rw [List.cons_append, block_closes_cons, if_pos hl, List.append_assoc, hN (d + 1),
    List.singleton_append, block_closes_cons, if_neg hr2, if_pos hr]

theorem block_closes_eofs (el : Nat) (k : Nat) :
    ∀ (T : List Token) (d : Nat),
      block_closes d (T ++ List.replicate k (eof_token el)) = block_closes d T := by
  have hrep : ∀ d, block_closes d (List.replicate k (eof_token el)) = false := by
    induction k with
    | zero => intro d; rfl
    | succ n ih =>
      intro d
      rw [List.replicate_succ, block_closes_cons, if_neg (by intro e; cases e),
        if_neg (by intro e; cases e)]
      exact ih d
  intro T
  induction T with
  | nil => intro d; rw [List.nil_append, hrep]; rfl
  | cons t T ih =>
    intro d
    rw [List.cons_append, block_closes_cons, block_closes_cons]
    by_cases h1 : t.kind = NK_LB
    · rw [if_pos h1, if_pos h1]; exact ih _
    · rw [if_neg h1, if_neg h1]
      by_cases h2 : t.kind = NK_RB
      · rw [if_pos h2, if_pos h2]
        cases d with
        | zero => rfl
        | succ d => exact ih d
      · rw [if_neg h2, if_neg h2]; exact ih d

theorem NeutralRun.nrun_refl (p : ParserT) : NeutralRun p p :=
  ⟨[], Adv.adv_refl p, Neutral.neutral_nil⟩

theorem NeutralRun.nrun_trans {p q r : ParserT} (h1 : NeutralRun p q) (h2 : NeutralRun q r) :
    NeutralRun p r := by
  obtain ⟨c1, a1, n1⟩ := h1
  obtain ⟨c2, a2, n2⟩ := h2
  exact ⟨c1 ++ c2, by simpa using a1.adv_trans a2, n1.neutral_append n2⟩

theorem NeutralRun.of_peek {p q : ParserT} {allowWord : Bool} {t : Token}
    (h : peek p allowWord = ok (t, q)) : NeutralRun p q :=
  ⟨[], (peek_spec h).1, Neutral.neutral_nil⟩

theorem NeutralRun.of_take {p q : ParserT} {c c' : ChainT} {kinds : KindMask}
    {allowWord took : Bool} {t : Token}
    (h : chain_take p c kinds allowWord = ok (took, t, c', q))
    (hE : hasKind kinds NK_EOF = false) (hL : hasKind kinds NK_LB = false)
    (hR : hasKind kinds NK_RB = false) : NeutralRun p q := by
  rcases chain_take_spec h hE with ⟨_, hk, _, a, _⟩ | ⟨_, _, _, a, _⟩
  · exact ⟨[t], a, Neutral.of_mask kinds (by simpa using hk) hL hR⟩
  · exact ⟨[], a, Neutral.neutral_nil⟩

theorem NeutralRun.of_gobble {fuel : Nat} {p q : ParserT} {c c' : ChainT}
    {alsoSkip : KindMask} {allowWord allowEOL cont : Bool} {t : Token}
    (h : chain_gobble_skip fuel p c alsoSkip allowWord allowEOL cont = ok (t, c', q))
    (hE : hasKind alsoSkip NK_EOF = false) (hL : hasKind (NK_SKIP :: alsoSkip) NK_LB = false)
    (hR : hasKind (NK_SKIP :: alsoSkip) NK_RB = false) : NeutralRun p q := by
  obtain ⟨xs, a, _, hx, _⟩ := gobble_spec h hE
  exact ⟨xs, a, Neutral.of_mask _ hx hL hR⟩

theorem NeutralRun.of_gobble_unless_eol {fuel : Nat} {p q : ParserT} {c c' : ChainT}
    {token t : Token} {alsoSkip : KindMask} {allowWord : Bool}
    (h : gobble_unless_eol fuel p c token alsoSkip allowWord = ok (t, c', q))
    (hE : hasKind alsoSkip NK_EOF = false) (hL : hasKind (NK_SKIP :: alsoSkip) NK_LB = false)
    (hR : hasKind (NK_SKIP :: alsoSkip) NK_RB = false) : NeutralRun p q := by
  obtain ⟨xs, a, _, hx⟩ := gobble_unless_eol_spec h hE
  exact ⟨xs, a, Neutral.of_mask _ hx hL hR⟩

theorem NeutralRun.of_params (kinds : KindMask) (hE : hasKind kinds NK_EOF = false)
    (hL : hasKind kinds NK_LB = false) (hR : hasKind kinds NK_RB = false) :
    ∀ (fuel : Nat) (p q : ParserT) (c c' : ChainT) (t : Token),
      parse_section_params kinds fuel p c = ok (t, c', q) → NeutralRun p q := by
  intro fuel
  induction fuel with
  | zero => intro p q c c' t h; simp [parse_section_params] at h
  | succ n ih =>
    intro p q c c' t h
    rw [parse_section_params] at h
    obtain ⟨⟨took, tok, c1, p1⟩, h1, h⟩ := bind_eq_ok h
    simp only at h
    have r1 := NeutralRun.of_take h1 hE hL hR
    cases took with
    | true =>
      simp only [if_true] at h
      exact r1.nrun_trans (ih p1 q c1 c' t h)
    | false =>
      simp only [Bool.false_eq_true, if_false, ok.injEq, Prod.mk.injEq] at h
      rw [← h.2.2]; exact r1

theorem NeutralRun.of_list_loop (ps : ParserT → Outcome (List NodeT × ParserT))
    (hps : ∀ p items q, ps p = ok (items, q) → NeutralRun p q) :
    ∀ (fuel : Nat) (p q : ParserT) (c c' : ChainT),
      parser_parse_section_list_loop ps fuel p c = ok (c', q) → NeutralRun p q := by
  intro fuel
  induction fuel with
  | zero => intro p q c c' h; simp [parser_parse_section_list_loop] at h
  | succ n ih =>
    intro p q c c' h
    rw [parser_parse_section_list_loop] at h
    obtain ⟨⟨items, p1⟩, h1, h⟩ := bind_eq_ok h
    simp only at h
    have r1 := hps p items p1 h1
    cases items with
    | nil =>
      simp only [ok.injEq, Prod.mk.injEq] at h
      rw [← h.2]; exact r1
    | cons first siblings =>
      simp only at h
      exact r1.nrun_trans (ih p1 q _ c' h)

theorem NeutralRun.of_list (alsoSkip : KindMask) (fuel : Nat)
    (hsec : ∀ p items q, parser_parse_section fuel p alsoSkip = ok (items, q) →
      NeutralRun p q)
    {p q : ParserT} {node : NodeT}
    (h : parser_parse_section_list fuel p alsoSkip = ok (node, q)) : NeutralRun p q := by
  unfold parser_parse_section_list parse_section_list_with at h
  obtain ⟨⟨c, p1⟩, h1, h⟩ := bind_eq_ok h
  simp only [ok.injEq, Prod.mk.injEq] at h
  rw [← h.2]
  exact NeutralRun.of_list_loop _ hsec fuel p p1 init_chain c h1

theorem mask_no_brace {alsoSkip : KindMask} (hA : ∀ k ∈ alsoSkip, k = NK_BREAK) :
    hasKind (NK_SKIP :: alsoSkip) NK_LB = false ∧ hasKind (NK_SKIP :: alsoSkip) NK_RB = false
    ∧ hasKind (NK_CONTENT :: NK_STRING :: NK_SKIP :: alsoSkip) NK_LB = false
    ∧ hasKind (NK_CONTENT :: NK_STRING :: NK_SKIP :: alsoSkip) NK_RB = false
    ∧ hasKind (NK_CONTENT :: NK_STRING :: NK_SKIP :: alsoSkip) NK_EOF = false := by
  have h1 : hasKind alsoSkip NK_LB = false := hasKind_break_only hA (by decide)
  have h2 : hasKind alsoSkip NK_RB = false := hasKind_break_only hA (by decide)
  have h3 : hasKind alsoSkip NK_EOF = false := hasKind_break_only hA (by decide)
  refine ⟨?_, ?_, ?_, ?_, ?_⟩
  · rw [hasKind_cons, h1]; rfl
  · rw [hasKind_cons, h2]; rfl
  · rw [hasKind_params, hasKind_cons, h1]; rfl
  · rw [hasKind_params, hasKind_cons, h2]; rfl
  · rw [hasKind_params, hasKind_cons, h3]; rfl

/-- Lines 334-352 on a `{` in the lookahead, when the section is returned: the
tokens consumed are the `{`, the tokens `g` gobbled after it, the leaves of the
nested section list `ns` (which open and close their blocks among themselves),
the `}` taken at line 339 and the trailing gobbled tokens `tr`; the chain
returned is the chain `c` followed by these tokens, with the nested list as one
node between `g` and the `}`. -/
theorem terminator_block (alsoSkip : KindMask) (hA : ∀ k ∈ alsoSkip, k = NK_BREAK)
    (fuel : Nat)
    (hsec : ∀ p items q, parser_parse_section fuel p alsoSkip = ok (items, q) →
      NeutralRun p q)
    {p q : ParserT} {c : ChainT} {t : Token} {items : List NodeT}
    (h : section_terminator fuel p c t alsoSkip = ok (items, q)) (hl : t.kind = NK_LB)
    (hh : Holds p t) :
    ∃ (g : List Token) (ns : List NodeT) (rb : Token) (tr : List Token),
      Adv p q (t :: (g ++ ((NodeT.chain ns).leaves ++ rb :: tr))) []
      ∧ (∀ x ∈ g, hasKind (NK_SKIP :: alsoSkip) x.kind = true)
      ∧ Neutral (NodeT.chain ns).leaves ∧ rb.kind = NK_RB
      ∧ (∀ x ∈ tr, hasKind (NK_SKIP :: alsoSkip) x.kind = true)
      ∧ items = [NodeT.chain (c.upto ++ NodeT.leaf t :: (g.map NodeT.leaf
          ++ NodeT.chain ns :: NodeT.leaf rb :: tr.map NodeT.leaf))] := by
  have hE : hasKind alsoSkip NK_EOF = false := hasKind_break_only hA (by decide)
  have hR : hasKind alsoSkip NK_RB = false := hasKind_break_only hA (by decide)
  unfold section_terminator at h
  rw [if_pos hl] at h
  obtain ⟨⟨tok5, c5, p5⟩, g, g5⟩ := bind_eq_ok h
  obtain ⟨⟨tk1, tok1, c1, p1⟩, g1, g⟩ := bind_eq_ok g
  obtain ⟨⟨tok2, c2, p2⟩, g2, g⟩ := bind_eq_ok g
  obtain ⟨⟨list, p3⟩, g3, g⟩ := bind_eq_ok g
  obtain ⟨⟨tk4, tok4, c4, p4⟩, g4, g⟩ := bind_eq_ok g
  simp only at g
  cases tk4 with
  | false => simp at g
  | true =>
    simp only [Bool.not_true, Bool.false_eq_true, if_false, ok.injEq, Prod.mk.injEq] at g
    obtain ⟨e1, e2, e3⟩ := g
    subst e1 e2 e3
    obtain ⟨⟨tok6, c6, p6⟩, g6, g7⟩ := bind_eq_ok g5
    simp only [ok.injEq, Prod.mk.injEq] at g7
    obtain ⟨e4, e5⟩ := g7
    subst e5
    have e1 : chain_take p c [NK_LB] false
        = ok (true, t, chain_add c (NodeT.leaf t) [], (consume_token p).2) := by
      unfold chain_take
      rw [peek_of_holds hh]
      simp only [bind_ok]
      rw [if_pos (by rw [hl]; rfl)]
    rw [e1] at g1
    simp only [ok.injEq, Prod.mk.injEq] at g1
    obtain ⟨_, k1, k2, k3⟩ := g1
    subst k1 k2 k3
    obtain ⟨a1, _, _⟩ := consume_spec hh (by rw [hl]; decide)
    obtain ⟨x2, a2, x2e, hx2⟩ := gobble_unless_eol_spec g2 hE
    obtain ⟨cs3, a3, n3⟩ := NeutralRun.of_list alsoSkip fuel hsec g3
    obtain ⟨b3, ns, hns⟩ := section_list_with_spec _ (section_spec alsoSkip hE hR fuel) g3
    have ecs : cs3 = list.leaves :=
      List.append_cancel_left (a3.consumed.symm.trans b3.consumed)
    rw [ecs, hns] at n3
    rw [hns] at b3
    rcases chain_take_spec g4 (by decide) with ⟨_, k4, e4c, a4, _⟩ | ⟨hf, _⟩
    · obtain ⟨x5, a5, x5e, x5k⟩ := gobble_unless_eol_spec g6 hE
      have hrb : tok4.kind = NK_RB := hasKind_single k4
      have hch := (x5e.children (by rw [e4c]; rfl)).1
      refine ⟨x2, ns, tok4, x5, ?_, hx2, n3, hrb, x5k, ?_⟩
      · have := (((a1.adv_trans a2).adv_trans b3).adv_trans a4).adv_trans a5
        simpa [List.append_assoc] using this
      · rw [← e4, hch, e4c, hns]
        simp [ChainT.children, chain_add, x2e.1]
    · exact Bool.noConfusion hf


/-- Lines 334-352: the tokens consumed when the section is returned open and
close their blocks among themselves. -/
theorem terminator_nrun (alsoSkip : KindMask) (hA : ∀ k ∈ alsoSkip, k = NK_BREAK)
    (fuel : Nat)
    (hsec : ∀ p items q, parser_parse_section fuel p alsoSkip = ok (items, q) →
      NeutralRun p q)
    {p q : ParserT} {c : ChainT} {t : Token} {items : List NodeT}
    (h : section_terminator fuel p c t alsoSkip = ok (items, q)) (hh : Holds p t) :
    NeutralRun p q := by
  have hE : hasKind alsoSkip NK_EOF = false := hasKind_break_only hA (by decide)
  obtain ⟨mL, mR, _, _, _⟩ := mask_no_brace hA
  by_cases h1 : t.kind = NK_LB
  · obtain ⟨g, ns, rb, tr, a, hg, hN, hr, htr, _⟩ :=
      terminator_block alsoSkip hA fuel hsec h h1 hh
    refine ⟨_, a, ?_⟩
    have e : t :: (g ++ ((NodeT.chain ns).leaves ++ rb :: tr))
        = (t :: ((g ++ (NodeT.chain ns).leaves) ++ [rb])) ++ tr := by simp
    rw [e]
    exact (((Neutral.of_mask _ hg mL mR).neutral_append hN).block h1 hr).neutral_append
      (Neutral.of_mask _ htr mL mR)
  · unfold section_terminator at h
    rw [if_neg h1] at h
    by_cases h2 : t.kind = NK_SEMI
    · rw [if_pos h2] at h
      obtain ⟨⟨tok5, c5, p5⟩, g, g5⟩ := bind_eq_ok h
      obtain ⟨⟨tk1, tok1, c1, p1⟩, g1, g⟩ := bind_eq_ok g
      simp only [ok.injEq, Prod.mk.injEq] at g
      obtain ⟨e1, e2, e3⟩ := g
      subst e1 e2 e3
      obtain ⟨⟨tok6, c6, p6⟩, g6, g7⟩ := bind_eq_ok g5
      simp only [ok.injEq, Prod.mk.injEq] at g7
      rw [← g7.2]
      exact (NeutralRun.of_take g1 (by decide) (by decide) (by decide)).nrun_trans
        (NeutralRun.of_gobble_unless_eol g6 hE mL mR)
    · rw [if_neg h2] at h
      by_cases h3 : t.kind ≠ NK_BREAK
      · rw [if_pos h3] at h
        simp at h
      · rw [if_neg h3] at h
        obtain ⟨⟨tok5, c5, p5⟩, g, g5⟩ := bind_eq_ok h
        simp only [ok.injEq, Prod.mk.injEq] at g
        obtain ⟨e1, e2, e3⟩ := g
        subst e1 e2 e3
        obtain ⟨⟨tok6, c6, p6⟩, g6, g7⟩ := bind_eq_ok g5
        simp only [ok.injEq, Prod.mk.injEq] at g7
        rw [← g7.2]
        exact NeutralRun.of_gobble_unless_eol g6 hE mL mR

/-- Lines 320-352: the tokens consumed when the section is returned open and
close their blocks among themselves. -/
theorem directive_nrun (alsoSkip : KindMask) (hA : ∀ k ∈ alsoSkip, k = NK_BREAK)
    (fuel : Nat)
    (hsec : ∀ p items q, parser_parse_section fuel p alsoSkip = ok (items, q) →
      NeutralRun p q)
    {p q : ParserT} {c : ChainT} {dir : Token} {items : List NodeT}
    (h : section_directive fuel p c dir alsoSkip = ok (items, q)) :
    NeutralRun p q := by
  have hE : hasKind alsoSkip NK_EOF = false := hasKind_break_only hA (by decide)
  obtain ⟨mL, mR, kL, kR, kE⟩ := mask_no_brace hA
  unfold section_directive at h
  obtain ⟨ok0, h0, hb⟩ := bind_eq_ok h
  clear h
  obtain ⟨⟨tok1, c1, p1⟩, g1, hc⟩ := bind_eq_ok hb
  clear hb
  simp only at hc
  obtain ⟨⟨took, tok2, c2, p2⟩, g2, hd⟩ := bind_eq_ok hc
  clear hc
  simp only at hd
  obtain ⟨⟨ok1, tok3, c3, p3⟩, g3, h⟩ := bind_eq_ok hd
  clear hd
  simp only at h g3
  have r1 := NeutralRun.of_gobble g1 hE mL mR
  have r2 := NeutralRun.of_take g2 kE kL kR
  cases ok1 with
  | false => simp at h
  | true =>
    simp only [Bool.not_true, Bool.false_eq_true, if_false] at h
    cases took with
    | true =>
      simp only [if_true] at g3
      have g4 : parse_section_params (NK_CONTENT :: NK_STRING :: NK_SKIP :: alsoSkip) fuel p2 c2
          = ok (tok3, c3, p3) := by
        have key : ∀ y : Outcome Bool,
            (do
              let y ← y
              if (!y) = true then error ErrorT.directive_and_parameter_invalid dir.line
              else do
                let d ← parse_section_params (NK_CONTENT :: NK_STRING :: NK_SKIP :: alsoSkip)
                  fuel p2 c2
                ok (y, d.1, d.2.1, d.2.2) : Outcome (Bool × Token × ChainT × ParserT))
              = ok (true, tok3, c3, p3) →
            parse_section_params (NK_CONTENT :: NK_STRING :: NK_SKIP :: alsoSkip) fuel p2 c2
              = ok (tok3, c3, p3) := by
          intro y hy
          obtain ⟨b, hb, hy⟩ := bind_eq_ok hy
          cases b with
          | false => simp at hy
          | true =>
            simp only [Bool.not_true, Bool.false_eq_true, if_false] at hy
            obtain ⟨⟨tok4, c4, p4⟩, g4, hy⟩ := bind_eq_ok hy
            simp only [ok.injEq, Prod.mk.injEq] at hy
            obtain ⟨_, e2, e3, e4⟩ := hy
            subst e2 e3 e4
            exact g4
        cases ok0 with
        | true => exact key (ok true) g3
        | false => exact key _ g3
      obtain ⟨_, _, _, hh, _⟩ := params_spec _ kE fuel p2 p3 c2 c3 tok3 g4
      exact (r1.nrun_trans r2).nrun_trans
        ((NeutralRun.of_params _ kE kL kR fuel p2 p3 c2 c3 tok3 g4).nrun_trans
          (terminator_nrun alsoSkip hA fuel hsec h hh))
    | false =>
      simp only [Bool.false_eq_true, if_false, ok.injEq, Prod.mk.injEq] at g3
      obtain ⟨_, e2, e3, e4⟩ := g3
      subst e2 e3 e4
      rcases chain_take_spec g2 kE with ⟨hf, _⟩ | ⟨_, _, _, _, hh⟩
      · exact Bool.noConfusion hf
      · exact (r1.nrun_trans r2).nrun_trans (terminator_nrun alsoSkip hA fuel hsec h hh)

/-- The tokens `parser_parse_section` consumes when it returns open and close
their blocks among themselves: every `{` it consumes is followed by its `}`, and
it consumes no `}` other than these. -/
theorem section_nrun (alsoSkip : KindMask) (hA : ∀ k ∈ alsoSkip, k = NK_BREAK) :
    ∀ (fuel : Nat) (p : ParserT) (items : List NodeT) (q : ParserT),
      parser_parse_section fuel p alsoSkip = ok (items, q) → NeutralRun p q := by
  have hE : hasKind alsoSkip NK_EOF = false := hasKind_break_only hA (by decide)
  obtain ⟨mL, mR, kL, kR, kE⟩ := mask_no_brace hA
  have hE2 : hasKind (NK_SKIP :: alsoSkip) NK_EOF = false := by rw [hasKind_cons, hE]; rfl
  intro fuel
  induction fuel with
  | zero => intro p items q h; simp [parser_parse_section] at h
  | succ n ih =>
    intro p items q h
    rw [section_unfold_directive] at h
    obtain ⟨⟨tok, p1⟩, h1, h⟩ := bind_eq_ok h
    simp only at h
    obtain ⟨a1, hh1⟩ := peek_spec h1
    have r1 : NeutralRun p p1 := NeutralRun.of_peek h1
    by_cases c1 : (hasKind (NK_SKIP :: alsoSkip) tok.kind && tok.ends_line) = true
    · rw [if_pos c1] at h
      simp only [ok.injEq, Prod.mk.injEq] at h
      have hk : hasKind (NK_SKIP :: alsoSkip) tok.kind = true := by
        simp only [Bool.and_eq_true] at c1; exact c1.1
      obtain ⟨a2, _, _⟩ := consume_spec hh1 (hasKind_ne hk hE2)
      rw [← h.2]
      exact r1.nrun_trans ⟨[tok], a2, Neutral.of_mask (NK_SKIP :: alsoSkip)
        (by intro x hx; rw [List.mem_singleton.1 hx]; exact hk) mL mR⟩
    rw [if_neg c1] at h
    by_cases c2 : (decide (tok.kind = NK_BREAK) && !hasKind alsoSkip NK_BREAK) = true
    · rw [if_pos c2] at h
      simp only [ok.injEq, Prod.mk.injEq] at h
      rw [← h.2]; exact r1
    rw [if_neg c2] at h
    by_cases c3 : tok.kind = NK_EOF
    · rw [if_pos c3] at h
      simp only [ok.injEq, Prod.mk.injEq] at h
      rw [← h.2]; exact r1
    rw [if_neg c3] at h
    obtain ⟨⟨tok2, c2x, p2⟩, g2, h⟩ := bind_eq_ok h
    simp only at h
    have r2 := NeutralRun.of_gobble g2 hE mL mR
    by_cases c4 : tok2.kind = NK_RB
    · rw [if_pos c4] at h
      simp only [ok.injEq, Prod.mk.injEq] at h
      rw [← h.2]; exact r1.nrun_trans r2
    rw [if_neg c4] at h
    obtain ⟨⟨took, tok3, c3x, p3⟩, g3, h⟩ := bind_eq_ok h
    simp only at h
    have r3 := NeutralRun.of_take g3 (by decide) (by decide) (by decide)
    cases took with
    | false => simp at h
    | true =>
      simp only [Bool.not_true, Bool.false_eq_true, if_false] at h
      exact (r1.nrun_trans r2).nrun_trans
        (r3.nrun_trans (directive_nrun alsoSkip hA n (ih) h))

theorem block_split (alsoSkip : KindMask) (hA : ∀ k ∈ alsoSkip, k = NK_BREAK)
    (P : List Token) (lb : Token) (B : List Token)
    (hP : ∀ x ∈ P, hasKind (NK_CONTENT :: NK_STRING :: NK_SKIP :: alsoSkip) x.kind = true)
    (hl : lb.kind = NK_LB) :
    (P ++ lb :: B).takeWhile
        (fun t => hasKind (NK_CONTENT :: NK_STRING :: NK_SKIP :: alsoSkip) t.kind) = P
    ∧ (P ++ lb :: B).dropWhile
        (fun t => hasKind (NK_CONTENT :: NK_STRING :: NK_SKIP :: alsoSkip) t.kind) = lb :: B := by
  obtain ⟨_, _, kL, _, _⟩ := mask_no_brace hA
  have hn : hasKind (NK_CONTENT :: NK_STRING :: NK_SKIP :: alsoSkip) lb.kind = false := by
    rw [hl]; exact kL
  constructor
  · rw [List.takeWhile_append_of_pos hP, List.takeWhile_cons_of_neg (by simp [hn])]
    simp
  · rw [List.dropWhile_append_of_pos hP, List.dropWhile_cons_of_neg (by simp [hn])]

/-- The section `w P { B` that is returned: `B` begins with the tokens `g` gobbled
after the `{`, the leaves of the nested section list `ns`, the `}` that closes
the block and the trailing gobbled tokens `tr`. -/
theorem section_block_shape (alsoSkip : KindMask) (hA : ∀ k ∈ alsoSkip, k = NK_BREAK)
    (dom : CStr) (ab : Bool) (cs : List BindingT) (el : Nat) (w : Token) (n : CStr)
    (P : List Token) (lb : Token) (B : List Token) (fuel : Nat) (items : List NodeT)
    (q : ParserT) (hw : w.kind = NK_WORD) (hn : w.text = some n)
    (hP : ∀ x ∈ P, hasKind (NK_CONTENT :: NK_STRING :: NK_SKIP :: alsoSkip) x.kind = true)
    (hl : lb.kind = NK_LB) (hf : (P ++ lb :: B).length + 1 ≤ fuel)
    (hok : parser_parse_section (fuel + 1) (parser_init dom ab cs ⟨w :: (P ++ lb :: B), el⟩)
      alsoSkip = ok (items, q)) :
    ∃ (g : List Token) (ns : List NodeT) (rb : Token) (tr R : List Token),
      B = g ++ ((NodeT.chain ns).leaves ++ rb :: (tr ++ R))
      ∧ (∀ x ∈ g, hasKind (NK_SKIP :: alsoSkip) x.kind = true)
      ∧ Neutral (NodeT.chain ns).leaves ∧ rb.kind = NK_RB
      ∧ (∀ x ∈ tr, hasKind (NK_SKIP :: alsoSkip) x.kind = true)
      ∧ q.consumed = w :: (P ++ lb :: (g ++ ((NodeT.chain ns).leaves ++ rb :: tr)))
      ∧ items = [NodeT.chain ((w :: P).map NodeT.leaf ++ NodeT.leaf lb :: (g.map NodeT.leaf
          ++ NodeT.chain ns :: NodeT.leaf rb :: tr.map NodeT.leaf))]
      ∧ block_closes 0 B = true := by
  obtain ⟨mL, mR, _, _, _⟩ := mask_no_brace hA
  obtain ⟨eT, eD⟩ := block_split alsoSkip hA P lb B hP hl
  obtain ⟨q1, r1, _, _, d1, h⟩ := section_head_any alsoSkip hA w n (P ++ lb :: B) fuel
    (parser_init dom ab cs ⟨w :: (P ++ lb :: B), el⟩) (And.intro rfl rfl) hw hn hf
  rw [eT] at d1 h
  rw [eD] at r1 h
  rcases h with h | ⟨_, h | h⟩
  · rw [h] at hok
    have hh : Holds q1 lb := r1.1
    have hok2 : section_terminator fuel q1 (chain_add_tokens init_chain (w :: P)) lb alsoSkip
        = ok (items, q) := hok
    obtain ⟨g, ns, rb, tr, a, hg, hN, hr, htr, hi⟩ :=
      terminator_block alsoSkip hA fuel (section_nrun alsoSkip hA fuel) hok2 hl hh
    obtain ⟨k, hk⟩ := a.stream
    rw [ahead_reads r1] at hk
    obtain ⟨R, hR⟩ := prefix_of_stream hk a.no_eof
    have eB : B = g ++ ((NodeT.chain ns).leaves ++ rb :: (tr ++ R)) := by
      have : lb :: (g ++ ((NodeT.chain ns).leaves ++ rb :: (tr ++ R))) = lb :: B := by
        rw [← hR]; simp
      exact (List.cons.inj this).2.symm
    refine ⟨g, ns, rb, tr, R, eB, hg, hN, hr, htr, ?_, ?_, ?_⟩
    · rw [a.consumed, d1]
      simp [parser_init]
    · rw [hi]
      have : (chain_add_tokens init_chain (w :: P)).upto = (w :: P).map NodeT.leaf := by
        have := (foldl_chain_add_ext (w :: P) init_chain).1
        simpa [chain_add_tokens, init_chain] using this
      rw [this]
    · have hr2 : rb.kind ≠ NK_LB := by rw [hr]; decide
      rw [eB, Neutral.of_mask _ hg mL mR 0, hN 0, block_closes_cons, if_neg hr2, if_pos hr]
  · rw [h] at hok; exact Outcome.noConfusion hok
  · rw [h] at hok; exact Outcome.noConfusion hok


/-- Lines 334-343 on a `{` in the lookahead, on a stream `{ B` whose `WORD` tokens
carry their text: after the `{` and the gobbled tokens `g` the nested section
list is parsed from the rest `B2` of the stream. A fatal error of the nested
list is the outcome; when the nested list returns, having consumed `N`, the
section is returned if the next token is a `}`, and the outcome is the error
"} expected" at the line of the next token otherwise. -/
theorem terminator_block_cases (alsoSkip : KindMask) (hE : hasKind alsoSkip NK_EOF = false)
    (el fuel : Nat) (p : ParserT) (lb : Token) (B : List Token) (c : ChainT)
    (hr : Reads p (lb :: B)) (he : p.scanner.eof_line = el) (hl : lb.kind = NK_LB)
    (hw : WordsHaveText B) (hf : B.length + 2 ≤ fuel) :
    ∃ (g B2 : List Token) (p2 : ParserT),
      B = g ++ B2 ∧ (∀ x ∈ g, hasKind (NK_SKIP :: alsoSkip) x.kind = true)
      ∧ At el p2 B2 ∧ p2.consumed = p.consumed ++ lb :: g ∧ p2.constraints = p.constraints
      ∧ ((∃ e l, parser_parse_section_list fuel p2 alsoSkip = error e l
            ∧ section_terminator fuel p c lb alsoSkip = error e l)
        ∨ ∃ (list : NodeT) (p3 : ParserT) (N R : List Token),
            parser_parse_section_list fuel p2 alsoSkip = ok (list, p3)
            ∧ B2 = N ++ R ∧ p3.consumed = p2.consumed ++ N
            ∧ ((next_of R el).kind = NK_RB →
                ∃ items q, section_terminator fuel p c lb alsoSkip = ok (items, q))
            ∧ ((next_of R el).kind ≠ NK_RB →
                section_terminator fuel p c lb alsoSkip
                  = error ErrorT.rbrace_expected (next_of R el).line)) := by
  have ha : At el p (lb :: B) := At.of_reads hr he
  unfold section_terminator
  rw [if_pos hl]
  rcases ha.at_take c [NK_LB] (by decide) false with
    ⟨t, T2, q1, e1, _, g1, f1, el1, d1⟩ | ⟨q1, hk, _⟩
  · obtain ⟨et, eT⟩ := List.cons.inj e1
    subst et eT
    rw [g1]
    simp only [bind_ok]
    obtain ⟨tok2, g, T3, q2, e2, g2, a2, d2⟩ := (At.of_fresh f1 el1).at_gobble_unless_eol
      (chain_add c (NodeT.leaf lb) []) lb alsoSkip hE false fuel (by omega)
    rw [g2]
    simp only [bind_ok]
    have hT3 : T3.length ≤ B.length := by rw [e2]; simp
    have hw3 : WordsHaveText T3 := At.wf_rest hw e2
    obtain ⟨xs, ax, _, hxs⟩ := gobble_unless_eol_spec g2 hE
    have exs : xs = g := List.append_cancel_left (ax.consumed.symm.trans d2)
    rw [exs] at hxs
    have hcon : q2.constraints = p.constraints := by
      rcases chain_take_spec g1 (by decide) with ⟨_, _, _, a, _⟩ | ⟨_, _, _, a, _⟩
      · rw [ax.constraints, a.constraints]
      · rw [ax.constraints, a.constraints]
    refine ⟨g, T3, q2, e2, hxs, a2, by rw [d2, d1]; simp, hcon, ?_⟩
    rcases list_settles alsoSkip el fuel (section_settles alsoSkip hE el fuel) q2 T3 a2 hw3
      (by omega) with ⟨e, l, h3⟩ | ⟨⟨list, q3⟩, cs3, T4, h3, e3, d3, a3, _⟩
    · left
      refine ⟨e, l, h3, ?_⟩
      rw [h3]; rfl
    · right
      refine ⟨list, q3, cs3, T4, h3, e3, d3, ?_⟩
      rw [h3]
      simp only [bind_ok]
      have hT4 : T4.length ≤ T3.length := by rw [e3]; simp
      rcases a3.at_take (chain_add (chain_add_tokens (chain_add c (NodeT.leaf lb) []) g) list [])
        [NK_RB] (by decide) true with ⟨rb, T5, q4, e4, k4, g4, f4, el4, d4⟩ | ⟨q4, k4, g4, _⟩
      · rw [g4]
        simp only [bind_ok, Bool.not_true, Bool.false_eq_true, if_false]
        have hT5 : T5.length + 1 = T4.length := by rw [e4]; simp
        obtain ⟨tok5, g5, T6, q5, e5, g6, a5, d5⟩ := (At.of_fresh f4 el4).at_gobble_unless_eol
          (chain_add (chain_add (chain_add_tokens (chain_add c (NodeT.leaf lb) []) g) list [])
            (NodeT.leaf rb) []) rb alsoSkip hE true fuel (by omega)
        rw [g6]
        refine ⟨fun _ => ⟨_, _, rfl⟩, fun hn => ?_⟩
        rw [e4] at hn
        exact absurd (hasKind_single k4) hn
      · rw [g4]
        refine ⟨fun hk => ?_, fun _ => rfl⟩
        rw [hk] at k4
        exact Bool.noConfusion k4
  · have : hasKind [NK_LB] (next_of (lb :: B) el).kind = true := by
      show hasKind [NK_LB] lb.kind = true
      rw [hl]; rfl
    rw [this] at hk
    exact Bool.noConfusion hk


/-- C11: the section terminator rule, on every stream `w :: L` that begins with a
directive word. Let `t` be the first token after `w` that is not of parameter
class (`CONTENT`, `STRING`, `SKIP` or `alsoSkip`), the end of input when there
is none. (1) If `t` is none of `{`, `;` and `BREAK`, `parser_parse_section`
ends in a fatal error: "{ or ; expected" at the line of `t`, unless the
constraints reject the directive first. (2) If the call returns the section, `t`
is `;`, `BREAK` or `{`, and after a `{` a `}` follows in the stream. (3) On a
stream `w P { B` whose section is returned, `B` is made of the tokens `g`
gobbled after the `{`, then the leaves of the nested section list `ns`, which
open and close their blocks among themselves, then a `}`, then the trailing
gobbled tokens `tr`, then the unread rest `R`: the `}` taken at line 339 is the
one that matches the `{` (`block_closes 0 B`), the call consumed exactly the
tokens up to `tr`, and the chain returned holds `w`, `P`, the `{`, `g`, the
nested list as one node, the `}` and `tr`, in this order. (4) On a stream
`w P { B` whose `WORD` tokens carry their text, with fuel for its length, the
call returns or ends in a fatal error, and it ends in a fatal error whenever the
`{` is not closed in `B`. (5) On such a stream, unless the constraints reject the
directive, the nested section list is parsed from the state `p2` that stands
after the `{` and the tokens `g` gobbled behind it: a fatal error of the nested
list is the outcome of the call; when the nested list returns, having consumed
`N`, the section is returned if the next token is a `}`, and the outcome is the
error "} expected" at the line of the next token (the end of input included)
otherwise. So a directive followed by the end of input is the
error "{ or ; expected", and blocks, nested ones too, that reach the end of
input are the error "} expected", as is in template mode a block whose nested
list stops at a `BREAK` before the `}`; `n;`, `n { }`, `n { a { } }` and, in
template mode, `n` before a `BREAK` are accepted. -/
theorem section_terminator_rule :
    (∀ (alsoSkip : KindMask) (dom : CStr) (ab : Bool) (cs : List BindingT) (el : Nat)
      (w : Token) (n : CStr) (L : List Token) (fuel : Nat),
      (∀ k ∈ alsoSkip, k = NK_BREAK) → w.kind = NK_WORD → w.text = some n →
      L.length + 1 ≤ fuel →
      (next_of (L.dropWhile (fun t =>
        hasKind (NK_CONTENT :: NK_STRING :: NK_SKIP :: alsoSkip) t.kind)) el).kind ≠ NK_LB →
      (next_of (L.dropWhile (fun t =>
        hasKind (NK_CONTENT :: NK_STRING :: NK_SKIP :: alsoSkip) t.kind)) el).kind ≠ NK_SEMI →
      (next_of (L.dropWhile (fun t =>
        hasKind (NK_CONTENT :: NK_STRING :: NK_SKIP :: alsoSkip) t.kind)) el).kind ≠ NK_BREAK →
      parser_parse_section (fuel + 1) (parser_init dom ab cs ⟨w :: L, el⟩) alsoSkip
          = error ErrorT.lbrace_or_semi_expected (next_of (L.dropWhile (fun t =>
              hasKind (NK_CONTENT :: NK_STRING :: NK_SKIP :: alsoSkip) t.kind)) el).line
        ∨ (cs ≠ [] ∧
          (parser_parse_section (fuel + 1) (parser_init dom ab cs ⟨w :: L, el⟩) alsoSkip
              = error ErrorT.directive_and_parameter_invalid w.line
            ∨ parser_parse_section (fuel + 1) (parser_init dom ab cs ⟨w :: L, el⟩) alsoSkip
              = error ErrorT.directive_invalid w.line))) ∧
    (∀ (alsoSkip : KindMask) (dom : CStr) (ab : Bool) (cs : List BindingT) (el : Nat)
      (w : Token) (n : CStr) (L : List Token) (fuel : Nat) (items : List NodeT) (q : ParserT),
      (∀ k ∈ alsoSkip, k = NK_BREAK) → w.kind = NK_WORD → w.text = some n →
      L.length + 1 ≤ fuel →
      parser_parse_section (fuel + 1) (parser_init dom ab cs ⟨w :: L, el⟩) alsoSkip
        = ok (items, q) →
      (next_of (L.dropWhile (fun t =>
        hasKind (NK_CONTENT :: NK_STRING :: NK_SKIP :: alsoSkip) t.kind)) el).kind = NK_SEMI
      ∨ (next_of (L.dropWhile (fun t =>
        hasKind (NK_CONTENT :: NK_STRING :: NK_SKIP :: alsoSkip) t.kind)) el).kind = NK_BREAK
      ∨ ((next_of (L.dropWhile (fun t =>
          hasKind (NK_CONTENT :: NK_STRING :: NK_SKIP :: alsoSkip) t.kind)) el).kind = NK_LB
        ∧ ∃ rb ∈ (L.dropWhile (fun t =>
            hasKind (NK_CONTENT :: NK_STRING :: NK_SKIP :: alsoSkip) t.kind)).tail,
          rb.kind = NK_RB)) ∧
    (∀ (alsoSkip : KindMask) (dom : CStr) (ab : Bool) (cs : List BindingT) (el : Nat)
      (w : Token) (n : CStr) (P : List Token) (lb : Token) (B : List Token) (fuel : Nat)
      (items : List NodeT) (q : ParserT),
      (∀ k ∈ alsoSkip, k = NK_BREAK) → w.kind = NK_WORD → w.text = some n →
      (∀ x ∈ P, hasKind (NK_CONTENT :: NK_STRING :: NK_SKIP :: alsoSkip) x.kind = true) →
      lb.kind = NK_LB → (P ++ lb :: B).length + 1 ≤ fuel →
      parser_parse_section (fuel + 1) (parser_init dom ab cs ⟨w :: (P ++ lb :: B), el⟩) alsoSkip
        = ok (items, q) →
      ∃ (g : List Token) (ns : List NodeT) (rb : Token) (tr R : List Token),
        B = g ++ ((NodeT.chain ns).leaves ++ rb :: (tr ++ R))
        ∧ (∀ x ∈ g, hasKind (NK_SKIP :: alsoSkip) x.kind = true)
        ∧ Neutral (NodeT.chain ns).leaves ∧ rb.kind = NK_RB
        ∧ (∀ x ∈ tr, hasKind (NK_SKIP :: alsoSkip) x.kind = true)
        ∧ q.consumed = w :: (P ++ lb :: (g ++ ((NodeT.chain ns).leaves ++ rb :: tr)))
        ∧ items = [NodeT.chain ((w :: P).map NodeT.leaf ++ NodeT.leaf lb :: (g.map NodeT.leaf
            ++ NodeT.chain ns :: NodeT.leaf rb :: tr.map NodeT.leaf))]
        ∧ block_closes 0 B = true) ∧
    (∀ (alsoSkip : KindMask) (dom : CStr) (ab : Bool) (cs : List BindingT) (el : Nat)
      (w : Token) (n : CStr) (P : List Token) (lb : Token) (B : List Token) (fuel : Nat),
      (∀ k ∈ alsoSkip, k = NK_BREAK) → w.kind = NK_WORD → w.text = some n →
      (∀ x ∈ P, hasKind (NK_CONTENT :: NK_STRING :: NK_SKIP :: alsoSkip) x.kind = true) →
      lb.kind = NK_LB → WordsHaveText B → (P ++ lb :: B).length + 2 ≤ fuel →
      ((∃ e l, parser_parse_section (fuel + 1)
            (parser_init dom ab cs ⟨w :: (P ++ lb :: B), el⟩) alsoSkip = error e l)
        ∨ ∃ items q, parser_parse_section (fuel + 1)
            (parser_init dom ab cs ⟨w :: (P ++ lb :: B), el⟩) alsoSkip = ok (items, q))
      ∧ (block_closes 0 B = false →
        ∃ e l, parser_parse_section (fuel + 1)
          (parser_init dom ab cs ⟨w :: (P ++ lb :: B), el⟩) alsoSkip = error e l)) ∧
    (∀ (alsoSkip : KindMask) (dom : CStr) (ab : Bool) (cs : List BindingT) (el : Nat)
      (w : Token) (n : CStr) (P : List Token) (lb : Token) (B : List Token) (fuel : Nat),
      (∀ k ∈ alsoSkip, k = NK_BREAK) → w.kind = NK_WORD → w.text = some n →
      (∀ x ∈ P, hasKind (NK_CONTENT :: NK_STRING :: NK_SKIP :: alsoSkip) x.kind = true) →
      lb.kind = NK_LB → WordsHaveText B → (P ++ lb :: B).length + 2 ≤ fuel →
      (cs ≠ [] ∧
        (parser_parse_section (fuel + 1)
              (parser_init dom ab cs ⟨w :: (P ++ lb :: B), el⟩) alsoSkip
            = error ErrorT.directive_and_parameter_invalid w.line
          ∨ parser_parse_section (fuel + 1)
              (parser_init dom ab cs ⟨w :: (P ++ lb :: B), el⟩) alsoSkip
            = error ErrorT.directive_invalid w.line))
      ∨ ∃ (g B2 : List Token) (p2 : ParserT),
        B = g ++ B2 ∧ (∀ x ∈ g, hasKind (NK_SKIP :: alsoSkip) x.kind = true)
        ∧ At el p2 B2 ∧ p2.consumed = w :: (P ++ lb :: g) ∧ p2.constraints = cs
        ∧ ((∃ e l, parser_parse_section_list fuel p2 alsoSkip = error e l
              ∧ parser_parse_section (fuel + 1)
              (parser_init dom ab cs ⟨w :: (P ++ lb :: B), el⟩) alsoSkip
                = error e l)
          ∨ ∃ (list : NodeT) (p3 : ParserT) (N R : List Token),
              parser_parse_section_list fuel p2 alsoSkip = ok (list, p3)
              ∧ B2 = N ++ R ∧ p3.consumed = p2.consumed ++ N
              ∧ ((next_of R el).kind = NK_RB →
                  ∃ items q, parser_parse_section (fuel + 1)
              (parser_init dom ab cs ⟨w :: (P ++ lb :: B), el⟩) alsoSkip
                    = ok (items, q))
              ∧ ((next_of R el).kind ≠ NK_RB →
                  parser_parse_section (fuel + 1)
              (parser_init dom ab cs ⟨w :: (P ++ lb :: B), el⟩) alsoSkip
                    = error ErrorT.rbrace_expected (next_of R el).line))) ∧
    parser_parse_section 4 (parser_init [] false []
        ⟨[⟨NK_WORD, some "n".toList, 1, false⟩], 2⟩) [NK_BREAK]
      = error ErrorT.lbrace_or_semi_expected 2 ∧
    parser_parse_section 4 (parser_init [] false []
        ⟨[⟨NK_WORD, some "n".toList, 1, false⟩, ⟨NK_CONTENT, some "v".toList, 1, true⟩], 2⟩)
        [NK_BREAK]
      = error ErrorT.lbrace_or_semi_expected 2 ∧
    parser_parse_section 4 (parser_init [] false []
        ⟨[⟨NK_WORD, some "n".toList, 1, false⟩, ⟨NK_LB, none, 1, true⟩], 2⟩) [NK_BREAK]
      = error ErrorT.rbrace_expected 2 ∧
    parser_parse_section 4 (parser_init [] false []
        ⟨[⟨NK_WORD, some "n".toList, 1, false⟩, ⟨NK_LB, none, 1, true⟩,
          ⟨NK_WORD, some "m".toList, 2, false⟩, ⟨NK_SEMI, none, 2, true⟩], 3⟩) [NK_BREAK]
      = error ErrorT.rbrace_expected 3 ∧
    (parser_parse_section 4 (parser_init [] false []
        ⟨[⟨NK_WORD, some "n".toList, 1, false⟩, ⟨NK_SEMI, none, 1, true⟩], 2⟩)
        [NK_BREAK]).isOk = true ∧
    (parser_parse_section 4 (parser_init [] false []
        ⟨[⟨NK_WORD, some "n".toList, 1, false⟩, ⟨NK_LB, none, 1, true⟩,
          ⟨NK_RB, none, 2, true⟩], 3⟩) [NK_BREAK]).isOk = true ∧
    (parser_parse_section 4 (parser_init [] true []
        ⟨[⟨NK_WORD, some "n".toList, 1, false⟩, ⟨NK_BREAK, some "---".toList, 2, true⟩], 3⟩)
        []).isOk = true ∧
    parser_parse_section 7 (parser_init [] false []
        ⟨[⟨NK_WORD, some "n".toList, 1, false⟩, ⟨NK_LB, none, 1, true⟩,
          ⟨NK_WORD, some "a".toList, 2, false⟩, ⟨NK_LB, none, 2, true⟩,
          ⟨NK_RB, none, 3, true⟩], 4⟩) [NK_BREAK]
      = error ErrorT.rbrace_expected 4 ∧
    (parser_parse_section 8 (parser_init [] false []
        ⟨[⟨NK_WORD, some "n".toList, 1, false⟩, ⟨NK_LB, none, 1, true⟩,
          ⟨NK_WORD, some "a".toList, 2, false⟩, ⟨NK_LB, none, 2, true⟩,
          ⟨NK_RB, none, 3, true⟩, ⟨NK_RB, none, 4, true⟩], 5⟩) [NK_BREAK]).isOk = true ∧
    parser_parse_section 8 (parser_init [] true []
        ⟨[⟨NK_WORD, some "n".toList, 1, false⟩, ⟨NK_LB, none, 1, true⟩,
          ⟨NK_WORD, some "a".toList, 2, false⟩, ⟨NK_SEMI, none, 2, true⟩,
          ⟨NK_BREAK, some "---".toList, 3, true⟩, ⟨NK_RB, none, 4, true⟩], 5⟩) []
      = error ErrorT.rbrace_expected 3 := by
  refine ⟨?_, ?_, ?_, ?_, ?_, by rfl, by rfl, by rfl, by rfl, by rfl, by rfl, by rfl, by rfl, by rfl,
    by rfl⟩
  · intro alsoSkip dom ab cs el w n L fuel hA hw hn hf h1 h2 h3
    obtain ⟨q, _, _, _, _, h⟩ := section_head_any alsoSkip hA w n L fuel
      (parser_init dom ab cs ⟨w :: L, el⟩) (And.intro rfl rfl) hw hn hf
    rcases h with h | h
    · left
      rw [h]
      exact section_terminator_other alsoSkip _ fuel q _ h1 h2 h3
    · exact Or.inr h
  · intro alsoSkip dom ab cs el w n L fuel items q hA hw hn hf hok
    obtain ⟨q1, r1, _, _, _, h⟩ := section_head_any alsoSkip hA w n L fuel
      (parser_init dom ab cs ⟨w :: L, el⟩) (And.intro rfl rfl) hw hn hf
    rcases h with h | ⟨_, h | h⟩
    · rw [h] at hok
      rcases section_terminator_accepts alsoSkip (hasKind_break_only hA (by decide))
        (hasKind_break_only hA (by decide)) hok with g | g | ⟨g, rb, xs, _, _, hrb, a, hm, _⟩
      · exact Or.inl g
      · exact Or.inr (Or.inl g)
      · right; right
        refine ⟨g, rb, ?_, hrb⟩
        obtain ⟨t, T2, eT, ht⟩ := next_of_kind_cons (by decide) g
        change L.dropWhile _ = _ at eT
        rw [eT] at r1 ⊢
        obtain ⟨k, hk⟩ := a.stream
        rw [ahead_reads r1] at hk
        have : rb ∈ xs ++ ahead q := List.mem_append_left _ hm
        rw [hk] at this
        rcases List.mem_append.1 this with m | m
        · rcases List.mem_cons.1 m with m | m
          · rw [m, ht] at hrb; exact absurd hrb (by decide)
          · exact m
        · rw [List.eq_of_mem_replicate m] at hrb
          exact absurd hrb (by intro e; cases e)
    · rw [h] at hok; exact Outcome.noConfusion hok
    · rw [h] at hok; exact Outcome.noConfusion hok
  · intro alsoSkip dom ab cs el w n P lb B fuel items q hA hw hn hP hl hf hok
    exact section_block_shape alsoSkip hA dom ab cs el w n P lb B fuel items q hw hn hP hl hf hok
  · intro alsoSkip dom ab cs el w n P lb B fuel hA hw hn hP hl hB hf
    have hE : hasKind alsoSkip NK_EOF = false := hasKind_break_only hA (by decide)
    have hW : hasKind (NK_CONTENT :: NK_STRING :: NK_SKIP :: alsoSkip) NK_WORD = false := by
      rw [hasKind_params, hasKind_cons, hasKind_break_only hA (by decide)]; rfl
    have hwt : WordsHaveText (w :: (P ++ lb :: B)) := by
      intro t ht hk
      rcases List.mem_cons.1 ht with e | ht
      · rw [e, hn]; exact Option.some_ne_none n
      · rcases List.mem_append.1 ht with m | m
        · exact absurd hk (hasKind_ne (hP t m) hW)
        · rcases List.mem_cons.1 m with e | m
          · rw [e, hl] at hk; exact absurd hk (by decide)
          · exact hB t m hk
    have hs := section_settles alsoSkip hE el (fuel + 1)
      (parser_init dom ab cs ⟨w :: (P ++ lb :: B), el⟩) (w :: (P ++ lb :: B))
      (At.of_fresh (And.intro rfl rfl) rfl) hwt (by simp only [List.length_cons]; omega)
    have hd : (∃ e l, parser_parse_section (fuel + 1)
          (parser_init dom ab cs ⟨w :: (P ++ lb :: B), el⟩) alsoSkip = error e l)
        ∨ ∃ items q, parser_parse_section (fuel + 1)
          (parser_init dom ab cs ⟨w :: (P ++ lb :: B), el⟩) alsoSkip = ok (items, q) := by
      rcases hs with he | ⟨a, _, _, ha, _⟩
      · exact Or.inl he
      · exact Or.inr ⟨a.1, a.2, ha⟩
    refine ⟨hd, fun hc => ?_⟩
    rcases hd with he | ⟨items, q, hok⟩
    · exact he
    · obtain ⟨_, _, _, _, _, _, _, _, _, _, _, _, hb⟩ :=
        section_block_shape alsoSkip hA dom ab cs el w n P lb B fuel items q hw hn hP hl
          (by omega) hok
      rw [hc] at hb
      exact Bool.noConfusion hb

  · intro alsoSkip dom ab cs el w n P lb B fuel hA hw hn hP hl hB hf
    have hE : hasKind alsoSkip NK_EOF = false := hasKind_break_only hA (by decide)
    obtain ⟨eT, eD⟩ := block_split alsoSkip hA P lb B hP hl
    obtain ⟨q1, r1, e1, k1, d1, h⟩ := section_head_any alsoSkip hA w n (P ++ lb :: B) fuel
      (parser_init dom ab cs ⟨w :: (P ++ lb :: B), el⟩) (And.intro rfl rfl) hw hn
      (by omega)
    rw [eT] at d1 h
    rw [eD] at r1 h
    rcases h with h | h
    · right
      have h2 : parser_parse_section (fuel + 1)
          (parser_init dom ab cs ⟨w :: (P ++ lb :: B), el⟩) alsoSkip
          = section_terminator fuel q1 (chain_add_tokens init_chain (w :: P)) lb alsoSkip := h
      rw [h2]
      obtain ⟨g, B2, p2, eB, hg, a2, d2, k2, hc⟩ := terminator_block_cases alsoSkip hE el fuel q1
        lb B (chain_add_tokens init_chain (w :: P)) r1 e1 hl hB
        (by simp only [List.length_append, List.length_cons] at hf; omega)
      refine ⟨g, B2, p2, eB, hg, a2, ?_, by rw [k2, k1]; rfl, hc⟩
      rw [d2, d1]
      simp [parser_init]
    · exact Or.inl h

/-- The relation `Neutral` tells balanced token lists from others: a lone `{`, a
lone `}` and the pair `}` `{` are not neutral, the pair `{` `}` is. -/
theorem neutral_strict :
    ¬ Neutral [⟨NK_LB, none, 1, true⟩] ∧ ¬ Neutral [⟨NK_RB, none, 1, true⟩]
    ∧ ¬ Neutral [⟨NK_RB, none, 1, true⟩, ⟨NK_LB, none, 1, true⟩]
    ∧ Neutral [⟨NK_LB, none, 1, true⟩, ⟨NK_RB, none, 1, true⟩] := by
  refine ⟨fun h => ?_, fun h => ?_, fun h => ?_, ?_⟩
  · exact absurd (h 0 [⟨NK_RB, none, 1, true⟩]) (by decide)
  · exact absurd (h 0 []) (by decide)
  · exact absurd (h 0 []) (by decide)
  · exact Neutral.block (N := []) Neutral.neutral_nil rfl rfl

end Ngxsbs
